import Mathlib

/-! # TaaR_Coding_Style: line iterator, line-end selection and option parsing

A shallow embedding of parts of `TaaR_Coding_Style/src/main.cpp` and `main.h`:

* `TRStreamIterator` (`nextLine`, `peekNextLine`, `peekReset`, `saveLastInputLine`,
  `getLineEndChange`, `compareToInputBuffer`, `getOutputEOL`, `hasMoreLines`);
* `ASConsole::initializeOutputEOL`, `ASConsole::setOutputEOL`, `ASConsole::convertLineEnds`
  and the conversions between UTF-16 and UTF-8 (`Utf8LengthFromUtf16`, `Utf16ToUtf8`,
  `Utf8ToUtf16`);
* `ASOptions::parseOptions`, `parseOption` and their helpers, and `ASOptions::importOptions`;
* the character classes, `findKeyword` and `getCurrentWord` of `TRBase` (`TaaRRule.h`,
  `TRResource.cpp`);
* the build functions of `TRResource` (`TRResource.cpp`).

Conventions of the embedding.

* A `std::string` is a `List Char`; a C string held in a `char[4]` is the list of its
  characters before the terminating NUL.
* The input stream (`std::stringstream` in `ASConsole::formatFile`) is the record `IStream`:
  the characters, the get position, and the `eofbit` and `failbit` state flags.
* `assert(...)` is a run-time check: a function whose assertion fails returns `none`.
* The `int` counters of the iterator only ever count upwards from zero; they are natural
  numbers here (overflow of a 32-bit counter is not modelled).
* `std::sort` is taken by its contract, `StdSort`: the range it leaves is a rearrangement of
  the range it was given in which no element is ordered by the comparison before an earlier
  one. A build function that sorts is the relation between the vector it is given and a
  vector it may leave; the order of entries of equal length is not fixed.
* The classification functions of `<cctype>` are those of the C locale, and `atoi` is that of
  the GNU C library, `(int) strtol(nptr, NULL, 10)` with a 64-bit `long` and a 32-bit `int`.
* A byte is a natural number below 256, and a buffer of bytes is a list; the machine stores
  the low byte of a 16-bit value first, and `size_t` has 64 bits.
* The calls that `ASOptions::parseOption` makes on the formatter, on the console object and
  on the error stream pointer are recorded, in order, in a list of `Call` values.

Next to the functions of the program stand the notions the statements are written with:
the lines and terminators of a text (`splitLines`, `terminators`, `innerTerminators`), the
majority rule (`majorityEOL`), the short options of an argument (`splitShort`), the tokens
of an options text (`optionTokens`), the first matching entry of a table (`firstMatch`) and
a text with its line terminators replaced (`withLineEnds`).
-/

set_option autoImplicit false

namespace TaaRRule

/-! ## The input stream -/

/-- The state of a `std::istream` over an in-memory character sequence. -/
structure IStream where
  data : List Char
  pos : Nat
  eofbit : Bool
  failbit : Bool
deriving DecidableEq, Repr

namespace IStream

/-- The function `ios::good()`: no state flag is set. -/
def good (s : IStream) : Bool := !s.eofbit && !s.failbit

/-- The function `ios::eof()`. -/
def eof (s : IStream) : Bool := s.eofbit

/-- The function `istream::get(char&)`: when the stream is good and a character is available it
is extracted and stored; at the end of the data `eofbit` and `failbit` are set and the
character variable keeps its value; on a stream that is not good the sentry sets `failbit`. -/
def get (s : IStream) (ch : Char) : IStream × Char :=
  if s.good then
    match s.data[s.pos]? with
    | some c => ({ s with pos := s.pos + 1 }, c)
    | none => ({ s with eofbit := true, failbit := true }, ch)
  else ({ s with failbit := true }, ch)

/-- The function `istream::get()` with its result discarded. -/
def skip (s : IStream) : IStream := (s.get (Char.ofNat 0)).1

/-- The function `istream::peek()`: the next character without extracting it; `none` stands for
the value `EOF`, returned with `eofbit` set at the end of the data. -/
def peek (s : IStream) : IStream × Option Char :=
  if s.good then
    match s.data[s.pos]? with
    | some c => (s, some c)
    | none => ({ s with eofbit := true }, none)
  else ({ s with failbit := true }, none)

/-- The function `ios::clear()`: all state flags are reset. -/
def clear (s : IStream) : IStream := { s with eofbit := false, failbit := false }

/-- The function `istream::tellg()`: the get position, or `-1` when the stream is not good. -/
def tellg (s : IStream) : IStream × Int :=
  if s.good then (s, (s.pos : Int)) else ({ s with failbit := true }, -1)

/-- The function `istream::seekg(pos)`: `eofbit` is cleared first; the position is set when the
stream has not failed and the target lies inside the data, otherwise `failbit` is set. -/
def seekg (s : IStream) (p : Int) : IStream :=
  let s1 := { s with eofbit := false }
  if s1.failbit then s1
  else if 0 ≤ p ∧ p.toNat ≤ s1.data.length then { s1 with pos := p.toNat }
  else { s1 with failbit := true }

/-- A stream freshly opened on `input`. -/
def ofInput (input : List Char) : IStream :=
  { data := input, pos := 0, eofbit := false, failbit := false }

end IStream

/-! ## TRStreamIterator -/

/-- The data members of `TRStreamIterator<T>` (main.h). -/
structure TRStreamIterator where
  checkForEmptyLine : Bool
  inStream : IStream
  buffer : List Char
  prevBuffer : List Char
  eolWindows : Nat
  eolLinux : Nat
  eolMacOld : Nat
  outputEOL : List Char
  peekStart : Int
  prevLineDeleted : Bool
deriving DecidableEq, Repr

/-- The enumeration `LineEndFormat` (TaaRRule.h); `LINEEND_CRLF`, `LINEEND_LF` and
`LINEEND_CR` are aliases of the last three. -/
inductive LineEndFormat where
  | LINEEND_DEFAULT
  | LINEEND_WINDOWS
  | LINEEND_LINUX
  | LINEEND_MACOLD
deriving DecidableEq, Repr

/-- The string literal "\r\n". -/
def eolCRLF : List Char := ['\r', '\n']
/-- The string literal "\n". -/
def eolLF : List Char := ['\n']
/-- The string literal "\r". -/
def eolCR : List Char := ['\r']

namespace TRStreamIterator

/-- The constructor `TRStreamIterator(T* in)`. -/
def new (inp : IStream) : TRStreamIterator :=
  { checkForEmptyLine := false
    inStream := inp
    buffer := []
    prevBuffer := []
    eolWindows := 0
    eolLinux := 0
    eolMacOld := 0
    outputEOL := []
    peekStart := 0
    prevLineDeleted := false }

/-- The inline `hasMoreLines()`: `!inStream->eof()`. -/
def hasMoreLines (it : TRStreamIterator) : Bool := !it.inStream.eof

/-- The inline `getOutputEOL()`. -/
def getOutputEOL (it : TRStreamIterator) : List Char := it.outputEOL

/-- The inline `compareToInputBuffer(nextLine_)`: `nextLine_ == prevBuffer`. -/
def compareToInputBuffer (it : TRStreamIterator) (nextLine_ : List Char) : Bool :=
  decide (nextLine_ = it.prevBuffer)

/-- The read loop shared by `nextLine` and `peekNextLine`:
`while (!inStream->eof() && ch != '\n' && ch != '\r') { append ch; inStream->get(ch); }`.
The first argument bounds the number of evaluations of the loop condition; `none` means the
bound was reached. The result is the stream, the last value of `ch` and the characters read. -/
def readRecord : Nat → IStream → Char → List Char → Option (IStream × Char × List Char)
  | 0, _, _, _ => none
  | fuel + 1, s, ch, buf =>
    if s.eof = false ∧ ch ≠ '\n' ∧ ch ≠ '\r' then
      readRecord fuel (s.get ch).1 (s.get ch).2 (buf ++ [ch])
    else some (s, ch, buf)

/-- The value of the local `char ch;` before the first `get`: it is indeterminate in C++ and
is only inspected when a `get` fails without setting `eofbit`. -/
def chInit : Char := Char.ofNat 0

/-- The bound given to `readRecord`: one test per remaining character and two more. -/
def readFuel (s : IStream) : Nat := s.data.length + 2

/-- The block "find input end-of-line characters" of `nextLine` (lines 91-120): `ch` is the
terminator just read. -/
def findInputEOL (it : TRStreamIterator) (ch : Char) : TRStreamIterator :=
  let pk := it.inStream.peek
  let it := { it with inStream := pk.1 }
  let peekCh := pk.2
  if it.inStream.eof = false then
    if ch = '\r' then
      if peekCh = some '\n' then
        { it with inStream := it.inStream.skip, eolWindows := it.eolWindows + 1 }
      else
        { it with eolMacOld := it.eolMacOld + 1 }
    else
      if peekCh = some '\r' then
        { it with inStream := it.inStream.skip, eolWindows := it.eolWindows + 1 }
      else
        { it with eolLinux := it.eolLinux + 1 }
  else
    { it with inStream := it.inStream.clear }

/-- The block "set output end of line characters" of `nextLine` (lines 122-133). -/
def setOutputEOL (it : TRStreamIterator) : TRStreamIterator :=
  if it.eolWindows ≥ it.eolLinux then
    if it.eolWindows ≥ it.eolMacOld then
      { it with outputEOL := eolCRLF }
    else
      { it with outputEOL := eolCR }
  else if it.eolLinux ≥ it.eolMacOld then
    { it with outputEOL := eolLF }
  else
    { it with outputEOL := eolCR }

/-- The first statements of `nextLine` (lines 65-73): bookkeeping of deleted lines. -/
def noteDeleted (it : TRStreamIterator) (emptyLineWasDeleted : Bool) : TRStreamIterator :=
  let it1 :=
    if it.prevLineDeleted then { it with prevLineDeleted := false, checkForEmptyLine := true }
    else it
  if emptyLineWasDeleted = false then { it1 with prevBuffer := it1.buffer }
  else { it1 with prevLineDeleted := true }

/-- The function `TRStreamIterator::nextLine(bool emptyLineWasDeleted)`: the line read and the
iterator after the call; `none` when the assertion `peekStart == 0` fails or the read loop
does not end. -/
def nextLine (it : TRStreamIterator) (emptyLineWasDeleted : Bool) :
    Option (List Char × TRStreamIterator) :=
  if it.peekStart ≠ 0 then none
  else
    let it2 := noteDeleted it emptyLineWasDeleted
    let g := it2.inStream.get chInit
    match readRecord (readFuel it2.inStream) g.1 g.2 [] with
    | none => none
    | some (st, ch, buf) =>
      let it3 := { it2 with buffer := buf, inStream := st }
      if st.eof then some (buf, it3)
      else some (buf, setOutputEOL (findInputEOL it3 ch))

/-- The function `TRStreamIterator::peekNextLine()`: the line read and the iterator after the
call; `none` when the assertion `hasMoreLines()` fails or the read loop does not end. -/
def peekNextLine (it : TRStreamIterator) : Option (List Char × TRStreamIterator) :=
  if it.hasMoreLines = false then none
  else
    let it1 :=
      if it.peekStart = 0 then
        { it with inStream := it.inStream.tellg.1, peekStart := it.inStream.tellg.2 }
      else it
    let g := it1.inStream.get chInit
    match readRecord (readFuel it1.inStream) g.1 g.2 [] with
    | none => none
    | some (st, ch, nextLine_) =>
      if st.eof then some (nextLine_, { it1 with inStream := st })
      else
        let pk := st.peek
        if pk.1.eof = false then
          if (pk.2 = some '\n' ∨ pk.2 = some '\r') ∧ pk.2 ≠ some ch then
            some (nextLine_, { it1 with inStream := pk.1.skip })
          else some (nextLine_, { it1 with inStream := pk.1 })
        else some (nextLine_, { it1 with inStream := pk.1 })

/-- The function `TRStreamIterator::peekReset()`; `none` when the assertion
`peekStart != 0` fails. -/
def peekReset (it : TRStreamIterator) : Option TRStreamIterator :=
  if it.peekStart = 0 then none
  else some { it with inStream := it.inStream.clear.seekg it.peekStart, peekStart := 0 }

/-- The function `TRStreamIterator::saveLastInputLine()`; `none` when the assertion
`inStream->eof()` fails. -/
def saveLastInputLine (it : TRStreamIterator) : Option TRStreamIterator :=
  if it.inStream.eof = false then none
  else some { it with prevBuffer := it.buffer }

/-- The function `TRStreamIterator::getLineEndChange(int lineEndFormat)`; the assertion on the
argument holds for every value of the enumeration. -/
def getLineEndChange (it : TRStreamIterator) (lineEndFormat : LineEndFormat) : Bool :=
  match lineEndFormat with
  | .LINEEND_WINDOWS => decide (it.eolLinux + it.eolMacOld ≠ 0)
  | .LINEEND_LINUX => decide (it.eolWindows + it.eolMacOld ≠ 0)
  | .LINEEND_MACOLD => decide (it.eolWindows + it.eolLinux ≠ 0)
  | .LINEEND_DEFAULT =>
    if it.eolWindows > 0 then decide (it.eolLinux + it.eolMacOld ≠ 0)
    else if it.eolLinux > 0 then decide (it.eolWindows + it.eolMacOld ≠ 0)
    else if it.eolMacOld > 0 then decide (it.eolWindows + it.eolLinux ≠ 0)
    else false

end TRStreamIterator

/-! ## Reading a whole input, and the line structure of a text -/

/-- A client's reading loop, `while (it.hasMoreLines()) lines.push_back(it.nextLine(flag))`:
the lines returned, in order, and the iterator at the end. `flags i` is the argument of call
number `i`; the first argument bounds the number of calls and `none` means that the bound was
reached or an assertion failed. -/
def readLines (flags : Nat → Bool) :
    Nat → Nat → TRStreamIterator → Option (List (List Char) × TRStreamIterator)
  | 0, _, it => if it.hasMoreLines then none else some ([], it)
  | fuel + 1, i, it =>
    if it.hasMoreLines then
      match it.nextLine (flags i) with
      | none => none
      | some (line, it1) =>
        match readLines flags fuel (i + 1) it1 with
        | none => none
        | some (lines, it2) => some (line :: lines, it2)
    else some ([], it)

/-- The iterator after the calls `nextLine(b)` for the flags `b` of the list, in order. -/
def nextLines : List Bool → TRStreamIterator → Option TRStreamIterator
  | [], it => some it
  | b :: bs, it =>
    match it.nextLine b with
    | none => none
    | some (_, it1) => nextLines bs it1

/-- A line-terminator character: CR or LF. -/
def isEolChar (c : Char) : Bool := decide (c = '\r' ∨ c = '\n')

/-- Two adjacent characters that make one two-character terminator: CRLF or LFCR. -/
def isEolPair (c d : Char) : Bool :=
  decide ((c = '\r' ∧ d = '\n') ∨ (c = '\n' ∧ d = '\r'))

/-- Put a character in front of the first line of a list of lines. -/
def consLine (c : Char) : List (List Char) → List (List Char)
  | [] => [[c]]
  | l :: ls => (c :: l) :: ls

/-- The lines of a text as the specification describes them: the pieces between successive
terminators, read from the left, a two-character terminator being taken whenever possible. -/
def splitLines : List Char → List (List Char)
  | [] => [[]]
  | [c] => if isEolChar c then [[], []] else [[c]]
  | c :: d :: rest =>
    if isEolPair c d then [] :: splitLines rest
    else if isEolChar c then [] :: splitLines (d :: rest)
    else consLine c (splitLines (d :: rest))

/-- What is left of a text after the terminator that starts with `t`, `tail` being the
characters that follow `t`. -/
def restAfterEol (t : Char) : List Char → List Char
  | [] => []
  | d :: r => if isEolPair t d then r else d :: r

/-- The four kinds of line terminator. -/
inductive Terminator where
  | crlf
  | lfcr
  | cr
  | lf
deriving DecidableEq, Repr

/-- The kind of a one-character terminator. -/
def loneTerminator (c : Char) : Terminator := if c = '\r' then .cr else .lf

/-- The kind of the two-character terminator that starts with `c`. -/
def pairTerminator (c : Char) : Terminator := if c = '\r' then .crlf else .lfcr

/-- The terminator that starts with `t` when it is an inner one, `tail` being the characters
that follow `t`: nothing when `t` is the last character. -/
def headTerminator (t : Char) : List Char → List Terminator
  | [] => []
  | d :: _ => if isEolPair t d then [pairTerminator t] else [loneTerminator t]

/-- The terminators of a text, in order, under the same left-to-right reading as
`splitLines`. -/
def terminators : List Char → List Terminator
  | [] => []
  | [c] => if isEolChar c then [loneTerminator c] else []
  | c :: d :: rest =>
    if isEolPair c d then pairTerminator c :: terminators rest
    else if isEolChar c then loneTerminator c :: terminators (d :: rest)
    else terminators (d :: rest)

/-- The characters of a terminator. -/
def Terminator.chars : Terminator → List Char
  | .crlf => ['\r', '\n']
  | .lfcr => ['\n', '\r']
  | .cr => ['\r']
  | .lf => ['\n']

/-- The text made of the given lines with the given terminators between them, in order. -/
def joinLines : List (List Char) → List Terminator → List Char
  | [], _ => []
  | l :: _, [] => l
  | l :: ls, t :: ts => l ++ t.chars ++ joinLines ls ts

/-- The terminators of a text that are followed by at least one more character of the text or
are two characters long: all of `terminators` except a one-character terminator that is the
very last character. -/
def innerTerminators : List Char → List Terminator
  | [] => []
  | [_] => []
  | c :: d :: rest =>
    if isEolPair c d then pairTerminator c :: innerTerminators rest
    else if isEolChar c then loneTerminator c :: innerTerminators (d :: rest)
    else innerTerminators (d :: rest)

/-- The text ends in a one-character terminator (its last character is a CR or LF that is not
the second half of a CRLF or LFCR). -/
def endsInLoneTerminator : List Char → Bool
  | [] => false
  | [c] => isEolChar c
  | c :: d :: rest =>
    if isEolPair c d then endsInLoneTerminator rest
    else endsInLoneTerminator (d :: rest)

/-- The majority rule of the specification: CRLF if the Windows count is at least both others,
otherwise LF if the Linux count is at least the old-Mac count, otherwise CR. -/
def majorityEOL (eolWindows eolLinux eolMacOld : Nat) : List Char :=
  if eolWindows ≥ eolLinux ∧ eolWindows ≥ eolMacOld then eolCRLF
  else if eolLinux ≥ eolMacOld then eolLF
  else eolCR

/-- Any run of `peekNextLine` and `peekReset` calls. -/
inductive PeekRun : TRStreamIterator → TRStreamIterator → Prop where
  | done (it : TRStreamIterator) : PeekRun it it
  | peek (it it1 it2 : TRStreamIterator) (line : List Char) :
      it.peekNextLine = some (line, it1) → PeekRun it1 it2 → PeekRun it it2
  | reset (it it1 it2 : TRStreamIterator) :
      it.peekReset = some it1 → PeekRun it1 it2 → PeekRun it it2

/-- The state of the counters and of the output EOL once a terminator of a text whose only
terminator character is `t` has been counted. -/
def CountedOnly (t : Char) (it : TRStreamIterator) : Prop :=
  it.eolWindows = 0
  ∧ (if t = '\r' then it.eolLinux = 0 ∧ 1 ≤ it.eolMacOld else it.eolMacOld = 0 ∧ 1 ≤ it.eolLinux)

/-- The states met when a text whose only terminator character is `t` is read, after a call
that counted a terminator: the stream has ended, or a terminator of the kind of `t` has been
counted and the output EOL is that of `t`. -/
def EndedOrCounted (t : Char) (data : List Char) (it : TRStreamIterator) : Prop :=
  it.peekStart = 0 ∧ it.inStream.data = data ∧
    (it.inStream.eofbit = true ∨
      (it.inStream.failbit = false ∧ CountedOnly t it
        ∧ it.outputEOL = if t = '\r' then eolCR else eolLF))

/-- The iterator after `k` successive `peekNextLine` calls. -/
def peekLines : Nat → TRStreamIterator → Option TRStreamIterator
  | 0, it => some it
  | k + 1, it =>
    match it.peekNextLine with
    | none => none
    | some (_, it1) => peekLines k it1

/-- The iterator after `k` successive `peekNextLine` calls followed by `peekReset`. -/
def peeksThenReset (k : Nat) (it : TRStreamIterator) : Option TRStreamIterator :=
  match peekLines k it with
  | none => none
  | some it1 => it1.peekReset

/-- The strings that `k` successive `peekNextLine` calls return, in order; `none` when one of
the calls fails its assertion `hasMoreLines()`, which is the case once an earlier peek has
reached the end of the input. -/
def peekedLines : Nat → TRStreamIterator → Option (List (List Char))
  | 0, _ => some []
  | k + 1, it =>
    match it.peekNextLine with
    | none => none
    | some (line, it1) =>
      match peekedLines k it1 with
      | none => none
      | some lines => some (line :: lines)

/-- The strings that the calls `nextLine(b)` return for the flags `b` of the list, in
order. -/
def nextLinesReturned : List Bool → TRStreamIterator → Option (List (List Char))
  | [], _ => some []
  | b :: bs, it =>
    match it.nextLine b with
    | none => none
    | some (line, it1) =>
      match nextLinesReturned bs it1 with
      | none => none
      | some lines => some (line :: lines)

/-! ## ASConsole: the output line end -/

/-- The data members of `ASConsole` that the line-end functions read or write (main.h). -/
structure ASConsole where
  filesAreIdentical : Bool
  lineEndsMixed : Bool
  outputEOL : List Char
  prevEOL : List Char
deriving DecidableEq, Repr

namespace ASConsole

/-- The function `ASConsole::initializeOutputEOL(LineEndFormat)`; its assertion holds for every
value of the enumeration. -/
def initializeOutputEOL (c : ASConsole) (lineEndFormat : LineEndFormat) : ASConsole :=
  let c1 := { c with outputEOL := [], prevEOL := [], lineEndsMixed := false }
  match lineEndFormat with
  | .LINEEND_WINDOWS => { c1 with outputEOL := eolCRLF }
  | .LINEEND_LINUX => { c1 with outputEOL := eolLF }
  | .LINEEND_MACOLD => { c1 with outputEOL := eolCR }
  | .LINEEND_DEFAULT => { c1 with outputEOL := [] }

/-- The function `ASConsole::setOutputEOL(LineEndFormat, const char* currentEOL)`; `strcpy`
copies the whole string, `strlen(s) == 0` is `s = []` and `strcmp(a, b) != 0` is `a ≠ b`. -/
def setOutputEOL (c : ASConsole) (lineEndFormat : LineEndFormat) (currentEOL : List Char) :
    ASConsole :=
  if lineEndFormat = .LINEEND_DEFAULT then
    let c1 := { c with outputEOL := currentEOL }
    let c2 := if c1.prevEOL = [] then { c1 with prevEOL := c1.outputEOL } else c1
    if c2.prevEOL ≠ c2.outputEOL then
      { c2 with lineEndsMixed := true, filesAreIdentical := false, prevEOL := c2.outputEOL }
    else c2
  else
    let c1 := { c with prevEOL := currentEOL }
    if c1.prevEOL ≠ c1.outputEOL then { c1 with filesAreIdentical := false } else c1

/-- The line ends that the loop of `ASConsole::formatFile` writes: for each detected input
line end `e`, in order, `setOutputEOL(lineEndFormat, e); out << outputEOL;`. The result is the
list of the strings written and the console state at the end. -/
def writeEOLs (lineEndFormat : LineEndFormat) :
    ASConsole → List (List Char) → List (List Char) × ASConsole
  | c, [] => ([], c)
  | c, e :: es =>
    let c1 := c.setOutputEOL lineEndFormat e
    let r := writeEOLs lineEndFormat c1 es
    (c1.outputEOL :: r.1, r.2)

end ASConsole

/-! ## ASOptions: option parsing -/

/-- The enumeration `FormatStyle` (TaaRRule.h). -/
inductive FormatStyle where
  | STYLE_NONE
  | STYLE_ALLMAN
  | STYLE_JAVA
  | STYLE_KR
  | STYLE_STROUSTRUP
  | STYLE_WHITESMITH
  | STYLE_BANNER
  | STYLE_GNU
  | STYLE_LINUX
  | STYLE_HORSTMANN
  | STYLE_1TBS
  | STYLE_GOOGLE
  | STYLE_PICO
  | STYLE_LISP
deriving DecidableEq, Repr

/-- The enumeration `PointerAlign` (TaaRRule.h). -/
inductive PointerAlign where
  | PTR_ALIGN_NONE
  | PTR_ALIGN_TYPE
  | PTR_ALIGN_MIDDLE
  | PTR_ALIGN_NAME
deriving DecidableEq, Repr

/-- The enumeration `ReferenceAlign` (TaaRRule.h). -/
inductive ReferenceAlign where
  | REF_ALIGN_NONE
  | REF_ALIGN_TYPE
  | REF_ALIGN_MIDDLE
  | REF_ALIGN_NAME
  | REF_SAME_AS_PTR
deriving DecidableEq, Repr

/-- The enumeration `ObjCColonPad` (TaaRRule.h). -/
inductive ObjCColonPad where
  | COLON_PAD_NO_CHANGE
  | COLON_PAD_NONE
  | COLON_PAD_ALL
  | COLON_PAD_AFTER
  | COLON_PAD_BEFORE
deriving DecidableEq, Repr

/-- The enumerator `MINCOND_TWO` of `MinConditional` (TaaRRule.h). -/
def MINCOND_TWO : Int := 2
/-- The enumerator `MINCOND_END` of `MinConditional` (TaaRRule.h). -/
def MINCOND_END : Int := 4

/-- One call made by `ASOptions::parseOption`: a setter of the formatter with its arguments
(default arguments written out), a setter of the console object `g_console`, or the
assignment `_err = &cout`. -/
inductive Call where
  | setFormattingStyle (style : FormatStyle)
  | setCStyle
  | setModeManuallySet (state : Bool)
  | setTabIndentation (length : Int) (forceTabs : Bool)
  | setForceTabXIndentation (length : Int)
  | setSpaceIndentation (length : Int)
  | setMinConditionalIndentOption (min : Int)
  | setMaxInStatementIndentLength (max : Int)
  | setNamespaceIndent (state : Bool)
  | setClassIndent (state : Bool)
  | setModifierIndent (state : Bool)
  | setSwitchIndent (state : Bool)
  | setCaseIndent (state : Bool)
  | setLabelIndent (state : Bool)
  | setPreprocDefineIndent (state : Bool)
  | setPreprocConditionalIndent (state : Bool)
  | setBreakClosingHeaderBracketsMode (state : Bool)
  | setBreakOneLineBlocksMode (state : Bool)
  | setSingleStatementsMode (state : Bool)
  | setParensOutsidePaddingMode (mode : Bool)
  | setParensInsidePaddingMode (mode : Bool)
  | setParensFirstPaddingMode (mode : Bool)
  | setParensHeaderPaddingMode (mode : Bool)
  | setParensUnPaddingMode (state : Bool)
  | setOperatorPaddingMode (mode : Bool)
  | setDeleteEmptyLinesMode (state : Bool)
  | setEmptyLineFill (state : Bool)
  | setTabSpaceConversionMode (state : Bool)
  | setCloseTemplatesMode (state : Bool)
  | setBreakBlocksMode (state : Bool)
  | setBreakClosingHeaderBlocksMode (state : Bool)
  | setBreakElseIfsMode (state : Bool)
  | setAddBracketsMode (state : Bool)
  | setAddOneLineBracketsMode (state : Bool)
  | setRemoveBracketsMode (state : Bool)
  | setIndentCol1CommentsMode (state : Bool)
  | setPointerAlignment (alignment : PointerAlign)
  | setReferenceAlignment (alignment : ReferenceAlign)
  | setMaxCodeLength (max : Int)
  | setBreakAfterMode (state : Bool)
  | setAttachClass (state : Bool)
  | setAttachExternC (state : Bool)
  | setAttachNamespace (state : Bool)
  | setAttachInline (state : Bool)
  | setStripCommentPrefix (state : Bool)
  | setAlignMethodColon (state : Bool)
  | setMethodPrefixPaddingMode (state : Bool)
  | setMethodPrefixUnPaddingMode (state : Bool)
  | setObjCColonPaddingMode (mode : ObjCColonPad)
  | setLineEndFormat (fmt : LineEndFormat)
  | consoleSetNoBackup (state : Bool)
  | consoleSetOrigSuffix (suffix : List Char)
  | consoleUpdateExcludeVector (suffixParam : List Char)
  | consoleSetIsRecursive (state : Bool)
  | consoleSetPreserveDate (state : Bool)
  | consoleSetIsVerbose (state : Bool)
  | consoleSetIsFormattedOnly (state : Bool)
  | consoleSetIsQuiet (state : Bool)
  | consoleSetIgnoreExcludeErrors (state : Bool)
  | consoleSetIgnoreExcludeErrorsAndDisplay (state : Bool)
  | errToCout
deriving Repr

/-- The function `isalpha` of the C locale. -/
def isalpha (c : Char) : Bool :=
  decide (('a'.toNat ≤ c.toNat ∧ c.toNat ≤ 'z'.toNat) ∨ ('A'.toNat ≤ c.toNat ∧ c.toNat ≤ 'Z'.toNat))

/-- The function `isdigit`. -/
def isdigit (c : Char) : Bool := decide ('0'.toNat ≤ c.toNat ∧ c.toNat ≤ '9'.toNat)

/-- The function `isspace` of the C locale. -/
def isspace (c : Char) : Bool :=
  decide (c = ' ' ∨ (9 ≤ c.toNat ∧ c.toNat ≤ 13))

/-- The value of a run of decimal digits, most significant first, after the value `acc`; it
stops at the first character that is not a digit. -/
def digitsValue : Int → List Char → Int
  | acc, [] => acc
  | acc, c :: cs =>
    if isdigit c then digitsValue (acc * 10 + ((c.toNat - '0'.toNat : Nat) : Int)) cs else acc

/-- The function `strtol(nptr, NULL, 10)` with a 64-bit `long`: leading white space, an
optional sign, then decimal digits; 0 when there is no digit, and `LONG_MAX = 2 ^ 63 - 1` or
`LONG_MIN = -2 ^ 63` when the number written is outside the range of `long`. -/
def strtol (s : List Char) : Int :=
  let v : Int :=
    match s.dropWhile isspace with
    | '-' :: r => - digitsValue 0 r
    | '+' :: r => digitsValue 0 r
    | r => digitsValue 0 r
  if v > 9223372036854775807 then 9223372036854775807
  else if v < -9223372036854775808 then -9223372036854775808
  else v

/-- The conversion of a `long` to the 32-bit `int`: the value in the range of `int`, from
`-2 ^ 31` to `2 ^ 31 - 1`, that differs from the given one by a multiple of `2 ^ 32`. -/
def longToInt (v : Int) : Int := (v + 2147483648) % 4294967296 - 2147483648

/-- The function `atoi`, whose result the program stores in an `int`. For a number in the range
of `int` it is that number. For a number outside it the C standard leaves the result open;
the value here is that of the GNU C library, where `atoi(nptr)` is
`(int) strtol(nptr, NULL, 10)`. -/
def atoi (s : List Char) : Int := longToInt (strtol s)

/-- The state that `ASOptions` works on: the calls made so far on the formatter, the console
and the error stream pointer, and the content of the string stream `optionErrors`. -/
structure ASOptions where
  calls : List Call
  optionErrors : List Char
deriving Repr

namespace ASOptions

/-- A freshly constructed `ASOptions`: nothing called, no error text. -/
def new : ASOptions := { calls := [], optionErrors := [] }

/-- The function `ASOptions::getOptionErrors()`. -/
def getOptionErrors (o : ASOptions) : List Char := o.optionErrors

/-- The one-argument `ASOptions::getParam(arg, op)`: `arg.substr(strlen(op))`. -/
def getParam (arg : List Char) (op : String) : List Char := arg.drop op.length

/-- The one-argument `ASOptions::isOption(arg, op)`: `arg.compare(op) == 0`. -/
def isOption (arg : List Char) (op : String) : Bool := decide (arg = op.toList)

/-- The two-argument `ASOptions::isOption(arg, op1, op2)`. -/
def isOption2 (arg : List Char) (op1 op2 : String) : Bool := isOption arg op1 || isOption arg op2

/-- The function `ASOptions::isOptionError(arg, errorInfo)`; `endl` writes a line feed. -/
def isOptionError (o : ASOptions) (arg errorInfo : List Char) : ASOptions :=
  let o1 :=
    if o.optionErrors.length = 0 then { o with optionErrors := o.optionErrors ++ errorInfo ++ ['\n'] }
    else o
  { o1 with optionErrors := o1.optionErrors ++ arg ++ ['\n'] }

/-- The one-argument `ASOptions::isParamOption(arg, option)`: `arg` starts with `option`, and
when `option` is one character long and `arg` is longer, the second character of `arg` is a
digit. -/
def isParamOption (arg : List Char) (option : String) : Bool :=
  let retVal := decide (arg.take option.length = option.toList)
  if retVal && decide (option.length = 1) && decide (arg.length > 1) then
    if !isdigit (arg.getD 1 (Char.ofNat 0)) then false else retVal
  else retVal

/-- The two-argument `ASOptions::isParamOption(arg, option1, option2)`. -/
def isParamOption2 (arg : List Char) (option1 option2 : String) : Bool :=
  isParamOption arg option1 || isParamOption arg option2

/-- The two-argument `ASOptions::getParam(arg, op1, op2)`. -/
def getParam2 (arg : List Char) (op1 op2 : String) : List Char :=
  if isParamOption arg op1 then getParam arg op1 else getParam arg op2

/-- The idiom `int v = d; if (param.length() > 0) v = atoi(param.c_str());` of
`parseOption`. -/
def paramValue (d : Int) (param : List Char) : Int :=
  if param.length > 0 then atoi param else d

end ASOptions

namespace ASOptions

/-- The if-chain of `ASOptions::parseOption(arg, errorInfo)`, branch for branch: what the branch
taken for `arg` does. `some cs` lists the calls the branch makes, in order (a branch that does
nothing gives `some []`); `none` stands for the call `isOptionError(arg, errorInfo)`. -/
def optionAction (arg : List Char) : Option (List Call) :=
  if isOption arg "style=allman" || isOption arg "style=ansi"
      || isOption arg "style=bsd" || isOption arg "style=break" then
    some [.setFormattingStyle .STYLE_ALLMAN]
  else if isOption arg "style=java" || isOption arg "style=attach" then
    some [.setFormattingStyle .STYLE_JAVA]
  else if isOption arg "style=k&r" || isOption arg "style=kr" || isOption arg "style=k/r" then
    some [.setFormattingStyle .STYLE_KR]
  else if isOption arg "style=stroustrup" then
    some [.setFormattingStyle .STYLE_STROUSTRUP]
  else if isOption arg "style=whitesmith" then
    some [.setFormattingStyle .STYLE_WHITESMITH]
  else if isOption arg "style=banner" then
    some [.setFormattingStyle .STYLE_BANNER]
  else if isOption arg "style=gnu" then
    some [.setFormattingStyle .STYLE_GNU]
  else if isOption arg "style=linux" || isOption arg "style=knf" then
    some [.setFormattingStyle .STYLE_LINUX]
  else if isOption arg "style=horstmann" then
    some [.setFormattingStyle .STYLE_HORSTMANN]
  else if isOption arg "style=1tbs" || isOption arg "style=otbs" then
    some [.setFormattingStyle .STYLE_1TBS]
  else if isOption arg "style=google" then
    some [.setFormattingStyle .STYLE_GOOGLE]
  else if isOption arg "style=pico" then
    some [.setFormattingStyle .STYLE_PICO]
  else if isOption arg "style=lisp" || isOption arg "style=python" then
    some [.setFormattingStyle .STYLE_LISP]
  else if isParamOption arg "A" then
    let style := paramValue 0 (getParam arg "A")
    if style = 1 then some [.setFormattingStyle .STYLE_ALLMAN]
    else if style = 2 then some [.setFormattingStyle .STYLE_JAVA]
    else if style = 3 then some [.setFormattingStyle .STYLE_KR]
    else if style = 4 then some [.setFormattingStyle .STYLE_STROUSTRUP]
    else if style = 5 then some [.setFormattingStyle .STYLE_WHITESMITH]
    else if style = 6 then some [.setFormattingStyle .STYLE_BANNER]
    else if style = 7 then some [.setFormattingStyle .STYLE_GNU]
    else if style = 8 then some [.setFormattingStyle .STYLE_LINUX]
    else if style = 9 then some [.setFormattingStyle .STYLE_HORSTMANN]
    else if style = 10 then some [.setFormattingStyle .STYLE_1TBS]
    else if style = 11 then some [.setFormattingStyle .STYLE_PICO]
    else if style = 12 then some [.setFormattingStyle .STYLE_LISP]
    else if style = 14 then some [.setFormattingStyle .STYLE_GOOGLE]
    else none
  else if isOption arg "mode=c" then
    some [.setCStyle, .setModeManuallySet true]
  else if isParamOption2 arg "t" "indent=tab=" then
    let spaceNum := paramValue 4 (getParam2 arg "t" "indent=tab=")
    if spaceNum < 2 ∨ spaceNum > 20 then none
    else some [.setTabIndentation spaceNum false]
  else if isOption arg "indent=tab" then
    some [.setTabIndentation 4 false]
  else if isParamOption2 arg "T" "indent=force-tab=" then
    let spaceNum := paramValue 4 (getParam2 arg "T" "indent=force-tab=")
    if spaceNum < 2 ∨ spaceNum > 20 then none
    else some [.setTabIndentation spaceNum true]
  else if isOption arg "indent=force-tab" then
    some [.setTabIndentation 4 true]
  else if isParamOption2 arg "xT" "indent=force-tab-x=" then
    let tabNum := paramValue 8 (getParam2 arg "xT" "indent=force-tab-x=")
    if tabNum < 2 ∨ tabNum > 20 then none
    else some [.setForceTabXIndentation tabNum]
  else if isOption arg "indent=force-tab-x" then
    some [.setForceTabXIndentation 8]
  else if isParamOption2 arg "s" "indent=spaces=" then
    let spaceNum := paramValue 4 (getParam2 arg "s" "indent=spaces=")
    if spaceNum < 2 ∨ spaceNum > 20 then none
    else some [.setSpaceIndentation spaceNum]
  else if isOption arg "indent=spaces" then
    some [.setSpaceIndentation 4]
  else if isParamOption2 arg "m" "min-conditional-indent=" then
    let minIndent := paramValue MINCOND_TWO (getParam2 arg "m" "min-conditional-indent=")
    if minIndent ≥ MINCOND_END then none
    else some [.setMinConditionalIndentOption minIndent]
  else if isParamOption2 arg "M" "max-instatement-indent=" then
    let maxIndent := paramValue 40 (getParam2 arg "M" "max-instatement-indent=")
    if maxIndent < 40 then none
    else if maxIndent > 120 then none
    else some [.setMaxInStatementIndentLength maxIndent]
  else if isOption2 arg "N" "indent-namespaces" then
    some [.setNamespaceIndent true]
  else if isOption2 arg "C" "indent-classes" then
    some [.setClassIndent true]
  else if isOption2 arg "xG" "indent-modifiers" then
    some [.setModifierIndent true]
  else if isOption2 arg "S" "indent-switches" then
    some [.setSwitchIndent true]
  else if isOption2 arg "K" "indent-cases" then
    some [.setCaseIndent true]
  else if isOption2 arg "L" "indent-labels" then
    some [.setLabelIndent true]
  else if isOption2 arg "w" "indent-preproc-define" then
    some [.setPreprocDefineIndent true]
  else if isOption2 arg "xw" "indent-preproc-cond" then
    some [.setPreprocConditionalIndent true]
  else if isOption2 arg "y" "break-closing-brackets" then
    some [.setBreakClosingHeaderBracketsMode true]
  else if isOption2 arg "O" "keep-one-line-blocks" then
    some [.setBreakOneLineBlocksMode false]
  else if isOption2 arg "o" "keep-one-line-statements" then
    some [.setSingleStatementsMode false]
  else if isOption2 arg "P" "pad-paren" then
    some [.setParensOutsidePaddingMode true, .setParensInsidePaddingMode true]
  else if isOption2 arg "d" "pad-paren-out" then
    some [.setParensOutsidePaddingMode true]
  else if isOption2 arg "xd" "pad-first-paren-out" then
    some [.setParensFirstPaddingMode true]
  else if isOption2 arg "D" "pad-paren-in" then
    some [.setParensInsidePaddingMode true]
  else if isOption2 arg "H" "pad-header" then
    some [.setParensHeaderPaddingMode true]
  else if isOption2 arg "U" "unpad-paren" then
    some [.setParensUnPaddingMode true]
  else if isOption2 arg "p" "pad-oper" then
    some [.setOperatorPaddingMode true]
  else if isOption2 arg "xe" "delete-empty-lines" then
    some [.setDeleteEmptyLinesMode true]
  else if isOption2 arg "E" "fill-empty-lines" then
    some [.setEmptyLineFill true]
  else if isOption2 arg "c" "convert-tabs" then
    some [.setTabSpaceConversionMode true]
  else if isOption2 arg "xy" "close-templates" then
    some [.setCloseTemplatesMode true]
  else if isOption2 arg "F" "break-blocks=all" then
    some [.setBreakBlocksMode true, .setBreakClosingHeaderBlocksMode true]
  else if isOption2 arg "f" "break-blocks" then
    some [.setBreakBlocksMode true]
  else if isOption2 arg "e" "break-elseifs" then
    some [.setBreakElseIfsMode true]
  else if isOption2 arg "j" "add-brackets" then
    some [.setAddBracketsMode true]
  else if isOption2 arg "J" "add-one-line-brackets" then
    some [.setAddOneLineBracketsMode true]
  else if isOption2 arg "xj" "remove-brackets" then
    some [.setRemoveBracketsMode true]
  else if isOption2 arg "Y" "indent-col1-comments" then
    some [.setIndentCol1CommentsMode true]
  else if isOption arg "align-pointer=type" then
    some [.setPointerAlignment .PTR_ALIGN_TYPE]
  else if isOption arg "align-pointer=middle" then
    some [.setPointerAlignment .PTR_ALIGN_MIDDLE]
  else if isOption arg "align-pointer=name" then
    some [.setPointerAlignment .PTR_ALIGN_NAME]
  else if isParamOption arg "k" then
    let align := paramValue 0 (getParam arg "k")
    if align < 1 ∨ align > 3 then none
    else if align = 1 then some [.setPointerAlignment .PTR_ALIGN_TYPE]
    else if align = 2 then some [.setPointerAlignment .PTR_ALIGN_MIDDLE]
    else if align = 3 then some [.setPointerAlignment .PTR_ALIGN_NAME]
    else some []
  else if isOption arg "align-reference=none" then
    some [.setReferenceAlignment .REF_ALIGN_NONE]
  else if isOption arg "align-reference=type" then
    some [.setReferenceAlignment .REF_ALIGN_TYPE]
  else if isOption arg "align-reference=middle" then
    some [.setReferenceAlignment .REF_ALIGN_MIDDLE]
  else if isOption arg "align-reference=name" then
    some [.setReferenceAlignment .REF_ALIGN_NAME]
  else if isParamOption arg "W" then
    let align := paramValue 0 (getParam arg "W")
    if align < 0 ∨ align > 3 then none
    else if align = 0 then some [.setReferenceAlignment .REF_ALIGN_NONE]
    else if align = 1 then some [.setReferenceAlignment .REF_ALIGN_TYPE]
    else if align = 2 then some [.setReferenceAlignment .REF_ALIGN_MIDDLE]
    else if align = 3 then some [.setReferenceAlignment .REF_ALIGN_NAME]
    else some []
  else if isParamOption arg "max-code-length=" then
    let maxLength := paramValue 50 (getParam arg "max-code-length=")
    if maxLength < 50 then none
    else if maxLength > 200 then none
    else some [.setMaxCodeLength maxLength]
  else if isParamOption arg "xC" then
    let maxLength := paramValue 50 (getParam arg "xC")
    if maxLength > 200 then none
    else some [.setMaxCodeLength maxLength]
  else if isOption2 arg "xL" "break-after-logical" then
    some [.setBreakAfterMode true]
  else if isOption2 arg "xc" "attach-classes" then
    some [.setAttachClass true]
  else if isOption2 arg "xk" "attach-extern-c" then
    some [.setAttachExternC true]
  else if isOption2 arg "xn" "attach-namespaces" then
    some [.setAttachNamespace true]
  else if isOption2 arg "xl" "attach-inlines" then
    some [.setAttachInline true]
  else if isOption2 arg "xp" "remove-comment-prefix" then
    some [.setStripCommentPrefix true]
  else if isOption2 arg "xM" "align-method-colon" then
    some [.setAlignMethodColon true]
  else if isOption2 arg "xQ" "pad-method-prefix" then
    some [.setMethodPrefixPaddingMode true]
  else if isOption2 arg "xR" "unpad-method-prefix" then
    some [.setMethodPrefixUnPaddingMode true]
  else if isOption2 arg "xP0" "pad-method-colon=none" then
    some [.setObjCColonPaddingMode .COLON_PAD_NONE]
  else if isOption2 arg "xP1" "pad-method-colon=all" then
    some [.setObjCColonPaddingMode .COLON_PAD_ALL]
  else if isOption2 arg "xP2" "pad-method-colon=after" then
    some [.setObjCColonPaddingMode .COLON_PAD_AFTER]
  else if isOption2 arg "xP3" "pad-method-colon=before" then
    some [.setObjCColonPaddingMode .COLON_PAD_BEFORE]
  else if isOption arg "indent-preprocessor" then
    some [.setPreprocDefineIndent true]
  else if isOption2 arg "n" "suffix=none" then
    some [.consoleSetNoBackup true]
  else if isParamOption arg "suffix=" then
    let suffixParam := getParam arg "suffix="
    if suffixParam.length > 0 then some [.consoleSetOrigSuffix suffixParam] else some []
  else if isParamOption arg "exclude=" then
    let suffixParam := getParam arg "exclude="
    if suffixParam.length > 0 then some [.consoleUpdateExcludeVector suffixParam] else some []
  else if isOption2 arg "r" "R" || isOption arg "recursive" then
    some [.consoleSetIsRecursive true]
  else if isOption2 arg "Z" "preserve-date" then
    some [.consoleSetPreserveDate true]
  else if isOption2 arg "v" "verbose" then
    some [.consoleSetIsVerbose true]
  else if isOption2 arg "Q" "formatted" then
    some [.consoleSetIsFormattedOnly true]
  else if isOption2 arg "q" "quiet" then
    some [.consoleSetIsQuiet true]
  else if isOption2 arg "i" "ignore-exclude-errors" then
    some [.consoleSetIgnoreExcludeErrors true]
  else if isOption2 arg "xi" "ignore-exclude-errors-x" then
    some [.consoleSetIgnoreExcludeErrorsAndDisplay true]
  else if isOption2 arg "X" "errors-to-stdout" then
    some [.errToCout]
  else if isOption arg "lineend=windows" then
    some [.setLineEndFormat .LINEEND_WINDOWS]
  else if isOption arg "lineend=linux" then
    some [.setLineEndFormat .LINEEND_LINUX]
  else if isOption arg "lineend=macold" then
    some [.setLineEndFormat .LINEEND_MACOLD]
  else if isParamOption arg "z" then
    let lineendType := paramValue 0 (getParam arg "z")
    if lineendType < 1 ∨ lineendType > 3 then none
    else if lineendType = 1 then some [.setLineEndFormat .LINEEND_WINDOWS]
    else if lineendType = 2 then some [.setLineEndFormat .LINEEND_LINUX]
    else if lineendType = 3 then some [.setLineEndFormat .LINEEND_MACOLD]
    else some []
  else none

/-- The function `ASOptions::parseOption(arg, errorInfo)`: the calls of the branch taken are
made, or the option is reported with `isOptionError`. -/
def parseOption (o : ASOptions) (arg errorInfo : List Char) : ASOptions :=
  match optionAction arg with
  | some cs => { o with calls := o.calls ++ cs }
  | none => o.isOptionError arg errorInfo

/-- The body of the loop `for (i = 1; i < arg.length(); ++i)` of `parseOptions`, run for the
indices of the list: the state is the options object and the local `subArg`. -/
def shortOptionsLoop (arg errorInfo : List Char) :
    List Nat → ASOptions × List Char → ASOptions × List Char
  | [], st => st
  | i :: is, st =>
    let st1 :=
      if i > 1 ∧ isalpha (arg.getD i (Char.ofNat 0)) = true
          ∧ arg.getD (i - 1) (Char.ofNat 0) ≠ 'x' then
        (st.1.parseOption st.2 errorInfo, [])
      else st
    shortOptionsLoop arg errorInfo is (st1.1, st1.2 ++ [arg.getD i (Char.ofNat 0)])

/-- The body of the loop over the options vector in `parseOptions`, for one element `arg`:
the state is the options object and the local `subArg`. -/
def parseArg (errorInfo : List Char) (st : ASOptions × List Char) (arg : List Char) :
    ASOptions × List Char :=
  if arg.take 2 = ['-', '-'] then
    (st.1.parseOption (arg.drop 2) errorInfo, st.2)
  else if arg.getD 0 (Char.ofNat 0) = '-' then
    let st1 := shortOptionsLoop arg errorInfo (List.range' 1 (arg.length - 1)) st
    (st1.1.parseOption st1.2 errorInfo, [])
  else
    (st.1.parseOption arg errorInfo, [])

/-- The function `ASOptions::parseOptions(optionsVector, errorInfo)`: the options object after
the call and the value returned. `optionErrors.clear()` resets the state flags of the string
stream and leaves its content as it is. -/
def parseOptions (o : ASOptions) (optionsVector : List (List Char)) (errorInfo : List Char) :
    ASOptions × Bool :=
  let st := optionsVector.foldl (parseArg errorInfo) (o, [])
  if st.1.optionErrors.length > 0 then (st.1, false) else (st.1, true)

end ASOptions

/-- The short options of a single-dash argument as the specification describes them, from
index 2 on: `rest` holds the characters at index 2 and more that are still to be read, `prev`
is the character before them and `cur` the option being collected. A new option starts
before every alphabetic character that does not directly follow an `x`, and nowhere else. -/
def splitShortAfter : Char → List Char → List Char → List (List Char)
  | _, cur, [] => [cur]
  | prev, cur, c :: cs =>
    if isalpha c = true ∧ prev ≠ 'x' then cur :: splitShortAfter c [c] cs
    else splitShortAfter c (cur ++ [c]) cs

/-- The short options of the single-dash argument `arg`: the character at index 1 opens the
first option and `splitShortAfter` reads the rest; a lone dash gives one empty option. -/
def splitShort (arg : List Char) : List (List Char) :=
  match arg.drop 1 with
  | [] => [[]]
  | c :: cs => splitShortAfter c [c] cs

/-- The last character of `c :: cs`. -/
def lastChar : Char → List Char → Char
  | c, [] => c
  | _, d :: ds => lastChar d ds

/-- No new short option starts inside `cs` when the character before `cs` is `prev`. -/
def NoInnerStart : Char → List Char → Prop
  | _, [] => True
  | prev, c :: cs => ¬ (isalpha c = true ∧ prev ≠ 'x') ∧ NoInnerStart c cs

/-- A string that, written after a dash, is read back as one short option. -/
def IsShortOption : List Char → Prop
  | [] => True
  | c :: cs => c ≠ '-' ∧ NoInnerStart c cs

/-- A single-dash argument: it starts with a dash and not with two. -/
def isSingleDash (arg : List Char) : Bool :=
  decide (arg.getD 0 (Char.ofNat 0) = '-' ∧ arg.take 2 ≠ ['-', '-'])

/-- The option strings that `parseOptions` hands to `parseOption` for one element of the
options vector: the text after `--`, the short options of a single-dash argument, or the
element itself. -/
def optionsOfArg (arg : List Char) : List (List Char) :=
  if arg.take 2 = ['-', '-'] then [arg.drop 2]
  else if arg.getD 0 (Char.ofNat 0) = '-' then splitShort arg
  else [arg]

/-- The option string is one that `parseOption` reports as an error: no branch accepts it,
or the branch it selects rejects its numeric parameter. -/
def isInvalidOption (opt : List Char) : Bool := (ASOptions.optionAction opt).isNone

/-- The lines of the error report: each string followed by a line feed. -/
def errorLines : List (List Char) → List Char
  | [] => []
  | l :: ls => l ++ ['\n'] ++ errorLines ls

/-- Every call of the branch taken satisfies `P`; nothing is asked of an option that is
reported as an error. -/
def AllCalls (P : Call → Prop) (r : Option (List Call)) : Prop :=
  ∀ cs, r = some cs → ∀ c ∈ cs, P c

/-- The length handed to `setSpaceIndentation`, `setTabIndentation` or
`setForceTabXIndentation` lies in 2..20. -/
def LengthInRange : Call → Prop
  | .setSpaceIndentation n => 2 ≤ n ∧ n ≤ 20
  | .setTabIndentation n _ => 2 ≤ n ∧ n ≤ 20
  | .setForceTabXIndentation n => 2 ≤ n ∧ n ≤ 20
  | _ => True

/-- The value handed to `setMaxCodeLength` is at most 200. -/
def MaxCodeLengthAtMost200 : Call → Prop
  | .setMaxCodeLength n => n ≤ 200
  | _ => True

/-- The value handed to `setMinConditionalIndentOption` is below `MINCOND_END`. -/
def MinConditionalBelowEnd : Call → Prop
  | .setMinConditionalIndentOption n => n < MINCOND_END
  | _ => True

/-- The option string is reported as an error: `parseOption` does what `isOptionError` does
and makes no call. -/
def IsReported (opt : List Char) : Prop :=
  ASOptions.optionAction opt = none
    ∧ ∀ (o : ASOptions) (e : List Char),
        o.parseOption opt e = o.isOptionError opt e ∧ (o.parseOption opt e).calls = o.calls

/-! ## ASOptions::importOptions -/

/-- The conversion of a stream to `bool`, as in `while (in)`: `!fail()`. -/
def IStream.ok (s : IStream) : Bool := !s.failbit

/-- A character on which `importOptions` breaks an option: space, tab, comma, LF or CR. -/
def isOptionSeparator (c : Char) : Bool :=
  decide (c = ' ' ∨ c = '\t' ∨ c = ',' ∨ c = '\n' ∨ c = '\r')

namespace ASOptions

/-- The comment loop of `importOptions`:
`while (in) { in.get(ch); if (ch == '\n' || ch == '\r') break; }`.
The first argument bounds the number of tests of the loop condition. -/
def skipComment : Nat → IStream → Char → Option (IStream × Char)
  | 0, _, _ => none
  | fuel + 1, s, ch =>
    if s.ok then
      if (s.get ch).2 = '\n' ∨ (s.get ch).2 = '\r' then some (s.get ch)
      else skipComment fuel (s.get ch).1 (s.get ch).2
    else some (s, ch)

/-- The `do { ... } while (in);` loop of `importOptions`, which collects one token: the
stream, the variable `ch` and `currentToken` when the loop is left. The first argument
bounds the number of passes. -/
def readToken : Nat → IStream → Char → List Char → Option (IStream × Char × List Char)
  | 0, _, _, _ => none
  | fuel + 1, s, ch, currentToken =>
    if (s.get ch).1.eof then some ((s.get ch).1, (s.get ch).2, currentToken)
    else
      match (if (s.get ch).2 = '#' then
              skipComment (s.data.length + 2) (s.get ch).1 (s.get ch).2
             else some (s.get ch)) with
      | none => none
      | some (s1, ch1) =>
        if s1.eof = true ∨ ch1 = ' ' ∨ ch1 = '\t' ∨ ch1 = ',' ∨ ch1 = '\n' ∨ ch1 = '\r' then
          some (s1, ch1, currentToken)
        else if s1.ok then readToken fuel s1 ch1 (currentToken ++ [ch1])
        else some (s1, ch1, currentToken ++ [ch1])

/-- The outer loop `while (in) { ... }` of `importOptions`: the stream and the options vector
at the end. The first argument bounds the number of tests of the loop condition. -/
def importLoop : Nat → IStream → Char → List (List Char) → Option (IStream × List (List Char))
  | 0, _, _, _ => none
  | fuel + 1, s, ch, optionsVector =>
    if s.ok then
      match readToken (s.data.length + 2) s ch [] with
      | none => none
      | some (s1, ch1, currentToken) =>
        importLoop fuel s1 ch1
          (if currentToken.length ≠ 0 then optionsVector ++ [currentToken] else optionsVector)
    else some (s, optionsVector)

/-- The function `ASOptions::importOptions(in, optionsVector)`: the options vector after the
call; `none` when a loop does not end within its bound. The local `char ch;` starts with an
indeterminate value, which is never inspected before the first `get`. -/
def importOptions (inp : IStream) (optionsVector : List (List Char)) :
    Option (List (List Char)) :=
  match importLoop (inp.data.length + 2) inp (Char.ofNat 0) optionsVector with
  | none => none
  | some r => some r.2

end ASOptions

/-- An options text without its comments: every `#` is removed together with what follows it
up to, and not including, the next LF or CR. The flag tells whether the text starts inside a
comment. -/
def stripCommentsFrom : Bool → List Char → List Char
  | _, [] => []
  | true, c :: cs =>
    if isEolChar c then c :: stripCommentsFrom false cs else stripCommentsFrom true cs
  | false, c :: cs =>
    if c = '#' then stripCommentsFrom true cs else c :: stripCommentsFrom false cs

/-- The tokens of an options text as the specification describes them: the comments are
removed, the text is split at every separator, and the empty pieces are dropped, which leaves
the maximal runs of characters between separators. -/
def optionTokens (text : List Char) : List (List Char) :=
  ((stripCommentsFrom false text).splitOnP isOptionSeparator).filter (fun t => !t.isEmpty)

/-! ## TRBase -/

namespace TRBase

/-- The function `isalnum` of the C locale. -/
def isalnum (c : Char) : Bool := isalpha c || isdigit c

/-- The function `TRBase::isWhiteSpace`. -/
def isWhiteSpace (ch : Char) : Bool := decide (ch = ' ' ∨ ch = '\t')

/-- The function `TRBase::isLegalNameChar`; the test `(unsigned) ch > 127` is the test of the
character code. -/
def isLegalNameChar (ch : Char) : Bool :=
  if isWhiteSpace ch then false
  else if ch.toNat > 127 then false
  else isalnum ch || decide (ch = '.') || decide (ch = '_')

/-- The character `line[i]` of a `std::string`: the characters of the line, the null character
at `i = line.length()`, and no defined value beyond. -/
def charAt (line : List Char) (i : Nat) : Option Char :=
  match (line)[i]? with
  | some c => some c
  | none => if i = line.length then some (Char.ofNat 0) else none

/-- The function `TRBase::isCharPotentialHeader`; `none` when the assertion
`!isWhiteSpace(line[i])` fails or `line[i]` is not defined. -/
def isCharPotentialHeader (line : List Char) (i : Nat) : Option Bool :=
  match charAt line i with
  | none => none
  | some c =>
    if isWhiteSpace c then none
    else
      let prevCh := if i > 0 then line.getD (i - 1) ' ' else ' '
      if !isLegalNameChar prevCh && isLegalNameChar c then some true else some false

/-- The function `TRBase::peekNextChar(line, i)`: the first character after index `i` that is
neither a space nor a tab, and a space when there is none. -/
def peekNextChar (line : List Char) (i : Int) : Char :=
  if i + 1 < 0 then ' '
  else
    match (line.drop (i + 1).toNat).dropWhile isWhiteSpace with
    | [] => ' '
    | ch :: _ => ch

/-- The function `TRBase::findKeyword`; `none` when the assertion
`isCharPotentialHeader(line, i)` fails. -/
def findKeyword (line : List Char) (i : Nat) (keyword : List Char) : Option Bool :=
  match isCharPotentialHeader line i with
  | some true =>
    let keywordLength := keyword.length
    let wordEnd := i + keywordLength
    if wordEnd > line.length then some false
    else if (line.drop i).take keywordLength ≠ keyword then some false
    else if wordEnd = line.length then some true
    else if isLegalNameChar (line.getD wordEnd (Char.ofNat 0)) then some false
    else
      let peekChar := peekNextChar line ((wordEnd : Int) - 1)
      if peekChar = ',' ∨ peekChar = ')' then some false else some true
  | _ => none

end TRBase

namespace TRBase

/-- The function `ispunct` of the C locale: the printing characters that are neither a space
nor alphanumeric. -/
def ispunct (c : Char) : Bool :=
  decide ((33 ≤ c.toNat ∧ c.toNat ≤ 47) ∨ (58 ≤ c.toNat ∧ c.toNat ≤ 64)
    ∨ (91 ≤ c.toNat ∧ c.toNat ≤ 96) ∨ (123 ≤ c.toNat ∧ c.toNat ≤ 126))

/-- The function `TRBase::isCharPotentialOperator`; `none` when the assertion
`!isWhiteSpace(ch)` fails. The single quote and the double quote are written by their
codes 39 and 34. -/
def isCharPotentialOperator (ch : Char) : Option Bool :=
  if isWhiteSpace ch then none
  else if ch.toNat > 127 then some false
  else some (ispunct ch
    && ch != '{' && ch != '}'
    && ch != '(' && ch != ')'
    && ch != '[' && ch != ']'
    && ch != ';' && ch != ','
    && ch != '#' && ch != '\\'
    && ch != Char.ofNat 39 && ch != Char.ofNat 34)

end TRBase

/-- An ASCII letter. -/
def IsAsciiLetter (ch : Char) : Prop :=
  ('a'.toNat ≤ ch.toNat ∧ ch.toNat ≤ 'z'.toNat) ∨ ('A'.toNat ≤ ch.toNat ∧ ch.toNat ≤ 'Z'.toNat)

/-- An ASCII digit. -/
def IsAsciiDigit (ch : Char) : Prop := '0'.toNat ≤ ch.toNat ∧ ch.toNat ≤ '9'.toNat

/-- An ASCII punctuation character: a visible ASCII character, code 33 to 126, that is
neither a letter nor a digit. -/
def IsAsciiPunctuation (ch : Char) : Prop :=
  33 ≤ ch.toNat ∧ ch.toNat ≤ 126 ∧ ¬ IsAsciiLetter ch ∧ ¬ IsAsciiDigit ch

instance (ch : Char) : Decidable (IsAsciiLetter ch) :=
  inferInstanceAs (Decidable (_ ∨ _))

instance (ch : Char) : Decidable (IsAsciiDigit ch) :=
  inferInstanceAs (Decidable (_ ∧ _))

instance (ch : Char) : Decidable (IsAsciiPunctuation ch) :=
  inferInstanceAs (Decidable (_ ∧ _ ∧ _ ∧ _))

/-- The twelve punctuation characters that are no operator characters:
`{ } ( ) [ ] ; , #`, the backslash, the single quote and the double quote. -/
def nonOperatorPunctuation : List Char :=
  ['{', '}', '(', ')', '[', ']', ';', ',', '#', Char.ofNat 92, Char.ofNat 39, Char.ofNat 34]

/-- The keyword occurs in the line at position `i`. -/
def OccursAt (line : List Char) (i : Nat) (keyword : List Char) : Prop :=
  (line.drop i).take keyword.length = keyword

instance (line : List Char) (i : Nat) (keyword : List Char) :
    Decidable (OccursAt line i keyword) :=
  inferInstanceAs (Decidable (_ = _))

/-- The first character of the line at or after position `k` that is neither a space nor a
tab, if there is one. -/
def firstNonBlankFrom (line : List Char) (k : Nat) : Option Char :=
  (line.drop k).find? (fun c => !TRBase.isWhiteSpace c)

/-! ## TRResource -/

/-- The operator `<` of `std::string`: the first differing character decides, compared as
unsigned characters, and a proper prefix is less than the longer string. -/
def stringLess : List Char → List Char → Bool
  | _, [] => false
  | [], _ :: _ => true
  | a :: as, b :: bs =>
    if a.toNat < b.toNat then true
    else if b.toNat < a.toNat then false
    else stringLess as bs

/-- What `std::sort(first, last, comp)` guarantees about the range it leaves: it is a
rearrangement of the range it was given, and no element is ordered by `comp` before an element
that stands earlier. The order of elements that `comp` does not tell apart is not fixed. -/
def StdSort {α : Type} (comp : α → α → Bool) (input output : List α) : Prop :=
  output.Perm input ∧ output.Pairwise (fun a b => comp b a = false)

instance {α : Type} [DecidableEq α] (comp : α → α → Bool) (input output : List α) :
    Decidable (StdSort comp input output) :=
  inferInstanceAs (Decidable (_ ∧ _))

/-- The text starts with the table entry. -/
def Matches (entry text : List Char) : Prop := text.take entry.length = entry

instance (entry text : List Char) : Decidable (Matches entry text) :=
  inferInstanceAs (Decidable (_ = _))

/-- The first entry of a table, in table order, that matches the text. -/
def firstMatch (table : List (List Char)) (text : List Char) : Option (List Char) :=
  table.find? (fun entry => decide (Matches entry text))

/-- The entry `a` is a proper prefix of the entry `b`. -/
def ProperPrefix (a b : List Char) : Prop := Matches a b ∧ a ≠ b

instance (a b : List Char) : Decidable (ProperPrefix a b) :=
  inferInstanceAs (Decidable (_ ∧ _))

namespace TRResource

def AS_IF : List Char := "if".toList
def AS_ELSE : List Char := "else".toList
def AS_FOR : List Char := "for".toList
def AS_DO : List Char := "do".toList
def AS_WHILE : List Char := "while".toList
def AS_SWITCH : List Char := "switch".toList
def AS_CASE : List Char := "case".toList
def AS_DEFAULT : List Char := "default".toList
def AS_CLASS : List Char := "class".toList
def AS_VOLATILE : List Char := "volatile".toList
def AS_STRUCT : List Char := "struct".toList
def AS_UNION : List Char := "union".toList
def AS_INTERFACE : List Char := "interface".toList
def AS_NAMESPACE : List Char := "namespace".toList
def AS_TEMPLATE : List Char := "template".toList
def AS_TRY : List Char := "try".toList
def AS_CATCH : List Char := "catch".toList
def _AS_TRY : List Char := "__try".toList
def _AS_FINALLY : List Char := "__finally".toList
def _AS_EXCEPT : List Char := "__except".toList
def AS_CONST : List Char := "const".toList
def AS_SEALED : List Char := "sealed".toList
def AS_OVERRIDE : List Char := "override".toList

def AS_ASSIGN : List Char := "=".toList
def AS_PLUS_ASSIGN : List Char := "+=".toList
def AS_MINUS_ASSIGN : List Char := "-=".toList
def AS_MULT_ASSIGN : List Char := "*=".toList
def AS_DIV_ASSIGN : List Char := "/=".toList
def AS_MOD_ASSIGN : List Char := "%=".toList
def AS_OR_ASSIGN : List Char := "|=".toList
def AS_AND_ASSIGN : List Char := "&=".toList
def AS_XOR_ASSIGN : List Char := "^=".toList
def AS_GR_GR_ASSIGN : List Char := ">>=".toList
def AS_LS_LS_ASSIGN : List Char := "<<=".toList
def AS_GR_GR_GR_ASSIGN : List Char := ">>>=".toList
def AS_LS_LS_LS_ASSIGN : List Char := "<<<=".toList
def AS_GCC_MIN_ASSIGN : List Char := "<?".toList
def AS_GCC_MAX_ASSIGN : List Char := ">?".toList

def AS_RETURN : List Char := "return".toList

def AS_EQUAL : List Char := "==".toList
def AS_PLUS_PLUS : List Char := "++".toList
def AS_MINUS_MINUS : List Char := "--".toList
def AS_NOT_EQUAL : List Char := "!=".toList
def AS_GR_EQUAL : List Char := ">=".toList
def AS_GR_GR : List Char := ">>".toList
def AS_GR_GR_GR : List Char := ">>>".toList
def AS_LS_EQUAL : List Char := "<=".toList
def AS_LS_LS : List Char := "<<".toList
def AS_LS_LS_LS : List Char := "<<<".toList
def AS_QUESTION_QUESTION : List Char := "??".toList
def AS_LAMBDA : List Char := "=>".toList
def AS_ARROW : List Char := "->".toList
def AS_AND : List Char := "&&".toList
def AS_OR : List Char := "||".toList
def AS_SCOPE_RESOLUTION : List Char := "::".toList

def AS_PLUS : List Char := "+".toList
def AS_MINUS : List Char := "-".toList
def AS_MULT : List Char := "*".toList
def AS_DIV : List Char := "/".toList
def AS_MOD : List Char := "%".toList
def AS_GR : List Char := ">".toList
def AS_LS : List Char := "<".toList
def AS_NOT : List Char := "!".toList
def AS_BIT_OR : List Char := "|".toList
def AS_BIT_AND : List Char := "&".toList
def AS_BIT_NOT : List Char := "~".toList
def AS_BIT_XOR : List Char := "^".toList
def AS_QUESTION : List Char := "?".toList
def AS_COLON : List Char := ":".toList

def AS_CONST_CAST : List Char := "const_cast".toList
def AS_DYNAMIC_CAST : List Char := "dynamic_cast".toList
def AS_REINTERPRET_CAST : List Char := "reinterpret_cast".toList
def AS_STATIC_CAST : List Char := "static_cast".toList

/-- The comparison `sortOnLength`: the longest strings come first. -/
def sortOnLength (a b : List Char) : Bool := decide (a.length > b.length)

/-- The comparison `sortOnName`. -/
def sortOnName (a b : List Char) : Bool := stringLess a b

/-- The function `TRResource::buildAssignmentOperators`: `result` is a vector that the call
may leave when it is given the vector `assignmentOperators`. -/
def buildAssignmentOperators (assignmentOperators result : List (List Char)) : Prop :=
  StdSort sortOnLength
    (assignmentOperators ++ [AS_ASSIGN, AS_PLUS_ASSIGN, AS_MINUS_ASSIGN, AS_MULT_ASSIGN,
      AS_DIV_ASSIGN, AS_MOD_ASSIGN, AS_OR_ASSIGN, AS_AND_ASSIGN, AS_XOR_ASSIGN,
      AS_LS_LS_LS_ASSIGN])
    result

/-- The function `TRResource::buildCastOperators`, which does not sort. -/
def buildCastOperators (castOperators : List (List Char)) : List (List Char) :=
  castOperators ++ [AS_CONST_CAST, AS_DYNAMIC_CAST, AS_REINTERPRET_CAST, AS_STATIC_CAST]

/-- The function `TRResource::buildHeaders`. -/
def buildHeaders (headers : List (List Char)) (beautifier : Bool)
    (result : List (List Char)) : Prop :=
  StdSort sortOnName
    (headers ++ [AS_IF, AS_ELSE, AS_FOR, AS_WHILE, AS_DO, AS_SWITCH, AS_CASE, AS_DEFAULT,
      AS_TRY, AS_CATCH, _AS_TRY, _AS_FINALLY, _AS_EXCEPT]
      ++ (if beautifier then [AS_TEMPLATE] else []))
    result

/-- The function `TRResource::buildIndentableHeaders`. -/
def buildIndentableHeaders (indentableHeaders result : List (List Char)) : Prop :=
  StdSort sortOnName (indentableHeaders ++ [AS_RETURN]) result

/-- The function `TRResource::buildNonAssignmentOperators`. -/
def buildNonAssignmentOperators (nonAssignmentOperators result : List (List Char)) : Prop :=
  StdSort sortOnLength
    (nonAssignmentOperators ++ [AS_EQUAL, AS_PLUS_PLUS, AS_MINUS_MINUS, AS_NOT_EQUAL,
      AS_GR_EQUAL, AS_GR_GR_GR, AS_GR_GR, AS_LS_EQUAL, AS_LS_LS_LS, AS_LS_LS, AS_ARROW,
      AS_AND, AS_OR, AS_LAMBDA])
    result

/-- The function `TRResource::buildNonParenHeaders`. -/
def buildNonParenHeaders (nonParenHeaders : List (List Char)) (beautifier : Bool)
    (result : List (List Char)) : Prop :=
  StdSort sortOnName
    (nonParenHeaders ++ [AS_ELSE, AS_DO, AS_TRY, AS_CATCH, AS_CASE, AS_DEFAULT, _AS_TRY,
      _AS_FINALLY]
      ++ (if beautifier then [AS_TEMPLATE] else []))
    result

/-- The function `TRResource::buildOperators`. -/
def buildOperators (operators result : List (List Char)) : Prop :=
  StdSort sortOnLength
    (operators ++ [AS_PLUS_ASSIGN, AS_MINUS_ASSIGN, AS_MULT_ASSIGN, AS_DIV_ASSIGN,
      AS_MOD_ASSIGN, AS_OR_ASSIGN, AS_AND_ASSIGN, AS_XOR_ASSIGN, AS_EQUAL, AS_PLUS_PLUS,
      AS_MINUS_MINUS, AS_NOT_EQUAL, AS_GR_EQUAL, AS_GR_GR_GR_ASSIGN, AS_GR_GR_ASSIGN,
      AS_GR_GR_GR, AS_GR_GR, AS_LS_EQUAL, AS_LS_LS_LS_ASSIGN, AS_LS_LS_ASSIGN, AS_LS_LS_LS,
      AS_LS_LS, AS_QUESTION_QUESTION, AS_LAMBDA, AS_ARROW, AS_AND, AS_OR,
      AS_SCOPE_RESOLUTION, AS_PLUS, AS_MINUS, AS_MULT, AS_DIV, AS_MOD, AS_QUESTION, AS_COLON,
      AS_ASSIGN, AS_LS, AS_GR, AS_NOT, AS_BIT_OR, AS_BIT_AND, AS_BIT_NOT, AS_BIT_XOR,
      AS_GCC_MIN_ASSIGN, AS_GCC_MAX_ASSIGN])
    result

/-- The function `TRResource::buildPreBlockStatements`. -/
def buildPreBlockStatements (preBlockStatements result : List (List Char)) : Prop :=
  StdSort sortOnName (preBlockStatements ++ [AS_CLASS, AS_STRUCT, AS_UNION, AS_NAMESPACE])
    result

/-- The function `TRResource::buildPreCommandHeaders`. -/
def buildPreCommandHeaders (preCommandHeaders result : List (List Char)) : Prop :=
  StdSort sortOnName (preCommandHeaders ++ [AS_CONST, AS_VOLATILE, AS_SEALED, AS_OVERRIDE])
    result

/-- The function `TRResource::buildPreDefinitionHeaders`. -/
def buildPreDefinitionHeaders (preDefinitionHeaders result : List (List Char)) : Prop :=
  StdSort sortOnName
    (preDefinitionHeaders ++ [AS_CLASS, AS_STRUCT, AS_UNION, AS_NAMESPACE]) result

instance (v r : List (List Char)) : Decidable (buildAssignmentOperators v r) :=
  inferInstanceAs (Decidable (StdSort _ _ _))

instance (v : List (List Char)) (b : Bool) (r : List (List Char)) :
    Decidable (buildHeaders v b r) :=
  inferInstanceAs (Decidable (StdSort _ _ _))

instance (v r : List (List Char)) : Decidable (buildIndentableHeaders v r) :=
  inferInstanceAs (Decidable (StdSort _ _ _))

instance (v r : List (List Char)) : Decidable (buildNonAssignmentOperators v r) :=
  inferInstanceAs (Decidable (StdSort _ _ _))

instance (v : List (List Char)) (b : Bool) (r : List (List Char)) :
    Decidable (buildNonParenHeaders v b r) :=
  inferInstanceAs (Decidable (StdSort _ _ _))

instance (v r : List (List Char)) : Decidable (buildOperators v r) :=
  inferInstanceAs (Decidable (StdSort _ _ _))

instance (v r : List (List Char)) : Decidable (buildPreBlockStatements v r) :=
  inferInstanceAs (Decidable (StdSort _ _ _))

instance (v r : List (List Char)) : Decidable (buildPreCommandHeaders v r) :=
  inferInstanceAs (Decidable (StdSort _ _ _))

instance (v r : List (List Char)) : Decidable (buildPreDefinitionHeaders v r) :=
  inferInstanceAs (Decidable (StdSort _ _ _))

end TRResource

/-- A table in which no entry is longer than an entry that stands earlier. -/
def SortedByLength (table : List (List Char)) : Prop :=
  table.Pairwise (fun a b => b.length ≤ a.length)

/-- A table in which every entry is less, as a string, than every entry that stands later. -/
def SortedByName (table : List (List Char)) : Prop :=
  table.Pairwise (fun a b => stringLess a b = true)

instance (table : List (List Char)) : Decidable (SortedByLength table) :=
  inferInstanceAs (Decidable (List.Pairwise _ _))

instance (table : List (List Char)) : Decidable (SortedByName table) :=
  inferInstanceAs (Decidable (List.Pairwise _ _))

/-- The place of the first occurrence of an entry in a table, counted from 0; the length of
the table when the entry is not in it. -/
def positionOf (entry : List Char) (table : List (List Char)) : Nat :=
  table.findIdx (fun e => decide (e = entry))

/-! ## ASConsole::convertLineEnds -/

namespace ASConsole

/-- The loop `for (int pos = 0; pos < inLength; pos++)` of `convertLineEnds`: the converted
output when the loop is left. The arguments are a bound on the number of passes, the loop
variable `pos` and the local `outStr`; `none` means that the bound was reached. `inStr[pos + 1]`
at the last position is the null character that ends the string. -/
def convertLoop (inStr : List Char) (lineEnd : LineEndFormat) :
    Nat → Nat → List Char → Option (List Char)
  | 0, pos, outStr => if pos < inStr.length then none else some outStr
  | fuel + 1, pos, outStr =>
    if pos < inStr.length then
      if inStr.getD pos (Char.ofNat 0) = '\r' then
        if inStr.getD (pos + 1) (Char.ofNat 0) = '\n' then
          -- CRLF
          if lineEnd = .LINEEND_MACOLD then
            convertLoop inStr lineEnd fuel (pos + 1 + 1)
              (outStr ++ [inStr.getD pos (Char.ofNat 0)])
          else if lineEnd = .LINEEND_LINUX then
            convertLoop inStr lineEnd fuel (pos + 1 + 1)
              (outStr ++ [inStr.getD (pos + 1) (Char.ofNat 0)])
          else
            convertLoop inStr lineEnd fuel (pos + 1 + 1)
              (outStr ++ [inStr.getD pos (Char.ofNat 0)]
                ++ [inStr.getD (pos + 1) (Char.ofNat 0)])
        else
          -- CR
          if lineEnd = .LINEEND_WINDOWS then
            convertLoop inStr lineEnd fuel (pos + 1)
              (outStr ++ [inStr.getD pos (Char.ofNat 0)] ++ ['\n'])
          else if lineEnd = .LINEEND_LINUX then
            convertLoop inStr lineEnd fuel (pos + 1) (outStr ++ ['\n'])
          else
            convertLoop inStr lineEnd fuel (pos + 1)
              (outStr ++ [inStr.getD pos (Char.ofNat 0)])
      else if inStr.getD pos (Char.ofNat 0) = '\n' then
        -- LF
        if lineEnd = .LINEEND_WINDOWS then
          convertLoop inStr lineEnd fuel (pos + 1)
            (outStr ++ ['\r'] ++ [inStr.getD pos (Char.ofNat 0)])
        else if lineEnd = .LINEEND_MACOLD then
          convertLoop inStr lineEnd fuel (pos + 1) (outStr ++ ['\r'])
        else
          convertLoop inStr lineEnd fuel (pos + 1)
            (outStr ++ [inStr.getD pos (Char.ofNat 0)])
      else
        convertLoop inStr lineEnd fuel (pos + 1) (outStr ++ [inStr.getD pos (Char.ofNat 0)])
    else some outStr

/-- The function `ASConsole::convertLineEnds(out, lineEnd)`: the new content of the stream
`out`, whose content before the call is the first argument; `none` when the assertion on
`lineEnd` fails or the loop does not end within its bound. -/
def convertLineEnds (out : List Char) (lineEnd : LineEndFormat) : Option (List Char) :=
  if lineEnd = .LINEEND_WINDOWS ∨ lineEnd = .LINEEND_LINUX ∨ lineEnd = .LINEEND_MACOLD then
    convertLoop out lineEnd out.length 0 []
  else none

end ASConsole

/-- The characters of the line end of an explicit target. -/
def targetEOL : LineEndFormat → List Char
  | .LINEEND_WINDOWS => eolCRLF
  | .LINEEND_LINUX => eolLF
  | .LINEEND_MACOLD => eolCR
  | .LINEEND_DEFAULT => []

/-- A text with every line terminator replaced by that of the target, the terminators being
read from the left: a CR directly followed by LF is one terminator, every other CR or LF is
one terminator. -/
def withLineEnds (target : LineEndFormat) : List Char → List Char
  | [] => []
  | [c] => if isEolChar c then targetEOL target else [c]
  | c :: d :: rest =>
    if c = '\r' ∧ d = '\n' then targetEOL target ++ withLineEnds target rest
    else if isEolChar c then targetEOL target ++ withLineEnds target (d :: rest)
    else c :: withLineEnds target (d :: rest)

/-- The number of line terminators of a text, a CR directly followed by LF counting as one and
every other CR or LF as one. -/
def lineEndCount : List Char → Nat
  | [] => 0
  | [c] => if isEolChar c then 1 else 0
  | c :: d :: rest =>
    if c = '\r' ∧ d = '\n' then lineEndCount rest + 1
    else if isEolChar c then lineEndCount (d :: rest) + 1
    else lineEndCount (d :: rest)

/-- A text without its CR and LF characters. -/
def withoutEolChars (s : List Char) : List Char := s.filter (fun c => !isEolChar c)

/-- Every CR of the text is immediately followed by an LF and every LF is immediately preceded
by a CR. -/
def OnlyCRLF (s : List Char) : Prop :=
  (∀ i, s.get? i = some '\r' → s.get? (i + 1) = some '\n')
  ∧ (∀ i, s.get? i = some '\n' → ∃ j, i = j + 1 ∧ s.get? j = some '\r')

namespace TRBase

/-- The function `TRBase::getCurrentWord(line, index)`: the loop moves `i` from `index` over
the legal-name characters of the line, and the result is `line.substr(index, i - index)`;
`none` when the assertion `isCharPotentialHeader(line, index)` fails. -/
def getCurrentWord (line : List Char) (index : Nat) : Option (List Char) :=
  match isCharPotentialHeader line index with
  | some true =>
    let i := index + ((line.drop index).takeWhile isLegalNameChar).length
    some ((line.drop index).take (i - index))
  | _ => none

end TRBase

/-! ## ASConsole: the conversions between UTF-16 and UTF-8 -/

/-- The enumeration `FileEncoding` (TaaRRule.h). -/
inductive FileEncoding where
  | ENCODING_8BIT
  | UTF_16BE
  | UTF_16LE
  | UTF_32BE
  | UTF_32LE
deriving DecidableEq, Repr

/-- The enumeration `eState` of the two conversion functions. -/
inductive EState where
  | eStart
  | eSecondOf4Bytes
  | ePenultimate
  | eFinal
deriving DecidableEq, Repr

namespace ASConsole

/-- The function `ASConsole::swap8to16bit`: `((value & 0xFF) << 8) + (value >> 8)`, on a value
that is not negative. -/
def swap8to16bit (value : Nat) : Nat := ((value &&& 0xFF) <<< 8) + (value >>> 8)

/-- The function `ASConsole::swap16bit`: `((value & 0xff) << 8) | ((value & 0xff00) >> 8)`. On
the two's complement representation of a possibly negative `int`, `value & 0xff` is
`value % 256` and `(value & 0xff00) >> 8` is `value / 256 % 256`, with the division that
rounds down. -/
def swap16bit (value : Int) : Int := (value % 256) * 256 + (value / 256) % 256

/-- The element `uptr[i]` of the data read through `const short*`, on a machine that stores
the low byte first: a signed 16-bit value; `none` outside the data. A byte is a natural
number below 256. -/
def shortAt (data : List Nat) (i : Nat) : Option Int :=
  match data[2 * i]?, data[2 * i + 1]? with
  | some lo, some hi =>
    if lo + 256 * hi ≥ 32768 then some ((lo + 256 * hi : Nat) - 65536)
    else some (lo + 256 * hi : Nat)
  | _, _ => none

/-- The loop of `Utf8LengthFromUtf16`: `for (size_t i = 0; i < wcharLen && uptr[i];)`. The
arguments are a bound on the number of passes, `i` and `len`. The conversion of the `int`
operand to `size_t uch` is the remainder modulo `2 ^ 64`. -/
def utf8LengthLoop (data : List Nat) (wcharLen : Nat) (encoding : FileEncoding) :
    Nat → Nat → Nat → Option Nat
  | 0, _, _ => none
  | fuel + 1, i, len =>
    if i < wcharLen then
      match shortAt data i with
      | none => none
      | some v =>
        if v = 0 then some len
        else
          let uch : Nat :=
            ((if encoding = .UTF_16BE then swap16bit v else v) % (2 ^ 64 : Int)).toNat
          if uch < 0x80 then utf8LengthLoop data wcharLen encoding fuel (i + 1) (len + 1)
          else if uch < 0x800 then utf8LengthLoop data wcharLen encoding fuel (i + 1) (len + 2)
          else if uch ≥ 0xD800 ∧ uch ≤ 0xDFFF then
            utf8LengthLoop data wcharLen encoding fuel (i + 1 + 1) (len + 4)
          else utf8LengthLoop data wcharLen encoding fuel (i + 1) (len + 3)
    else some len

/-- The function `ASConsole::Utf8LengthFromUtf16(data, tlen, encoding)`, `tlen` being the
length of the data. -/
def Utf8LengthFromUtf16 (data : List Nat) (encoding : FileEncoding) : Option Nat :=
  utf8LengthLoop data (data.length / 2) encoding (data.length / 2 + 1) 0 0

/-- The code unit read at `pRead` by the statements `nCur16 = *pRead++; nCur16 |= ...`: the
bytes at `pRead` and `pRead + 1` in the byte order of the encoding; `none` outside the
data. -/
def unitAt (utf16In : List Nat) (encoding : FileEncoding) (pRead : Nat) : Option Nat :=
  match utf16In[pRead]?, utf16In[pRead + 1]? with
  | some b0, some b1 =>
    if encoding = .UTF_16LE then some (b0 ||| ((b1 <<< 8) % 65536))
    else some (((b0 <<< 8) % 65536) ||| (b1 % 65536))
  | _, _ => none

/-- The first byte of the UTF-8 form of `nCur16` and the state that follows it: the last part
of `case eStart` in `Utf16ToUtf8`. -/
def firstByte (nCur16 : Nat) : Nat × EState :=
  if nCur16 < 0x80 then ((nCur16 &&& 0xFF) % 256, .eStart)
  else if nCur16 < 0x800 then ((0xC0 ||| (nCur16 >>> 6)) % 256, .eFinal)
  else if nCur16 < 0x10000 then ((0xE0 ||| (nCur16 >>> 12)) % 256, .ePenultimate)
  else ((0xF0 ||| (nCur16 >>> 18)) % 256, .eSecondOf4Bytes)

/-- The loop `while (pRead < pEnd)` of `Utf16ToUtf8`: the bytes written and the state
`eState` when the loop is left. The arguments are a bound on the number of passes, `pRead`,
`nCur16`, `eState` and the bytes written so far; `none` when the bound is reached or a byte is
read outside the data. The test `pRead >= pEnd` at the head of `case eStart` is never true
inside the loop. -/
def utf16ToUtf8Loop (utf16In : List Nat) (encoding : FileEncoding) :
    Nat → Nat → Nat → EState → List Nat → Option (List Nat × EState)
  | 0, _, _, _, _ => none
  | fuel + 1, pRead, nCur16, eState, written =>
    if pRead < utf16In.length then
      match eState with
      | .eStart =>
        match unitAt utf16In encoding pRead with
        | none => none
        | some u =>
          if u ≥ 0xD800 ∧ u ≤ 0xDBFF then
            match unitAt utf16In encoding (pRead + 1 + 1) with
            | none => none
            | some trail =>
              utf16ToUtf8Loop utf16In encoding fuel (pRead + 1 + 1 + 1 + 1)
                ((((u &&& 0x3ff) <<< 10) ||| (trail &&& 0x3ff)) + 0x10000)
                (firstByte ((((u &&& 0x3ff) <<< 10) ||| (trail &&& 0x3ff)) + 0x10000)).2
                (written ++ [(firstByte
                  ((((u &&& 0x3ff) <<< 10) ||| (trail &&& 0x3ff)) + 0x10000)).1])
          else
            utf16ToUtf8Loop utf16In encoding fuel (pRead + 1 + 1) u (firstByte u).2
              (written ++ [(firstByte u).1])
      | .eSecondOf4Bytes =>
        utf16ToUtf8Loop utf16In encoding fuel pRead nCur16 .ePenultimate
          (written ++ [(0x80 ||| ((nCur16 >>> 12) &&& 0x3F)) % 256])
      | .ePenultimate =>
        utf16ToUtf8Loop utf16In encoding fuel pRead nCur16 .eFinal
          (written ++ [(0x80 ||| ((nCur16 >>> 6) &&& 0x3F)) % 256])
      | .eFinal =>
        utf16ToUtf8Loop utf16In encoding fuel pRead nCur16 .eStart
          (written ++ [(0x80 ||| (nCur16 &&& 0x3F)) % 256])
    else some (written, eState)

/-- The function `ASConsole::Utf16ToUtf8(utf16In, inLen, encoding, firstBlock, utf8Out)`,
`inLen` being the length of the data: the bytes written to `utf8Out`, whose number is the
value returned, and the value of the static `eState` after the call. The argument `retained`
is the value of the static `eState` before the call; the local `nCur16` starts at 0. -/
def Utf16ToUtf8 (utf16In : List Nat) (encoding : FileEncoding) (firstBlock : Bool)
    (retained : EState) : Option (List Nat × EState) :=
  utf16ToUtf8Loop utf16In encoding (2 * utf16In.length + 1) 0 0
    (if firstBlock then .eStart else retained) []

/-- The bytes of the 16-bit value that `*pCur++ = static_cast<utf16>(...)` stores in
`Utf8ToUtf16`, on a machine that stores the low byte first. -/
def storeUnit (encoding : FileEncoding) (value : Nat) : List Nat :=
  let v := (if encoding = .UTF_16BE then swap8to16bit value else value) % 65536
  [v % 256, v / 256]

/-- One pass of the loop `while (pRead < pEnd)` of `Utf8ToUtf16` for the byte `b` at `pRead`:
the state is `nCur`, `eState` and the bytes written so far. -/
def utf8ToUtf16Step (encoding : FileEncoding) (st : Nat × EState × List Nat) (b : Nat) :
    Nat × EState × List Nat :=
  let next : Nat × EState :=
    match st.2.1 with
    | .eStart =>
      if 0xF0 &&& b = 0xF0 then ((0x7 &&& b) <<< 18, .eSecondOf4Bytes)
      else if 0xE0 &&& b = 0xE0 then ((0x1F &&& b) <<< 12, .ePenultimate)
      else if 0xC0 &&& b = 0xC0 then ((0x3F &&& b) <<< 6, .eFinal)
      else (b, .eStart)
    | .eSecondOf4Bytes => (st.1 ||| ((0x3F &&& b) <<< 12), .ePenultimate)
    | .ePenultimate => (st.1 ||| ((0x3F &&& b) <<< 6), .eFinal)
    | .eFinal => (st.1 ||| (0x3F &&& b), .eStart)
  if next.2 = .eStart then
    if next.1 ≥ 0x10000 then
      (next.1, next.2, st.2.2
        ++ storeUnit encoding (((next.1 - 0x10000) >>> 10) + 0xD800)
        ++ storeUnit encoding (((next.1 - 0x10000) &&& 0x3ff) + 0xDC00))
    else (next.1, next.2, st.2.2 ++ storeUnit encoding next.1)
  else (next.1, next.2, st.2.2)

/-- The function `ASConsole::Utf8ToUtf16(utf8In, inLen, encoding, utf16Out)`, `inLen` being
the length of the data: the bytes written to `utf16Out`, whose number is the value returned.
Every pass of the loop reads one byte and moves `pRead` by one. -/
def Utf8ToUtf16 (utf8In : List Nat) (encoding : FileEncoding) : List Nat :=
  (utf8In.foldl (utf8ToUtf16Step encoding) (0, .eStart, [])).2.2

end ASConsole

/-! ## Lemmas on the read loop and on `nextLine` -/

open TRStreamIterator

theorem drop_cons_getElem {α : Type} {l : List α} {n : Nat} {c : α} {r : List α}
    (h : l.drop n = c :: r) : l[n]? = some c ∧ l.drop (n + 1) = r := by
  have h1 : l[n]? = some c := by
    have := List.head?_drop l n
    rw [h] at this
    simpa using this.symm
  refine ⟨h1, ?_⟩
  have : l.drop (n + 1) = (l.drop n).tail := by
    rw [List.tail_drop]
  rw [this, h]; rfl

theorem drop_nil_getElem {α : Type} {l : List α} {n : Nat}
    (h : l.drop n = []) : l[n]? = none := by
  have := List.head?_drop l n
  rw [h] at this
  simpa using this.symm

/-- The read loop on a good stream whose unread part has no terminator. -/
theorem readRecord_noEol (l : List Char) : ∀ (data : List Char) (pos : Nat) (ch : Char) (buf : List Char) (fuel : Nat),
    data.drop pos = l → (∀ c ∈ l, isEolChar c = false) → isEolChar ch = false →
    l.length + 2 ≤ fuel →
    ∃ ch', readRecord fuel ⟨data, pos, false, false⟩ ch buf
      = some (⟨data, pos + l.length, true, true⟩, ch', buf ++ ch :: l) := by
  induction l with
  | nil =>
    intro data pos ch buf fuel hd _ hch hf
    obtain ⟨f, rfl⟩ : ∃ f, fuel = f + 2 := ⟨fuel - 2, by simp at hf; omega⟩
    have hch' : ch ≠ '\n' ∧ ch ≠ '\r' := by
      simp [isEolChar] at hch; exact ⟨hch.2, hch.1⟩
    have hg := drop_nil_getElem hd
    refine ⟨ch, ?_⟩
    simp [readRecord, IStream.eof, IStream.get, IStream.good, hch', hg]
  | cons c l ih =>
    intro data pos ch buf fuel hd hl hch hf
    obtain ⟨f, rfl⟩ : ∃ f, fuel = f + 1 := ⟨fuel - 1, by simp at hf; omega⟩
    have hch' : ch ≠ '\n' ∧ ch ≠ '\r' := by
      simp [isEolChar] at hch; exact ⟨hch.2, hch.1⟩
    obtain ⟨hg, hd'⟩ := drop_cons_getElem hd
    obtain ⟨ch', h'⟩ := ih data (pos + 1) c (buf ++ [ch]) f hd'
      (fun x hx => hl x (List.mem_cons_of_mem _ hx)) (hl c (List.mem_cons_self _ _))
      (by simp at hf ⊢; omega)
    refine ⟨ch', ?_⟩
    simp [readRecord, IStream.eof, IStream.get, IStream.good, hch', hg, h']
    omega

/-- The read loop on a good stream whose unread part reaches a terminator `t`. -/
theorem readRecord_eol (l : List Char) : ∀ (data : List Char) (pos : Nat) (ch : Char) (buf : List Char) (fuel : Nat)
    (t : Char) (tail : List Char),
    data.drop pos = l ++ t :: tail → (∀ c ∈ l, isEolChar c = false) → isEolChar ch = false →
    isEolChar t = true → l.length + 2 ≤ fuel →
    readRecord fuel ⟨data, pos, false, false⟩ ch buf
      = some (⟨data, pos + l.length + 1, false, false⟩, t, buf ++ ch :: l) := by
  induction l with
  | nil =>
    intro data pos ch buf fuel t tail hd _ hch ht hf
    obtain ⟨f, rfl⟩ : ∃ f, fuel = f + 2 := ⟨fuel - 2, by simp at hf; omega⟩
    have hch' : ch ≠ '\n' ∧ ch ≠ '\r' := by
      simp [isEolChar] at hch; exact ⟨hch.2, hch.1⟩
    have ht' : t = '\n' ∨ t = '\r' := by
      simp [isEolChar] at ht; tauto
    obtain ⟨hg, -⟩ := drop_cons_getElem hd
    rcases ht' with h | h <;> subst h <;>
      simp [readRecord, IStream.eof, IStream.get, IStream.good, hg, hch']
  | cons c l ih =>
    intro data pos ch buf fuel t tail hd hl hch ht hf
    obtain ⟨f, rfl⟩ : ∃ f, fuel = f + 1 := ⟨fuel - 1, by simp at hf; omega⟩
    have hch' : ch ≠ '\n' ∧ ch ≠ '\r' := by
      simp [isEolChar] at hch; exact ⟨hch.2, hch.1⟩
    obtain ⟨hg, hd'⟩ := drop_cons_getElem hd
    have h' := ih data (pos + 1) c (buf ++ [ch]) f t tail hd'
      (fun x hx => hl x (List.mem_cons_of_mem _ hx)) (hl c (List.mem_cons_self _ _)) ht
      (by simp at hf ⊢; omega)
    simp [readRecord, IStream.eof, IStream.get, IStream.good, hch', hg, h']
    omega

@[simp] theorem noteDeleted_inStream (it : TRStreamIterator) (b : Bool) :
    (noteDeleted it b).inStream = it.inStream := by
  unfold noteDeleted; split <;> split <;> rfl

@[simp] theorem noteDeleted_peekStart (it : TRStreamIterator) (b : Bool) :
    (noteDeleted it b).peekStart = it.peekStart := by
  unfold noteDeleted; split <;> split <;> rfl

@[simp] theorem noteDeleted_eolWindows (it : TRStreamIterator) (b : Bool) :
    (noteDeleted it b).eolWindows = it.eolWindows := by
  unfold noteDeleted; split <;> split <;> rfl

@[simp] theorem noteDeleted_eolLinux (it : TRStreamIterator) (b : Bool) :
    (noteDeleted it b).eolLinux = it.eolLinux := by
  unfold noteDeleted; split <;> split <;> rfl

@[simp] theorem noteDeleted_eolMacOld (it : TRStreamIterator) (b : Bool) :
    (noteDeleted it b).eolMacOld = it.eolMacOld := by
  unfold noteDeleted; split <;> split <;> rfl

@[simp] theorem noteDeleted_outputEOL (it : TRStreamIterator) (b : Bool) :
    (noteDeleted it b).outputEOL = it.outputEOL := by
  unfold noteDeleted; split <;> split <;> rfl

@[simp] theorem noteDeleted_buffer (it : TRStreamIterator) (b : Bool) :
    (noteDeleted it b).buffer = it.buffer := by
  unfold noteDeleted; split <;> split <;> rfl

@[simp] theorem setOutputEOL_inStream (it : TRStreamIterator) :
    (setOutputEOL it).inStream = it.inStream := by
  unfold setOutputEOL; split <;> split <;> rfl

@[simp] theorem setOutputEOL_peekStart (it : TRStreamIterator) :
    (setOutputEOL it).peekStart = it.peekStart := by
  unfold setOutputEOL; split <;> split <;> rfl

@[simp] theorem setOutputEOL_eolWindows (it : TRStreamIterator) :
    (setOutputEOL it).eolWindows = it.eolWindows := by
  unfold setOutputEOL; split <;> split <;> rfl

@[simp] theorem setOutputEOL_eolLinux (it : TRStreamIterator) :
    (setOutputEOL it).eolLinux = it.eolLinux := by
  unfold setOutputEOL; split <;> split <;> rfl

@[simp] theorem setOutputEOL_eolMacOld (it : TRStreamIterator) :
    (setOutputEOL it).eolMacOld = it.eolMacOld := by
  unfold setOutputEOL; split <;> split <;> rfl

@[simp] theorem setOutputEOL_buffer (it : TRStreamIterator) :
    (setOutputEOL it).buffer = it.buffer := by
  unfold setOutputEOL; split <;> split <;> rfl

theorem setOutputEOL_outputEOL (it : TRStreamIterator) :
    (setOutputEOL it).outputEOL = majorityEOL it.eolWindows it.eolLinux it.eolMacOld := by
  unfold setOutputEOL majorityEOL
  by_cases h1 : it.eolWindows ≥ it.eolLinux <;> by_cases h2 : it.eolWindows ≥ it.eolMacOld <;>
    by_cases h3 : it.eolLinux ≥ it.eolMacOld <;> simp [h1, h2, h3]
  omega

theorem length_le_of_drop {α : Type} {l r : List α} {n : Nat} (h : l.drop n = r) :
    r.length ≤ l.length := by
  rw [← h, List.length_drop]; omega

theorem drop_add_of_append {α : Type} {data l r : List α} {pos : Nat}
    (h : data.drop pos = l ++ r) : data.drop (pos + l.length) = r := by
  have := congrArg (List.drop l.length) h
  rw [List.drop_drop] at this
  rw [this]; simp

/-- The first `get` and the read loop of `nextLine`, when no terminator is left. -/
theorem readLine_noEol (data : List Char) (pos : Nat) (l : List Char)
    (hd : data.drop pos = l) (hl : ∀ c ∈ l, isEolChar c = false) :
    ∃ ch', readRecord (data.length + 2) ((IStream.mk data pos false false).get chInit).1
        ((IStream.mk data pos false false).get chInit).2 []
      = some (⟨data, pos + l.length, true, true⟩, ch', l) := by
  cases l with
  | nil =>
    have hg := drop_nil_getElem hd
    exact ⟨chInit, by simp [IStream.get, IStream.good, hg, readRecord, IStream.eof]⟩
  | cons c l =>
    obtain ⟨hg, hd'⟩ := drop_cons_getElem hd
    have hlen := length_le_of_drop hd
    obtain ⟨ch', h⟩ := readRecord_noEol l data (pos + 1) c [] (data.length + 2) hd'
      (fun x hx => hl x (List.mem_cons_of_mem _ hx)) (hl c (List.mem_cons_self _ _))
      (by simp at hlen ⊢; omega)
    refine ⟨ch', ?_⟩
    simp [IStream.get, IStream.good, hg, h]
    omega

/-- The first `get` and the read loop of `nextLine`, when a terminator `t` is reached. -/
theorem readLine_eol (data : List Char) (pos : Nat) (l : List Char) (t : Char)
    (tail : List Char) (hd : data.drop pos = l ++ t :: tail)
    (hl : ∀ c ∈ l, isEolChar c = false) (ht : isEolChar t = true) :
    readRecord (data.length + 2) ((IStream.mk data pos false false).get chInit).1
        ((IStream.mk data pos false false).get chInit).2 []
      = some (⟨data, pos + l.length + 1, false, false⟩, t, l) := by
  cases l with
  | nil =>
    obtain ⟨hg, -⟩ := drop_cons_getElem hd
    have ht' : t = '\n' ∨ t = '\r' := by
      simp [isEolChar] at ht; tauto
    rcases ht' with h | h <;> subst h <;>
      simp [IStream.get, IStream.good, hg, readRecord, IStream.eof]
  | cons c l =>
    obtain ⟨hg, hd'⟩ := drop_cons_getElem hd
    have hlen := length_le_of_drop hd
    have h := readRecord_eol l data (pos + 1) c [] (data.length + 2) t tail hd'
      (fun x hx => hl x (List.mem_cons_of_mem _ hx)) (hl c (List.mem_cons_self _ _)) ht
      (by simp at hlen ⊢; omega)
    simp [IStream.get, IStream.good, hg, h]
    omega

/-- The call `nextLine` on a good stream whose unread part `l` has no terminator. -/
theorem nextLine_noEol (it : TRStreamIterator) (b : Bool) (data : List Char) (pos : Nat)
    (l : List Char) (hp : it.peekStart = 0) (hs : it.inStream = ⟨data, pos, false, false⟩)
    (hd : data.drop pos = l) (hl : ∀ c ∈ l, isEolChar c = false) :
    nextLine it b = some (l, { noteDeleted it b with
      buffer := l, inStream := ⟨data, pos + l.length, true, true⟩ }) := by
  obtain ⟨ch', h⟩ := readLine_noEol data pos l hd hl
  simp [nextLine, hp, hs, readFuel, h, IStream.eof]

/-- The call `nextLine` when the unread part is `l`, a terminator and nothing more. -/
theorem nextLine_last (it : TRStreamIterator) (b : Bool) (data : List Char) (pos : Nat)
    (l : List Char) (t : Char) (hp : it.peekStart = 0)
    (hs : it.inStream = ⟨data, pos, false, false⟩)
    (hd : data.drop pos = l ++ [t]) (hl : ∀ c ∈ l, isEolChar c = false)
    (ht : isEolChar t = true) :
    nextLine it b = some (l, setOutputEOL { noteDeleted it b with
      buffer := l, inStream := ⟨data, pos + l.length + 1, false, false⟩ }) := by
  have h := readLine_eol data pos l t [] hd hl ht
  have hd' : data.drop (pos + l.length + 1) = [] := by
    have := drop_add_of_append (l := l ++ [t]) (r := []) (by simpa using hd)
    simpa [Nat.add_assoc] using this
  have hg := drop_nil_getElem hd'
  simp [nextLine, hp, hs, readFuel, h, IStream.eof, findInputEOL, IStream.peek, IStream.good,
    hg, IStream.clear]

/-- The call `nextLine` once the read loop has stopped at a terminator. -/
theorem nextLine_of_readLine_eol (it : TRStreamIterator) (b : Bool) (data : List Char)
    (pos : Nat) (l : List Char) (t : Char) (tail : List Char) (hp : it.peekStart = 0)
    (hs : it.inStream = ⟨data, pos, false, false⟩)
    (hd : data.drop pos = l ++ t :: tail) (hl : ∀ c ∈ l, isEolChar c = false)
    (ht : isEolChar t = true) :
    nextLine it b = some (l, setOutputEOL (findInputEOL { noteDeleted it b with
      buffer := l, inStream := ⟨data, pos + l.length + 1, false, false⟩ } t)) := by
  have h := readLine_eol data pos l t tail hd hl ht
  simp [nextLine, hp, hs, readFuel, h, IStream.eof]

/-- The call `nextLine` when the unread part is `l`, then a CRLF or LFCR. -/
theorem nextLine_pair (it : TRStreamIterator) (b : Bool) (data : List Char) (pos : Nat)
    (l : List Char) (t d : Char) (r : List Char) (hp : it.peekStart = 0)
    (hs : it.inStream = ⟨data, pos, false, false⟩)
    (hd : data.drop pos = l ++ t :: d :: r) (hl : ∀ c ∈ l, isEolChar c = false)
    (htd : isEolPair t d = true) :
    nextLine it b = some (l, setOutputEOL { noteDeleted it b with
      buffer := l, inStream := ⟨data, pos + l.length + 2, false, false⟩,
      eolWindows := it.eolWindows + 1 }) := by
  have ht : isEolChar t = true := by
    simp [isEolPair] at htd; simp [isEolChar]; tauto
  rw [nextLine_of_readLine_eol it b data pos l t (d :: r) hp hs hd hl ht]
  have hd' : data.drop (pos + l.length + 1) = d :: r := by
    have := drop_add_of_append (l := l ++ [t]) (r := d :: r) (by simpa using hd)
    simpa [Nat.add_assoc] using this
  obtain ⟨hg, -⟩ := drop_cons_getElem hd'
  have htd' : (t = '\r' ∧ d = '\n') ∨ (t = '\n' ∧ d = '\r') := by
    simpa [isEolPair] using htd
  rcases htd' with ⟨h1, h2⟩ | ⟨h1, h2⟩ <;> subst h1 <;> subst h2 <;>
    simp [IStream.eof, findInputEOL, IStream.peek, IStream.good, hg, IStream.skip, IStream.get]

/-- The call `nextLine` when the unread part is `l`, then a one-character terminator followed
by a character that does not pair with it. -/
theorem nextLine_lone (it : TRStreamIterator) (b : Bool) (data : List Char) (pos : Nat)
    (l : List Char) (t d : Char) (r : List Char) (hp : it.peekStart = 0)
    (hs : it.inStream = ⟨data, pos, false, false⟩)
    (hd : data.drop pos = l ++ t :: d :: r) (hl : ∀ c ∈ l, isEolChar c = false)
    (ht : isEolChar t = true) (htd : isEolPair t d = false) :
    nextLine it b = some (l, setOutputEOL { noteDeleted it b with
      buffer := l, inStream := ⟨data, pos + l.length + 1, false, false⟩,
      eolLinux := it.eolLinux + (if t = '\r' then 0 else 1),
      eolMacOld := it.eolMacOld + (if t = '\r' then 1 else 0) }) := by
  rw [nextLine_of_readLine_eol it b data pos l t (d :: r) hp hs hd hl ht]
  have hd' : data.drop (pos + l.length + 1) = d :: r := by
    have := drop_add_of_append (l := l ++ [t]) (r := d :: r) (by simpa using hd)
    simpa [Nat.add_assoc] using this
  obtain ⟨hg, -⟩ := drop_cons_getElem hd'
  have ht' : t = '\r' ∨ t = '\n' := by simpa [isEolChar] using ht
  rcases ht' with h1 | h1 <;> subst h1
  · have hd2 : d ≠ '\n' := by
      intro hc; subst hc; simp [isEolPair] at htd
    simp [IStream.eof, findInputEOL, IStream.peek, IStream.good, hg, hd2]
  · have hd2 : d ≠ '\r' := by
      intro hc; subst hc; simp [isEolPair] at htd
    simp [IStream.eof, findInputEOL, IStream.peek, IStream.good, hg, hd2]

/-- A text either has no terminator character or splits at its first one. -/
theorem eol_decomp (rest : List Char) :
    (∀ c ∈ rest, isEolChar c = false) ∨
    ∃ l t tail, rest = l ++ t :: tail ∧ (∀ c ∈ l, isEolChar c = false) ∧ isEolChar t = true := by
  induction rest with
  | nil => left; simp
  | cons c rest ih =>
    by_cases hc : isEolChar c = true
    · right; exact ⟨[], c, rest, rfl, by simp, hc⟩
    · rcases ih with h | ⟨l, t, tail, h1, h2, h3⟩
      · left; intro x hx
        rcases List.mem_cons.1 hx with rfl | hx
        · simpa using hc
        · exact h x hx
      · right
        refine ⟨c :: l, t, tail, by simp [h1], ?_, h3⟩
        intro x hx
        rcases List.mem_cons.1 hx with rfl | hx
        · simpa using hc
        · exact h2 x hx

theorem splitLines_cons_noEol (c : Char) (rest : List Char) (hc : isEolChar c = false) :
    splitLines (c :: rest) = consLine c (splitLines rest) := by
  cases rest with
  | nil => simp [splitLines, hc, consLine]
  | cons d r =>
    have hp : isEolPair c d = false := by
      simp [isEolChar] at hc; simp [isEolPair, hc]
    simp [splitLines, hc, hp]

theorem splitLines_noEol (l : List Char) (hl : ∀ c ∈ l, isEolChar c = false) :
    splitLines l = [l] := by
  induction l with
  | nil => rfl
  | cons c l ih =>
    rw [splitLines_cons_noEol c l (hl c (List.mem_cons_self _ _)),
      ih (fun x hx => hl x (List.mem_cons_of_mem _ hx))]
    rfl

theorem splitLines_append_eol (l : List Char) (t : Char) (tail : List Char)
    (hl : ∀ c ∈ l, isEolChar c = false) (ht : isEolChar t = true) :
    splitLines (l ++ t :: tail) = l :: splitLines (restAfterEol t tail) := by
  induction l with
  | nil =>
    cases tail with
    | nil => simp [splitLines, ht, restAfterEol]
    | cons d r =>
      by_cases hp : isEolPair t d = true
      · simp [splitLines, hp, restAfterEol]
      · simp [splitLines, hp, ht, restAfterEol]
  | cons c l ih =>
    rw [List.cons_append, splitLines_cons_noEol c _ (hl c (List.mem_cons_self _ _)),
      ih (fun x hx => hl x (List.mem_cons_of_mem _ hx))]
    rfl

theorem innerTerminators_cons_noEol (c : Char) (rest : List Char) (hc : isEolChar c = false) :
    innerTerminators (c :: rest) = innerTerminators rest := by
  cases rest with
  | nil => simp [innerTerminators]
  | cons d r =>
    have hp : isEolPair c d = false := by
      simp [isEolChar] at hc; simp [isEolPair, hc]
    simp [innerTerminators, hc, hp]

theorem innerTerminators_noEol (l : List Char) (hl : ∀ c ∈ l, isEolChar c = false) :
    innerTerminators l = [] := by
  induction l with
  | nil => rfl
  | cons c l ih =>
    rw [innerTerminators_cons_noEol c l (hl c (List.mem_cons_self _ _)),
      ih (fun x hx => hl x (List.mem_cons_of_mem _ hx))]

theorem innerTerminators_append (l : List Char) (rest : List Char)
    (hl : ∀ c ∈ l, isEolChar c = false) :
    innerTerminators (l ++ rest) = innerTerminators rest := by
  induction l with
  | nil => rfl
  | cons c l ih =>
    rw [List.cons_append, innerTerminators_cons_noEol c _ (hl c (List.mem_cons_self _ _)),
      ih (fun x hx => hl x (List.mem_cons_of_mem _ hx))]

theorem readLines_done (flags : Nat → Bool) (fuel i : Nat) (it : TRStreamIterator)
    (h : it.inStream.eofbit = true) : readLines flags fuel i it = some ([], it) := by
  cases fuel <;> simp [readLines, hasMoreLines, IStream.eof, h]

theorem readLines_step (flags : Nat → Bool) (fuel i : Nat) (it it1 : TRStreamIterator)
    (line : List Char) (lines : List (List Char)) (it2 : TRStreamIterator)
    (h : it.inStream.eofbit = false)
    (hn : it.nextLine (flags i) = some (line, it1))
    (hr : readLines flags fuel (i + 1) it1 = some (lines, it2)) :
    readLines flags (fuel + 1) i it = some (line :: lines, it2) := by
  simp [readLines, hasMoreLines, IStream.eof, h, hn, hr]

theorem restAfterEol_length (t : Char) (tail : List Char) :
    (restAfterEol t tail).length ≤ tail.length := by
  cases tail with
  | nil => simp [restAfterEol]
  | cons d r =>
    by_cases hp : isEolPair t d = true <;> simp [restAfterEol, hp]

theorem innerTerminators_eol (t : Char) (tail : List Char) (ht : isEolChar t = true) :
    innerTerminators (t :: tail)
      = headTerminator t tail ++ innerTerminators (restAfterEol t tail) := by
  cases tail with
  | nil => simp [innerTerminators, headTerminator, restAfterEol]
  | cons d r =>
    by_cases hp : isEolPair t d = true <;>
      simp [innerTerminators, headTerminator, restAfterEol, hp, ht]

/-- The call `nextLine` on a good stream whose unread part is `l`, a terminator character `t`
and `tail`: what it returns and the state it leaves. -/
theorem nextLine_eol (it : TRStreamIterator) (b : Bool) (data : List Char) (pos : Nat)
    (l : List Char) (t : Char) (tail : List Char) (hp : it.peekStart = 0)
    (hs : it.inStream = ⟨data, pos, false, false⟩)
    (hd : data.drop pos = l ++ t :: tail) (hl : ∀ c ∈ l, isEolChar c = false)
    (ht : isEolChar t = true) :
    ∃ it1 pos1, nextLine it b = some (l, it1) ∧ it1.peekStart = 0 ∧
      it1.inStream = ⟨data, pos1, false, false⟩ ∧ data.drop pos1 = restAfterEol t tail ∧
      it1.eolWindows = it.eolWindows + (headTerminator t tail).count .crlf
        + (headTerminator t tail).count .lfcr ∧
      it1.eolLinux = it.eolLinux + (headTerminator t tail).count .lf ∧
      it1.eolMacOld = it.eolMacOld + (headTerminator t tail).count .cr ∧
      it1.outputEOL = majorityEOL it1.eolWindows it1.eolLinux it1.eolMacOld ∧
      it1.buffer = l := by
  cases tail with
  | nil =>
    have hd' : data.drop (pos + l.length + 1) = [] := by
      have := drop_add_of_append (l := l ++ [t]) (r := []) (by simpa using hd)
      simpa [Nat.add_assoc] using this
    refine ⟨_, pos + l.length + 1, nextLine_last it b data pos l t hp hs hd hl ht, ?_⟩
    simp [hp, hd', restAfterEol, headTerminator, setOutputEOL_outputEOL]
  | cons d r =>
    by_cases hpair : isEolPair t d = true
    · have hd' : data.drop (pos + l.length + 2) = r := by
        have := drop_add_of_append (l := l ++ [t, d]) (r := r) (by simpa using hd)
        simpa [Nat.add_assoc] using this
      refine ⟨_, pos + l.length + 2, nextLine_pair it b data pos l t d r hp hs hd hl hpair, ?_⟩
      have hk : pairTerminator t = .crlf ∨ pairTerminator t = .lfcr := by
        unfold pairTerminator; split <;> simp
      rcases hk with hk | hk <;>
        simp [hp, hd', restAfterEol, headTerminator, setOutputEOL_outputEOL, hpair, hk]
    · have hpair' : isEolPair t d = false := by simpa using hpair
      have hd' : data.drop (pos + l.length + 1) = d :: r := by
        have := drop_add_of_append (l := l ++ [t]) (r := d :: r) (by simpa using hd)
        simpa [Nat.add_assoc] using this
      refine ⟨_, pos + l.length + 1,
        nextLine_lone it b data pos l t d r hp hs hd hl ht hpair', ?_⟩
      by_cases hr : t = '\r'
      · subst hr
        simp [hp, hd', restAfterEol, headTerminator, setOutputEOL_outputEOL, hpair',
          loneTerminator]
      · simp [hp, hd', restAfterEol, headTerminator, setOutputEOL_outputEOL, hpair',
          loneTerminator, hr]

/-- The whole reading loop from a good state: the lines are those of the unread text and each
counter grows by the number of inner terminators of its kind. -/
theorem readLines_run (flags : Nat → Bool) (n : Nat) :
    ∀ (it : TRStreamIterator) (data : List Char) (pos i fuel : Nat),
      it.peekStart = 0 → it.inStream = ⟨data, pos, false, false⟩ →
      (data.drop pos).length ≤ n → n + 1 ≤ fuel →
      ∃ it', readLines flags fuel i it = some (splitLines (data.drop pos), it') ∧
        it'.eolWindows = it.eolWindows + (innerTerminators (data.drop pos)).count .crlf
          + (innerTerminators (data.drop pos)).count .lfcr ∧
        it'.eolLinux = it.eolLinux + (innerTerminators (data.drop pos)).count .lf ∧
        it'.eolMacOld = it.eolMacOld + (innerTerminators (data.drop pos)).count .cr := by
  induction n with
  | zero =>
    intro it data pos i fuel hp hs hlen hf
    obtain ⟨f, rfl⟩ : ∃ f, fuel = f + 1 := ⟨fuel - 1, by omega⟩
    have hnil : data.drop pos = [] := List.length_eq_zero.1 (Nat.le_zero.1 hlen)
    have hn := nextLine_noEol it (flags i) data pos [] hp hs hnil (by simp)
    rw [hnil]
    exact ⟨_, readLines_step flags f i it _ _ _ _ (by simp [hs]) hn
      (readLines_done _ _ _ _ (by simp)), by simp [innerTerminators]⟩
  | succ m ih =>
    intro it data pos i fuel hp hs hlen hf
    obtain ⟨f, rfl⟩ : ∃ f, fuel = f + 1 := ⟨fuel - 1, by omega⟩
    rcases eol_decomp (data.drop pos) with hno | ⟨l, t, tail, hd, hl, ht⟩
    · have hn := nextLine_noEol it (flags i) data pos _ hp hs rfl hno
      rw [splitLines_noEol _ hno, innerTerminators_noEol _ hno]
      exact ⟨_, readLines_step flags f i it _ _ _ _ (by simp [hs]) hn
        (readLines_done _ _ _ _ (by simp)), by simp⟩
    · obtain ⟨it1, pos1, hn, hp1, hs1, hd1, hW, hL, hM, -, -⟩ :=
        nextLine_eol it (flags i) data pos l t tail hp hs hd hl ht
      have hlen1 : (data.drop pos1).length ≤ m := by
        have h1 := restAfterEol_length t tail
        rw [hd] at hlen
        rw [hd1]
        simp at hlen
        omega
      obtain ⟨it', h1, h2, h3, h4⟩ := ih it1 data pos1 (i + 1) f hp1 hs1 hlen1 (by omega)
      rw [hd, splitLines_append_eol l t tail hl ht, innerTerminators_append l _ hl,
        innerTerminators_eol t tail ht]
      rw [hd1] at h1 h2 h3 h4
      refine ⟨it', readLines_step flags f i it _ _ _ _ (by simp [hs]) hn h1, ?_, ?_, ?_⟩
      · rw [h2, hW]; simp only [List.count_append]; omega
      · rw [h3, hL]; simp only [List.count_append]; omega
      · rw [h4, hM]; simp only [List.count_append]; omega

/-! ## Lemmas on the line structure of a text -/

theorem splitLines_ne_nil (s : List Char) : splitLines s ≠ [] := by
  induction s using splitLines.induct with
  | case1 => simp [splitLines]
  | case2 c h => simp [splitLines, h]
  | case3 c h => simp [splitLines, h]
  | case4 c d rest hp ih => simp [splitLines, hp]
  | case5 c d rest hp hc ih => simp [splitLines, hp, hc]
  | case6 c d rest hp hc ih =>
    simp only [splitLines, hp, hc]
    cases h : splitLines (d :: rest) with
    | nil => exact absurd h ih
    | cons l ls => simp [consLine]

theorem joinLines_consLine (c : Char) (ls : List (List Char)) (ts : List Terminator)
    (h : ls ≠ []) : joinLines (consLine c ls) ts = c :: joinLines ls ts := by
  cases ls with
  | nil => exact absurd rfl h
  | cons l ls => cases ts <;> simp [consLine, joinLines]

theorem isEolChar_iff (c : Char) : isEolChar c = true ↔ c = '\r' ∨ c = '\n' := by
  simp [isEolChar]

theorem isEolPair_iff (c d : Char) :
    isEolPair c d = true ↔ (c = '\r' ∧ d = '\n') ∨ (c = '\n' ∧ d = '\r') := by
  simp [isEolPair]

/-- Joining the lines of a text with its terminators gives the text back. -/
theorem joinLines_splitLines (s : List Char) :
    joinLines (splitLines s) (terminators s) = s := by
  induction s using splitLines.induct with
  | case1 => rfl
  | case2 c h =>
    rcases (isEolChar_iff c).1 h with rfl | rfl <;> rfl
  | case3 c h => simp [splitLines, terminators, h, joinLines]
  | case4 c d rest hp ih =>
    rcases (isEolPair_iff c d).1 hp with ⟨rfl, rfl⟩ | ⟨rfl, rfl⟩ <;>
      simp [splitLines, terminators, isEolPair, joinLines, pairTerminator, Terminator.chars, ih]
  | case5 c d rest hp hc ih =>
    rcases (isEolChar_iff c).1 hc with rfl | rfl <;>
      simp [splitLines, terminators, hp, isEolChar, joinLines, loneTerminator,
        Terminator.chars, ih]
  | case6 c d rest hp hc ih =>
    have hp' : isEolPair c d = false := by simpa using hp
    have hc' : isEolChar c = false := by simpa using hc
    simp only [splitLines, terminators, hp', hc']
    simp only [Bool.false_eq_true, if_false]
    rw [joinLines_consLine c _ _ (splitLines_ne_nil _), ih]

/-- No line of a text contains a terminator character. -/
theorem splitLines_no_eol (s : List Char) :
    ∀ l ∈ splitLines s, ∀ c ∈ l, c ≠ '\r' ∧ c ≠ '\n' := by
  induction s using splitLines.induct with
  | case1 => simp [splitLines]
  | case2 c h => simp [splitLines, h]
  | case3 c h =>
    have : c ≠ '\r' ∧ c ≠ '\n' := by simpa [isEolChar] using h
    simp [splitLines, h, this]
  | case4 c d rest hp ih =>
    simp only [splitLines, hp]
    intro l hl
    rcases List.mem_cons.1 hl with rfl | hl
    · simp
    · exact ih l hl
  | case5 c d rest hp hc ih =>
    simp only [splitLines, hp, hc]
    intro l hl
    rcases List.mem_cons.1 hl with rfl | hl
    · simp
    · exact ih l hl
  | case6 c d rest hp hc ih =>
    have hc' : c ≠ '\r' ∧ c ≠ '\n' := by simpa [isEolChar] using hc
    simp only [splitLines, hp, hc]
    cases h : splitLines (d :: rest) with
    | nil => exact absurd h (splitLines_ne_nil _)
    | cons l0 ls =>
      rw [h] at ih
      intro l hl
      simp only [consLine] at hl
      rcases List.mem_cons.1 hl with hl | hl
      · subst hl
        intro x hx
        rcases List.mem_cons.1 hx with rfl | hx
        · exact hc'
        · exact ih l0 (List.mem_cons_self _ _) x hx
      · exact ih l (List.mem_cons_of_mem _ hl)

/-- A text with `n` terminators has `n + 1` lines. -/
theorem splitLines_length (s : List Char) :
    (splitLines s).length = (terminators s).length + 1 := by
  induction s using splitLines.induct with
  | case1 => rfl
  | case2 c h => simp [splitLines, terminators, h]
  | case3 c h => simp [splitLines, terminators, h]
  | case4 c d rest hp ih => simp [splitLines, terminators, hp, ih]
  | case5 c d rest hp hc ih => simp [splitLines, terminators, hp, hc, ih]
  | case6 c d rest hp hc ih =>
    simp only [splitLines, terminators, hp, hc]
    cases h : splitLines (d :: rest) with
    | nil => exact absurd h (splitLines_ne_nil _)
    | cons l0 ls => rw [h] at ih; simpa [consLine] using ih

/-- All terminators are inner ones, except a one-character terminator at the very end. -/
theorem terminators_length (s : List Char) :
    (terminators s).length
      = (innerTerminators s).length + (if endsInLoneTerminator s then 1 else 0) := by
  induction s using terminators.induct with
  | case1 => rfl
  | case2 c h => simp [terminators, innerTerminators, endsInLoneTerminator, h]
  | case3 c h => simp [terminators, innerTerminators, endsInLoneTerminator, h]
  | case4 c d rest hp ih =>
    simp [terminators, innerTerminators, endsInLoneTerminator, hp, ih]; omega
  | case5 c d rest hp hc ih =>
    simp [terminators, innerTerminators, endsInLoneTerminator, hp, hc, ih]; omega
  | case6 c d rest hp hc ih =>
    simp [terminators, innerTerminators, endsInLoneTerminator, hp, hc, ih]

theorem terminator_count_sum (ts : List Terminator) :
    ts.count .crlf + ts.count .lfcr + ts.count .lf + ts.count .cr = ts.length := by
  induction ts with
  | nil => rfl
  | cons t ts ih => cases t <;> simp [List.count_cons] <;> omega

/-! ## Lemmas on buffers and on the console line end -/

theorem peekNextLine_buffer (it it1 : TRStreamIterator) (line : List Char)
    (h : peekNextLine it = some (line, it1)) : it1.buffer = it.buffer := by
  unfold peekNextLine at h
  split at h
  · exact absurd h (by simp)
  · simp only at h
    split at h
    · exact absurd h (by simp)
    · split at h
      · simp only [Option.some.injEq, Prod.mk.injEq] at h
        rw [← h.2]; split <;> rfl
      · split at h
        · split at h <;>
          · simp only [Option.some.injEq, Prod.mk.injEq] at h
            rw [← h.2]; split <;> rfl
        · simp only [Option.some.injEq, Prod.mk.injEq] at h
          rw [← h.2]; split <;> rfl

theorem peekReset_buffer (it it1 : TRStreamIterator) (h : peekReset it = some it1) :
    it1.buffer = it.buffer := by
  unfold peekReset at h
  split at h
  · exact absurd h (by simp)
  · simp only [Option.some.injEq] at h
    rw [← h]

theorem PeekRun.buffer_eq {it it1 : TRStreamIterator} (h : PeekRun it it1) :
    it1.buffer = it.buffer := by
  induction h with
  | done => rfl
  | peek a b c line hp _ ih => rw [ih, peekNextLine_buffer a b line hp]
  | reset a b c hr _ ih => rw [ih, peekReset_buffer a b hr]

theorem nextLine_buffer (it it1 : TRStreamIterator) (b : Bool) (line : List Char)
    (h : nextLine it b = some (line, it1)) : it1.buffer = line := by
  unfold nextLine at h
  split at h
  · exact absurd h (by simp)
  · simp only at h
    split at h
    · exact absurd h (by simp)
    · split at h
      · simp only [Option.some.injEq, Prod.mk.injEq] at h
        rw [← h.2, ← h.1]
      · simp only [Option.some.injEq, Prod.mk.injEq] at h
        rw [← h.2, ← h.1, setOutputEOL_buffer]
        unfold findInputEOL
        simp only
        split
        · split <;> split <;> rfl
        · rfl

theorem setOutputEOL_prevBuffer (it : TRStreamIterator) :
    (setOutputEOL it).prevBuffer = it.prevBuffer := by
  unfold setOutputEOL; split <;> split <;> rfl

theorem findInputEOL_prevBuffer (it : TRStreamIterator) (ch : Char) :
    (findInputEOL it ch).prevBuffer = it.prevBuffer := by
  unfold findInputEOL
  simp only
  split
  · split <;> split <;> rfl
  · rfl

theorem nextLine_prevBuffer_false (it it1 : TRStreamIterator) (line : List Char)
    (h : nextLine it false = some (line, it1)) : it1.prevBuffer = it.buffer := by
  have hnd : (noteDeleted it false).prevBuffer = it.buffer := by
    unfold noteDeleted; split <;> rfl
  unfold nextLine at h
  split at h
  · exact absurd h (by simp)
  · simp only at h
    split at h
    · exact absurd h (by simp)
    · split at h
      · simp only [Option.some.injEq, Prod.mk.injEq] at h
        rw [← h.2]; exact hnd
      · simp only [Option.some.injEq, Prod.mk.injEq] at h
        rw [← h.2, setOutputEOL_prevBuffer, findInputEOL_prevBuffer]
        exact hnd

theorem ASConsole.setOutputEOL_explicit (c : ASConsole) (f : LineEndFormat)
    (hf : f ≠ .LINEEND_DEFAULT) (e : List Char) :
    (c.setOutputEOL f e).outputEOL = c.outputEOL
    ∧ (c.setOutputEOL f e).lineEndsMixed = c.lineEndsMixed := by
  unfold ASConsole.setOutputEOL
  rw [if_neg hf]
  simp only
  split <;> exact ⟨rfl, rfl⟩

theorem ASConsole.writeEOLs_explicit (f : LineEndFormat) (hf : f ≠ .LINEEND_DEFAULT)
    (es : List (List Char)) : ∀ c : ASConsole,
    (ASConsole.writeEOLs f c es).1 = List.replicate es.length c.outputEOL
    ∧ (ASConsole.writeEOLs f c es).2.outputEOL = c.outputEOL
    ∧ (ASConsole.writeEOLs f c es).2.lineEndsMixed = c.lineEndsMixed := by
  induction es with
  | nil => intro c; simp [ASConsole.writeEOLs]
  | cons e es ih =>
    intro c
    obtain ⟨h1, h2⟩ := ASConsole.setOutputEOL_explicit c f hf e
    obtain ⟨i1, i2, i3⟩ := ih (c.setOutputEOL f e)
    simp [ASConsole.writeEOLs, i1, i2, i3, h1, h2, List.replicate_succ]

/-! ## Lemmas on texts with a single kind of terminator -/

theorem majorityEOL_countedOnly (t : Char) (it : TRStreamIterator) (h : CountedOnly t it) :
    majorityEOL it.eolWindows it.eolLinux it.eolMacOld = if t = '\r' then eolCR else eolLF := by
  obtain ⟨h1, h2⟩ := h
  unfold majorityEOL
  by_cases ht : t = '\r'
  · simp only [ht, if_true] at h2 ⊢
    rw [h1, h2.1]
    have : ¬ ((0 : Nat) ≥ 0 ∧ 0 ≥ it.eolMacOld) := by omega
    have h3 : ¬ (0 ≥ it.eolMacOld) := by omega
    simp [this, h3]
  · simp only [ht, if_false] at h2 ⊢
    rw [h1, h2.1]
    have h3 : it.eolLinux ≠ 0 := by omega
    simp [h3]

/-- The call `nextLine` on a stream whose `eofbit` is set reads nothing and leaves it set. -/
theorem nextLine_at_eof (it it1 : TRStreamIterator) (b : Bool) (line : List Char)
    (he : it.inStream.eofbit = true) (h : nextLine it b = some (line, it1)) :
    it1.inStream.eofbit = true ∧ it1.peekStart = 0 := by
  unfold nextLine at h
  split at h
  · exact absurd h (by simp)
  · rename_i hp
    have hp' : it.peekStart = 0 := by simpa using hp
    have hg : (noteDeleted it b).inStream.get chInit
        = ({ it.inStream with failbit := true }, chInit) := by
      simp [IStream.get, IStream.good, he]
    simp only [hg, readFuel, readRecord, IStream.eof, he] at h
    simp at h
    rw [← h.2]
    simp [he, hp']

/-- One `nextLine` call on a text whose only terminator character is `t`, from a state in which
a terminator has been counted: either the stream ends, or the state is again of that kind and
the output EOL is that of `t`. -/
theorem nextLine_countedOnly (t : Char) (it it1 : TRStreamIterator) (b : Bool)
    (line : List Char) (data : List Char) (pos : Nat)
    (hdata : ∀ c ∈ data, isEolChar c = true → c = t)
    (hp : it.peekStart = 0) (hs : it.inStream = ⟨data, pos, false, false⟩)
    (hc : CountedOnly t it)
    (h : nextLine it b = some (line, it1)) :
    it1.peekStart = 0 ∧ it1.inStream.data = data ∧
    (it1.inStream.eofbit = true ∨
      (it1.inStream.failbit = false ∧ CountedOnly t it1
        ∧ it1.outputEOL = if t = '\r' then eolCR else eolLF)) := by
  rcases eol_decomp (data.drop pos) with hno | ⟨l, t', tail, hd, hl, ht'⟩
  · rw [nextLine_noEol it b data pos _ hp hs rfl hno] at h
    simp only [Option.some.injEq, Prod.mk.injEq] at h
    rw [← h.2]
    simp [hp]
  · obtain ⟨jt, pos1, hn, hp1, hs1, -, hW, hL, hM, hout, -⟩ :=
      nextLine_eol it b data pos l t' tail hp hs hd hl ht'
    rw [hn] at h
    simp only [Option.some.injEq, Prod.mk.injEq] at h
    obtain ⟨-, rfl⟩ := h
    have hmem : t' ∈ data := by
      have : t' ∈ data.drop pos := by rw [hd]; simp
      exact List.mem_of_mem_drop this
    have htt : t' = t := hdata t' hmem ht'
    subst htt
    have hhead : headTerminator t' tail = [] ∨ headTerminator t' tail = [loneTerminator t'] := by
      cases tail with
      | nil => left; rfl
      | cons d r =>
        right
        have hdm : d ∈ data := by
          have : d ∈ data.drop pos := by rw [hd]; simp
          exact List.mem_of_mem_drop this
        have hnp : isEolPair t' d = false := by
          by_cases hde : isEolChar d = true
          · have := hdata d hdm hde
            subst this
            simp [isEolPair]
            constructor <;> intro h1 h2 <;> rw [h1] at h2 <;> exact absurd h2 (by decide)
          · simp [isEolChar] at hde
            simp [isEolPair, hde]
        simp [headTerminator, hnp]
    have hcnt : CountedOnly t' jt := by
      obtain ⟨c1, c2⟩ := hc
      unfold CountedOnly
      by_cases hr : t' = '\r'
      · simp only [hr, if_true] at c2 ⊢
        rw [hr] at hhead
        rcases hhead with hh | hh
        · simp [hW, hL, hM, hr, hh, c1, c2]
        · simp [hW, hL, hM, hr, hh, loneTerminator, c1, c2]
      · simp only [hr, if_false] at c2 ⊢
        rcases hhead with hh | hh
        · simp [hW, hL, hM, hh, c1, c2]
        · simp [hW, hL, hM, hh, loneTerminator, hr, c1, c2]
    refine ⟨hp1, by simp [hs1], Or.inr ⟨by simp [hs1], hcnt, ?_⟩⟩
    rw [hout, majorityEOL_countedOnly t' jt hcnt]

theorem nextLine_endedOrCounted (t : Char) (data : List Char)
    (hdata : ∀ c ∈ data, isEolChar c = true → c = t)
    (it it1 : TRStreamIterator) (b : Bool) (line : List Char)
    (hi : EndedOrCounted t data it) (h : nextLine it b = some (line, it1)) :
    EndedOrCounted t data it1 := by
  obtain ⟨hp, hd, hc⟩ := hi
  by_cases he : it.inStream.eofbit = true
  · obtain ⟨h1, h2⟩ := nextLine_at_eof it it1 b line he h
    refine ⟨h2, ?_, Or.inl h1⟩
    unfold nextLine at h
    split at h
    · exact absurd h (by simp)
    · have hg : (noteDeleted it b).inStream.get chInit
          = ({ it.inStream with failbit := true }, chInit) := by
        simp [IStream.get, IStream.good, he]
      simp only [hg, readFuel, readRecord, IStream.eof, he] at h
      simp at h
      rw [← h.2]
      simpa using hd
  · rcases hc with hc | ⟨hf, hc, -⟩
    · exact absurd hc he
    · have hs : it.inStream = ⟨data, it.inStream.pos, false, false⟩ := by
        cases hst : it.inStream with
        | mk d p e f =>
          rw [hst] at hd hf he
          simp at hd hf he
          simp [hd, hf, he]
      exact nextLine_countedOnly t it it1 b line data _ hdata hp hs hc h

theorem nextLines_endedOrCounted (t : Char) (data : List Char)
    (hdata : ∀ c ∈ data, isEolChar c = true → c = t) (bs : List Bool) :
    ∀ it it' : TRStreamIterator, EndedOrCounted t data it → nextLines bs it = some it' →
      EndedOrCounted t data it' := by
  induction bs with
  | nil =>
    intro it it' hi h
    simp only [nextLines, Option.some.injEq] at h
    rw [← h]; exact hi
  | cons b bs ih =>
    intro it it' hi h
    simp only [nextLines] at h
    split at h
    · exact absurd h (by simp)
    · rename_i line it1 hn
      exact ih it1 it' (nextLine_endedOrCounted t data hdata it it1 b line hi hn) h

/-- The first `nextLine` call on a text whose only terminator character is `t` and in which
some `t` is not the last character. -/
theorem nextLine_first_endedOrCounted (t : Char) (data : List Char) (ht : isEolChar t = true)
    (hdata : ∀ c ∈ data, isEolChar c = true → c = t)
    (hinner : ∃ j, j + 1 < data.length ∧ data[j]? = some t)
    (it1 : TRStreamIterator) (b : Bool) (line : List Char)
    (h : nextLine (TRStreamIterator.new (IStream.ofInput data)) b = some (line, it1)) :
    EndedOrCounted t data it1 := by
  have hp : (TRStreamIterator.new (IStream.ofInput data)).peekStart = 0 := rfl
  have hs : (TRStreamIterator.new (IStream.ofInput data)).inStream = ⟨data, 0, false, false⟩ :=
    rfl
  rcases eol_decomp (data.drop 0) with hno | ⟨l, t', tail, hd, hl, ht'⟩
  · rw [nextLine_noEol _ b data 0 _ hp hs rfl hno] at h
    simp only [Option.some.injEq, Prod.mk.injEq] at h
    rw [← h.2]
    exact ⟨by simp [TRStreamIterator.new], rfl, Or.inl rfl⟩
  · obtain ⟨jt, pos1, hn, hp1, hs1, -, hW, hL, hM, hout, -⟩ :=
      nextLine_eol _ b data 0 l t' tail hp hs hd hl ht'
    rw [hn] at h
    simp only [Option.some.injEq, Prod.mk.injEq] at h
    obtain ⟨-, rfl⟩ := h
    simp only [List.drop_zero] at hd
    have htt : t' = t := hdata t' (by rw [hd]; simp) ht'
    subst htt
    obtain ⟨j, hj1, hj2⟩ := hinner
    cases tail with
    | nil =>
      exfalso
      rw [hd] at hj1 hj2
      simp at hj1
      rw [List.getElem?_append_left (by omega)] at hj2
      have hmem : t' ∈ l := List.getElem?_mem hj2
      have := hl t' hmem
      rw [ht] at this
      exact absurd this (by simp)
    | cons d r =>
      have hnp : isEolPair t' d = false := by
        by_cases hde : isEolChar d = true
        · have := hdata d (by rw [hd]; simp) hde
          subst this
          simp [isEolPair]
          constructor <;> intro h1 h2 <;> rw [h1] at h2 <;> exact absurd h2 (by decide)
        · simp [isEolChar] at hde
          simp [isEolPair, hde]
      have hcnt : CountedOnly t' jt := by
        unfold CountedOnly
        by_cases hr : t' = '\r'
        · subst hr
          simp [hW, hL, hM, headTerminator, hnp, loneTerminator, TRStreamIterator.new]
        · simp [hW, hL, hM, headTerminator, hnp, loneTerminator, hr, TRStreamIterator.new]
      refine ⟨hp1, by simp [hs1], Or.inr ⟨by simp [hs1], hcnt, ?_⟩⟩
      rw [hout, majorityEOL_countedOnly t' jt hcnt]

/-- After at least one `nextLine` call on a text whose only terminator character is `t` and in
which some `t` is not the last character, the output EOL is that of `t` as long as the stream
has not ended. -/
theorem outputEOL_of_single_kind (t : Char) (data : List Char) (ht : isEolChar t = true)
    (hdata : ∀ c ∈ data, isEolChar c = true → c = t)
    (hinner : ∃ j, j + 1 < data.length ∧ data[j]? = some t)
    (flags : List Bool) (it' : TRStreamIterator) (hflags : flags ≠ [])
    (hrun : nextLines flags (TRStreamIterator.new (IStream.ofInput data)) = some it')
    (hmore : it'.hasMoreLines = true) :
    it'.outputEOL = if t = '\r' then eolCR else eolLF := by
  cases flags with
  | nil => exact absurd rfl hflags
  | cons b bs =>
    simp only [nextLines] at hrun
    split at hrun
    · exact absurd hrun (by simp)
    · rename_i line it1 hn
      have h1 := nextLine_first_endedOrCounted t data ht hdata hinner it1 b line hn
      obtain ⟨-, -, h3⟩ := nextLines_endedOrCounted t data hdata bs it1 it' h1 hrun
      rcases h3 with h3 | ⟨-, -, h3⟩
      · simp [hasMoreLines, IStream.eof, h3] at hmore
      · exact h3

/-- With the default line-end setting the console takes the iterator's output EOL, and for a
text without CR in which some LF is not the last character, `getOutputEOL` is LF after each
`nextLine` call that stripped a terminator (a call after which `hasMoreLines` still holds);
likewise CR for a text without LF in which some CR is not the last character. -/
theorem default_follows_counted_line_ends (input : List Char) (flags : List Bool)
    (it' : TRStreamIterator) (hflags : flags ≠ [])
    (hrun : nextLines flags (TRStreamIterator.new (IStream.ofInput input)) = some it')
    (hmore : it'.hasMoreLines = true) :
    ((∀ c ∈ input, c ≠ '\r') → (∃ j, j + 1 < input.length ∧ input[j]? = some '\n') →
      it'.getOutputEOL = eolLF
      ∧ ∀ con : ASConsole,
          (con.setOutputEOL .LINEEND_DEFAULT it'.getOutputEOL).outputEOL = eolLF)
    ∧ ((∀ c ∈ input, c ≠ '\n') → (∃ j, j + 1 < input.length ∧ input[j]? = some '\r') →
      it'.getOutputEOL = eolCR
      ∧ ∀ con : ASConsole,
          (con.setOutputEOL .LINEEND_DEFAULT it'.getOutputEOL).outputEOL = eolCR) := by
  have hcon : ∀ (con : ASConsole) (e : List Char),
      (con.setOutputEOL .LINEEND_DEFAULT e).outputEOL = e := by
    intro con e
    unfold ASConsole.setOutputEOL
    simp only [if_true]
    split <;> split <;> rfl
  constructor
  · intro hno hinner
    have h := outputEOL_of_single_kind '\n' input (by decide)
      (fun c hc he => by
        rcases (isEolChar_iff c).1 he with h1 | h1
        · exact absurd h1 (hno c hc)
        · exact h1)
      hinner flags it' hflags hrun hmore
    have h' : it'.getOutputEOL = eolLF := by
      rw [getOutputEOL, h]; rfl
    exact ⟨h', fun con => by rw [hcon, h']⟩
  · intro hno hinner
    have h := outputEOL_of_single_kind '\r' input (by decide)
      (fun c hc he => by
        rcases (isEolChar_iff c).1 he with h1 | h1
        · exact h1
        · exact absurd h1 (hno c hc))
      hinner flags it' hflags hrun hmore
    have h' : it'.getOutputEOL = eolCR := by
      rw [getOutputEOL, h]; rfl
    exact ⟨h', fun con => by rw [hcon, h']⟩

/-! ## The counters at the end of the input -/

/-- After all lines of a text have been read, the Windows counter is
the number of its CRLF and LFCR terminators, the Linux counter the number of its lone LF and
the old-Mac counter the number of its lone CR, a one-character terminator that is the very
last character of the text not being counted: the three counters add up to the number of
terminators, less one when the text ends in a one-character terminator. -/
theorem counters_count_inner_terminators (input : List Char) (flags : Nat → Bool) (k : Nat) :
    ∃ lines it', readLines flags (input.length + 1 + k) 0
        (TRStreamIterator.new (IStream.ofInput input)) = some (lines, it')
      ∧ it'.eolWindows = (innerTerminators input).count .crlf
          + (innerTerminators input).count .lfcr
      ∧ it'.eolLinux = (innerTerminators input).count .lf
      ∧ it'.eolMacOld = (innerTerminators input).count .cr
      ∧ it'.eolWindows + it'.eolLinux + it'.eolMacOld
          = (terminators input).length - (if endsInLoneTerminator input then 1 else 0) := by
  obtain ⟨it', h, hW, hL, hM⟩ := readLines_run flags input.length
    (TRStreamIterator.new (IStream.ofInput input)) input 0 0 (input.length + 1 + k) rfl rfl
    (by simp) (by omega)
  simp only [List.drop_zero] at h hW hL hM
  have hW' : it'.eolWindows = (innerTerminators input).count .crlf
      + (innerTerminators input).count .lfcr := by
    rw [hW]; simp [TRStreamIterator.new]
  have hL' : it'.eolLinux = (innerTerminators input).count .lf := by
    rw [hL]; simp [TRStreamIterator.new]
  have hM' : it'.eolMacOld = (innerTerminators input).count .cr := by
    rw [hM]; simp [TRStreamIterator.new]
  refine ⟨_, it', h, hW', hL', hM', ?_⟩
  rw [terminators_length, hW', hL', hM', terminator_count_sum]
  omega

/-! ## Lemmas on peeking -/

theorem IStream.get_data (s : IStream) (ch : Char) : (s.get ch).1.data = s.data := by
  unfold IStream.get
  split
  · split <;> rfl
  · rfl

theorem IStream.peek_data (s : IStream) : s.peek.1.data = s.data := by
  unfold IStream.peek
  split
  · split <;> rfl
  · rfl

theorem IStream.skip_data (s : IStream) : s.skip.data = s.data := IStream.get_data s _

theorem readRecord_data (fuel : Nat) : ∀ (s st : IStream) (ch ch' : Char) (buf buf' : List Char),
    readRecord fuel s ch buf = some (st, ch', buf') → st.data = s.data := by
  induction fuel with
  | zero => intro s st ch ch' buf buf' h; simp [readRecord] at h
  | succ n ih =>
    intro s st ch ch' buf buf' h
    simp only [readRecord] at h
    split at h
    · rw [ih _ _ _ _ _ _ h, IStream.get_data]
    · simp only [Option.some.injEq, Prod.mk.injEq] at h
      rw [← h.1]

/-- What `peekNextLine` leaves untouched: everything but the stream and `peekStart`; the
characters of the stream stay, and `peekStart` changes only when it was 0. -/
theorem peekNextLine_frame (it it1 : TRStreamIterator) (line : List Char)
    (h : peekNextLine it = some (line, it1)) :
    it1 = { it with inStream := it1.inStream, peekStart := it1.peekStart }
    ∧ it1.inStream.data = it.inStream.data
    ∧ it1.peekStart = (if it.peekStart = 0 then it.inStream.tellg.2 else it.peekStart) := by
  unfold peekNextLine at h
  split at h
  · exact absurd h (by simp)
  · simp only at h
    have hd : (if it.peekStart = 0 then
        ({ it with inStream := it.inStream.tellg.1, peekStart := it.inStream.tellg.2 } :
          TRStreamIterator) else it).inStream.data = it.inStream.data := by
      split
      · simp only [IStream.tellg]; split <;> rfl
      · rfl
    split at h
    · exact absurd h (by simp)
    · rename_i st ch nl hrr
      have hst : st.data = it.inStream.data := by
        rw [readRecord_data _ _ _ _ _ _ _ hrr, IStream.get_data, hd]
      split at h
      · simp only [Option.some.injEq, Prod.mk.injEq] at h
        rw [← h.2]
        refine ⟨?_, hst, ?_⟩ <;> split <;> rfl
      · split at h
        · split at h <;>
          · simp only [Option.some.injEq, Prod.mk.injEq] at h
            rw [← h.2]
            refine ⟨?_, by simp [IStream.skip_data, IStream.peek_data, hst], ?_⟩ <;>
              split <;> rfl
        · simp only [Option.some.injEq, Prod.mk.injEq] at h
          rw [← h.2]
          refine ⟨?_, by simp [IStream.peek_data, hst], ?_⟩ <;> split <;> rfl

theorem peekLines_frame (k : Nat) : ∀ (it it1 : TRStreamIterator) (p : Int),
    it.peekStart = p → p ≠ 0 → peekLines k it = some it1 →
    it1 = { it with inStream := it1.inStream } ∧ it1.inStream.data = it.inStream.data := by
  induction k with
  | zero =>
    intro it it1 p _ _ h
    simp only [peekLines, Option.some.injEq] at h
    rw [← h]; exact ⟨rfl, rfl⟩
  | succ k ih =>
    intro it it1 p hp hp0 h
    simp only [peekLines] at h
    split at h
    · exact absurd h (by simp)
    · rename_i line jt hj
      obtain ⟨f1, f2, f3⟩ := peekNextLine_frame it jt line hj
      have hne : it.peekStart ≠ 0 := by rw [hp]; exact hp0
      rw [if_neg hne] at f3
      obtain ⟨g1, g2⟩ := ih jt it1 p (by rw [f3, hp]) hp0 h
      refine ⟨?_, by rw [g2, f2]⟩
      rw [g1, f1, f3]

/-- From a state in which no peek is under way, the stream is good and the get position is
not 0, any number `k ≥ 1` of successful `peekNextLine` calls followed by `peekReset` gives back
the very same iterator state. -/
theorem peeksThenReset_restores (it it1 : TRStreamIterator) (data : List Char) (pos k : Nat)
    (hp : it.peekStart = 0) (hs : it.inStream = ⟨data, pos, false, false⟩)
    (hpos : pos ≠ 0) (hle : pos ≤ data.length) (hk : 1 ≤ k)
    (h : peeksThenReset k it = some it1) : it1 = it := by
  obtain ⟨j, rfl⟩ : ∃ j, k = j + 1 := ⟨k - 1, by omega⟩
  unfold peeksThenReset at h
  simp only [peekLines] at h
  split at h
  · exact absurd h (by simp)
  · rename_i jt hjt
    split at hjt
    · exact absurd hjt (by simp)
    · rename_i line it0 h0
      obtain ⟨f1, f2, f3⟩ := peekNextLine_frame it it0 line h0
      rw [if_pos hp] at f3
      have ht : it.inStream.tellg.2 = (pos : Int) := by
        rw [hs]; simp [IStream.tellg, IStream.good]
      rw [ht] at f3
      have hp0 : (pos : Int) ≠ 0 := by exact_mod_cast hpos
      obtain ⟨g1, g2⟩ := peekLines_frame j it0 jt (pos : Int) f3 hp0 hjt
      have hjp : jt.peekStart = (pos : Int) := by rw [g1]; exact f3
      have hjd : jt.inStream.data = data := by rw [g2, f2, hs]
      unfold peekReset at h
      rw [if_neg (by rw [hjp]; exact hp0)] at h
      simp only [Option.some.injEq] at h
      rw [← h, hjp]
      have hseek : jt.inStream.clear.seekg (pos : Int) = ⟨data, pos, false, false⟩ := by
        cases hst : jt.inStream with
        | mk d p e f =>
          rw [hst] at hjd
          simp only at hjd
          subst hjd
          simp [IStream.clear, IStream.seekg, hle]
      rw [hseek, g1, f1]
      cases it with
      | mk a b c d e f g h i j =>
        simp only at hs hp
        simp [hs, hp]

/-! ## Lemmas on option parsing -/

open ASOptions

theorem getD_append_length (pre : List Char) (c : Char) (cs : List Char) (d : Char) :
    (pre ++ c :: cs).getD pre.length d = c := by
  induction pre with
  | nil => rfl
  | cons a pre ih => simpa using ih

/-- The loop over the characters of a single-dash argument, followed by the parse of the last
option, parses the options that `splitShortAfter` lists. -/
theorem shortOptionsLoop_spec (e : List Char) (cs : List Char) :
    ∀ (pre : List Char) (prev : Char) (o : ASOptions) (cur : List Char),
      pre ≠ [] →
      ((shortOptionsLoop (pre ++ prev :: cs) e
            (List.range' (pre.length + 1) cs.length) (o, cur)).1.parseOption
          (shortOptionsLoop (pre ++ prev :: cs) e
            (List.range' (pre.length + 1) cs.length) (o, cur)).2 e)
        = (splitShortAfter prev cur cs).foldl (fun o p => o.parseOption p e) o := by
  induction cs with
  | nil =>
    intro pre prev o cur _
    simp [shortOptionsLoop, splitShortAfter]
  | cons c cs ih =>
    intro pre prev o cur hpre
    have h1 : (pre ++ prev :: c :: cs).getD (pre.length + 1) (Char.ofNat 0) = c := by
      have := getD_append_length (pre ++ [prev]) c cs (Char.ofNat 0)
      simpa using this
    have h2 : (pre ++ prev :: c :: cs).getD (pre.length + 1 - 1) (Char.ofNat 0) = prev := by
      have := getD_append_length pre prev (c :: cs) (Char.ofNat 0)
      simpa using this
    have hgt : pre.length + 1 > 1 := by
      have : pre.length ≠ 0 := fun h => hpre (List.length_eq_zero.1 h)
      omega
    have hih := ih (pre ++ [prev]) c
    simp only [List.append_assoc, List.singleton_append, List.length_append,
      List.length_singleton] at hih
    simp only [List.length_cons, List.range'_succ, shortOptionsLoop, h1, h2, hgt, true_and]
    by_cases hcut : isalpha c = true ∧ prev ≠ 'x'
    · simp only [hcut, and_self, if_true, splitShortAfter, List.foldl_cons, List.nil_append,
        ne_eq, not_false_eq_true]
      exact hih (o.parseOption cur e) [c] (by simp)
    · simp only [hcut, if_false, splitShortAfter]
      exact hih o (cur ++ [c]) (by simp)

/-- One element of the options vector: the options that `optionsOfArg` lists are parsed in
order and `subArg` is empty again afterwards. -/
theorem parseArg_spec (e : List Char) (o : ASOptions) (arg : List Char) :
    parseArg e (o, []) arg = ((optionsOfArg arg).foldl (fun o p => o.parseOption p e) o, []) := by
  unfold parseArg optionsOfArg
  by_cases h1 : arg.take 2 = ['-', '-']
  · simp [h1]
  · simp only [h1, if_false]
    by_cases h2 : arg.getD 0 (Char.ofNat 0) = '-'
    · simp only [h2, if_true]
      cases arg with
      | nil => exact absurd h2 (by decide)
      | cons a rest =>
        cases rest with
        | nil => simp [shortOptionsLoop, splitShort]
        | cons c cs =>
          have hloop := shortOptionsLoop_spec e cs [a] c o [c] (by simp)
          simp only [List.singleton_append, List.length_singleton] at hloop
          have hstep : shortOptionsLoop (a :: c :: cs) e
              (List.range' 1 ((a :: c :: cs).length - 1)) (o, [])
              = shortOptionsLoop (a :: c :: cs) e (List.range' 2 cs.length) (o, [c]) := by
            simp [List.range'_succ, shortOptionsLoop]
          rw [hstep]
          simp only [splitShort, List.drop_one, List.tail_cons]
          rw [← hloop]
    · simp only [h2, if_false, List.foldl_cons, List.foldl_nil]

theorem foldl_parseArg (e : List Char) (v : List (List Char)) :
    ∀ o : ASOptions, v.foldl (parseArg e) (o, [])
      = ((v.flatMap optionsOfArg).foldl (fun o p => o.parseOption p e) o, []) := by
  induction v with
  | nil => intro o; rfl
  | cons arg v ih =>
    intro o
    rw [List.foldl_cons, parseArg_spec, ih]
    simp [List.flatMap_cons, List.foldl_append]

/-- The function `parseOptions` parses, in order, the options that `optionsOfArg` lists for
the elements of the vector, and returns whether the error text is empty afterwards. -/
theorem parseOptions_spec (o : ASOptions) (v : List (List Char)) (e : List Char) :
    o.parseOptions v e
      = ((v.flatMap optionsOfArg).foldl (fun o p => o.parseOption p e) o,
         decide (((v.flatMap optionsOfArg).foldl
            (fun o p => o.parseOption p e) o).optionErrors.length = 0)) := by
  unfold parseOptions
  rw [foldl_parseArg]
  simp only
  by_cases h : ((v.flatMap optionsOfArg).foldl
      (fun o p => o.parseOption p e) o).optionErrors.length = 0
  · simp [h]
  · have h' : ((v.flatMap optionsOfArg).foldl
        (fun o p => o.parseOption p e) o).optionErrors.length > 0 := by omega
    simp [h, h']

theorem noInnerStart_snoc (c : Char) : ∀ (c0 : Char) (cs : List Char),
    NoInnerStart c0 cs → ¬ (isalpha c = true ∧ lastChar c0 cs ≠ 'x') →
    NoInnerStart c0 (cs ++ [c]) ∧ lastChar c0 (cs ++ [c]) = c := by
  intro c0 cs
  induction cs generalizing c0 with
  | nil => intro _ h; exact ⟨⟨h, trivial⟩, rfl⟩
  | cons d ds ih =>
    intro h1 h2
    obtain ⟨i1, i2⟩ := ih d h1.2 h2
    exact ⟨⟨h1.1, i1⟩, i2⟩

/-- Every option that `splitShortAfter` lists is read back as one short option. -/
theorem splitShortAfter_isShortOption (rest : List Char) :
    ∀ (prev c0 : Char) (cs : List Char), c0 ≠ '-' → NoInnerStart c0 cs →
      lastChar c0 cs = prev →
      ∀ p ∈ splitShortAfter prev (c0 :: cs) rest, IsShortOption p := by
  induction rest with
  | nil =>
    intro prev c0 cs h0 h1 _ p hp
    simp only [splitShortAfter, List.mem_singleton] at hp
    rw [hp]; exact ⟨h0, h1⟩
  | cons c rest ih =>
    intro prev c0 cs h0 h1 h2 p hp
    simp only [splitShortAfter] at hp
    split at hp
    · rename_i hcut
      rcases List.mem_cons.1 hp with hp | hp
      · rw [hp]; exact ⟨h0, h1⟩
      · refine ih c c [] ?_ trivial rfl p hp
        intro hc; rw [hc] at hcut; exact absurd hcut.1 (by decide)
    · rename_i hcut
      rw [← h2] at hcut
      obtain ⟨i1, i2⟩ := noInnerStart_snoc c c0 cs h1 hcut
      exact ih c c0 (cs ++ [c]) h0 i1 i2 p (by simpa using hp)

theorem splitShort_isShortOption (arg : List Char) (h : isSingleDash arg = true) :
    ∀ p ∈ splitShort arg, IsShortOption p := by
  cases arg with
  | nil => exact absurd h (by decide)
  | cons a rest =>
    cases rest with
    | nil => intro p hp; simp [splitShort] at hp; rw [hp]; trivial
    | cons c cs =>
      have ha : a = '-' ∧ c ≠ '-' := by
        simp [isSingleDash] at h
        refine ⟨h.1, ?_⟩
        rcases h.2 with h' | h'
        · exact absurd h.1 h'
        · exact h'
      simp only [splitShort, List.drop_one, List.tail_cons]
      exact splitShortAfter_isShortOption cs c c [] ha.2 trivial rfl

theorem splitShortAfter_of_noInnerStart (rest : List Char) :
    ∀ (prev : Char) (cur : List Char), NoInnerStart prev rest →
      splitShortAfter prev cur rest = [cur ++ rest] := by
  induction rest with
  | nil => intro prev cur _; simp [splitShortAfter]
  | cons c rest ih =>
    intro prev cur h
    simp only [splitShortAfter, h.1, if_false]
    rw [ih c (cur ++ [c]) h.2]
    simp

/-- A short option written after a dash is parsed as that one option. -/
theorem optionsOfArg_dash (p : List Char) (h : IsShortOption p) :
    optionsOfArg ('-' :: p) = [p] := by
  cases p with
  | nil => simp [optionsOfArg, splitShort]
  | cons c cs =>
    have h1 : ¬ (c = '-') := h.1
    simp only [optionsOfArg, List.take, List.cons.injEq, h1, and_false, false_and, if_false,
      List.getD_cons_zero, if_true, splitShort, List.drop_one, List.tail_cons, true_and]
    rw [splitShortAfter_of_noInnerStart cs c [c] h.2]
    rfl

theorem flatMap_optionsOfArg_dash (ps : List (List Char)) (h : ∀ p ∈ ps, IsShortOption p) :
    (ps.map (fun p => '-' :: p)).flatMap optionsOfArg = ps := by
  induction ps with
  | nil => rfl
  | cons p ps ih =>
    simp only [List.map_cons, List.flatMap_cons]
    rw [optionsOfArg_dash p (h p (List.mem_cons_self _ _)),
      ih (fun q hq => h q (List.mem_cons_of_mem _ hq))]
    rfl

theorem isOptionError_errors_length (o : ASOptions) (arg e : List Char) :
    (o.isOptionError arg e).optionErrors.length ≠ 0 := by
  unfold isOptionError
  simp

theorem isOptionError_calls (o : ASOptions) (arg e : List Char) :
    (o.isOptionError arg e).calls = o.calls := by
  unfold isOptionError
  simp only
  split <;> rfl

/-- The error text after a run of `parseOption` calls: nothing is added when no option is
invalid; otherwise the `errorInfo` line is added if the text was empty, and then one line for
each invalid option, in order. -/
theorem foldl_parseOption_errors (e : List Char) (opts : List (List Char)) :
    ∀ o : ASOptions,
      (opts.foldl (fun o p => o.parseOption p e) o).optionErrors =
        if opts.filter isInvalidOption = [] then o.optionErrors
        else (if o.optionErrors.length = 0 then o.optionErrors ++ e ++ ['\n']
              else o.optionErrors) ++ errorLines (opts.filter isInvalidOption) := by
  induction opts with
  | nil => intro o; simp
  | cons p opts ih =>
    intro o
    rw [List.foldl_cons, ih]
    cases hp : optionAction p with
    | some cs =>
      have hv : isInvalidOption p = false := by simp [isInvalidOption, hp]
      simp [parseOption, hp, List.filter_cons, hv]
    | none =>
      have hv : isInvalidOption p = true := by simp [isInvalidOption, hp]
      have hlen := isOptionError_errors_length o p e
      simp only [parseOption, hp, List.filter_cons, hv, if_true, hlen, if_false]
      have hne : (p :: List.filter isInvalidOption opts) ≠ [] := by simp
      simp only [hne, if_false, errorLines]
      by_cases hb : List.filter isInvalidOption opts = []
      · simp only [hb, if_true, errorLines, List.append_nil]
        unfold isOptionError
        simp only
        split <;> simp
      · simp only [hb, if_false]
        unfold isOptionError
        simp only
        split <;> simp

/-- The calls after a run of `parseOption` calls: those of the accepted options, in order. -/
theorem foldl_parseOption_calls (e : List Char) (opts : List (List Char)) :
    ∀ o : ASOptions,
      (opts.foldl (fun o p => o.parseOption p e) o).calls =
        o.calls ++ opts.flatMap (fun p => (optionAction p).getD []) := by
  induction opts with
  | nil => intro o; simp
  | cons p opts ih =>
    intro o
    rw [List.foldl_cons, ih]
    cases hp : optionAction p with
    | some cs => simp [parseOption, hp, List.flatMap_cons]
    | none => simp [parseOption, hp, List.flatMap_cons, isOptionError_calls]

theorem optionsOfArg_singleDash (arg : List Char) (h : isSingleDash arg = true) :
    optionsOfArg arg = splitShort arg := by
  have h' := of_decide_eq_true h
  unfold optionsOfArg
  rw [if_neg h'.2, if_pos h'.1]

/-- Parsing a single-dash argument is parsing its short options in order. -/
theorem parseOptions_singleDash (o : ASOptions) (arg e : List Char)
    (h : isSingleDash arg = true) :
    o.parseOptions [arg] e
      = ((splitShort arg).foldl (fun o p => o.parseOption p e) o,
         decide (((splitShort arg).foldl
            (fun o p => o.parseOption p e) o).optionErrors.length = 0)) := by
  rw [parseOptions_spec]
  simp [optionsOfArg_singleDash arg h]

/-- Parsing a single-dash argument is parsing its short options as separate arguments. -/
theorem parseOptions_split (o : ASOptions) (arg e : List Char)
    (h : isSingleDash arg = true) :
    o.parseOptions [arg] e = o.parseOptions ((splitShort arg).map (fun p => '-' :: p)) e := by
  rw [parseOptions_singleDash o arg e h, parseOptions_spec,
    flatMap_optionsOfArg_dash _ (splitShort_isShortOption arg h)]

/-! ## Lemmas on the branches of `parseOption` -/

theorem ite_ind {α : Type} (P : α → Prop) (c : Prop) [Decidable c] (a b : α)
    (ha : c → P a) (hb : ¬ c → P b) : P (if c then a else b) := by
  by_cases h : c
  · rw [if_pos h]; exact ha h
  · rw [if_neg h]; exact hb h

/-- Every length that a branch of `parseOption` hands to `setSpaceIndentation`,
`setTabIndentation` or `setForceTabXIndentation` lies in 2..20. -/
theorem optionAction_lengthInRange (arg : List Char) :
    AllCalls LengthInRange (optionAction arg) := by
  unfold optionAction
  dsimp only
  repeat' (apply ite_ind (P := AllCalls LengthInRange) <;> intro _)
  all_goals first
    | (intro cs hcs c hc; simp only [Option.some.injEq] at hcs; subst hcs
       simp only [List.mem_cons, List.mem_singleton, List.not_mem_nil, or_false] at hc
       rcases hc with rfl | rfl <;> simp only [LengthInRange] <;> first | trivial | omega)
    | (intro cs hcs; simp at hcs; try (subst hcs; intro c hc; simp at hc))

/-- Every value that a branch of `parseOption` hands to `setMaxCodeLength` is at most 200. -/
theorem optionAction_maxCodeLength_le (arg : List Char) :
    AllCalls MaxCodeLengthAtMost200 (optionAction arg) := by
  unfold optionAction
  dsimp only
  repeat' (apply ite_ind (P := AllCalls MaxCodeLengthAtMost200) <;> intro _)
  all_goals first
    | (intro cs hcs c hc; simp only [Option.some.injEq] at hcs; subst hcs
       simp only [List.mem_cons, List.mem_singleton, List.not_mem_nil, or_false] at hc
       rcases hc with rfl | rfl <;> simp only [MaxCodeLengthAtMost200] <;>
         first | trivial | omega)
    | (intro cs hcs; simp at hcs; try (subst hcs; intro c hc; simp at hc))

/-- Every value that a branch of `parseOption` hands to `setMinConditionalIndentOption` is
below `MINCOND_END`. -/
theorem optionAction_minConditional_lt (arg : List Char) :
    AllCalls MinConditionalBelowEnd (optionAction arg) := by
  unfold optionAction
  dsimp only
  repeat' (apply ite_ind (P := AllCalls MinConditionalBelowEnd) <;> intro _)
  all_goals first
    | (intro cs hcs c hc; simp only [Option.some.injEq] at hcs; subst hcs
       simp only [List.mem_cons, List.mem_singleton, List.not_mem_nil, or_false] at hc
       rcases hc with rfl | rfl <;> simp only [MinConditionalBelowEnd] <;>
         first | trivial | omega)
    | (intro cs hcs; simp at hcs; try (subst hcs; intro c hc; simp at hc))

theorem isReported_of_none (opt : List Char) (h : optionAction opt = none) : IsReported opt := by
  refine ⟨h, fun o e => ?_⟩
  simp [parseOption, h, isOptionError_calls]

/-- The short option `s` followed by a number outside 2..20 is reported as an error. -/
theorem optionAction_s_out_of_range (d : Char) (r : List Char) (hd : isdigit d = true)
    (hv : atoi (d :: r) < 2 ∨ atoi (d :: r) > 20) :
    optionAction ("s".toList ++ d :: r) = none := by
  have hst : d ≠ 't' := by intro h; subst h; exact absurd hd (by decide)
  have ht : isParamOption2 ("s".toList ++ d :: r) "s" "indent=spaces=" = true := by
    simp [isParamOption, isParamOption2, String.length, hd]
  have hv' : paramValue 4 (getParam2 ("s".toList ++ d :: r) "s" "indent=spaces=") < 2
      ∨ paramValue 4 (getParam2 ("s".toList ++ d :: r) "s" "indent=spaces=") > 20 := by
    simpa [isParamOption, String.length, hd, getParam, getParam2, paramValue] using hv
  unfold optionAction
  dsimp only
  repeat (
    refine Eq.trans (if_neg ?_) ?_
    · simp [isOption, isOption2, isParamOption, isParamOption2, String.length, hd, hst])
  rw [if_pos ht, if_pos hv']

/-- The short option `t` followed by a number outside 2..20 is reported as an error. -/
theorem optionAction_t_out_of_range (d : Char) (r : List Char) (hd : isdigit d = true)
    (hv : atoi (d :: r) < 2 ∨ atoi (d :: r) > 20) :
    optionAction ("t".toList ++ d :: r) = none := by
  have ht : isParamOption2 ("t".toList ++ d :: r) "t" "indent=tab=" = true := by
    simp [isParamOption, isParamOption2, String.length, hd]
  have hv' : paramValue 4 (getParam2 ("t".toList ++ d :: r) "t" "indent=tab=") < 2
      ∨ paramValue 4 (getParam2 ("t".toList ++ d :: r) "t" "indent=tab=") > 20 := by
    simpa [isParamOption, String.length, hd, getParam, getParam2, paramValue] using hv
  unfold optionAction
  dsimp only
  repeat (
    refine Eq.trans (if_neg ?_) ?_
    · simp [isOption, isOption2, isParamOption, isParamOption2, String.length, hd])
  rw [if_pos ht, if_pos hv']

/-- The short option `T` followed by a number outside 2..20 is reported as an error. -/
theorem optionAction_T_out_of_range (d : Char) (r : List Char) (hd : isdigit d = true)
    (hv : atoi (d :: r) < 2 ∨ atoi (d :: r) > 20) :
    optionAction ("T".toList ++ d :: r) = none := by
  have ht : isParamOption2 ("T".toList ++ d :: r) "T" "indent=force-tab=" = true := by
    simp [isParamOption, isParamOption2, String.length, hd]
  have hv' : paramValue 4 (getParam2 ("T".toList ++ d :: r) "T" "indent=force-tab=") < 2
      ∨ paramValue 4 (getParam2 ("T".toList ++ d :: r) "T" "indent=force-tab=") > 20 := by
    simpa [isParamOption, String.length, hd, getParam, getParam2, paramValue] using hv
  unfold optionAction
  dsimp only
  repeat (
    refine Eq.trans (if_neg ?_) ?_
    · simp [isOption, isOption2, isParamOption, isParamOption2, String.length, hd])
  rw [if_pos ht, if_pos hv']

/-- The option `indent=spaces=` followed by a parameter whose value is outside 2..20 is reported as
an error. -/
theorem optionAction_indent_spaces_out_of_range (param : List Char) (hp : param ≠ [])
    (hv : atoi param < 2 ∨ atoi param > 20) :
    optionAction ("indent=spaces=".toList ++ param) = none := by
  have hlen : 0 < param.length := List.length_pos.2 hp
  have ht : isParamOption2 ("indent=spaces=".toList ++ param) "s" "indent=spaces=" = true := by
    simp [isParamOption, isParamOption2, String.length]
  have hv' : paramValue 4 (getParam2 ("indent=spaces=".toList ++ param) "s" "indent=spaces=") < 2
      ∨ paramValue 4 (getParam2 ("indent=spaces=".toList ++ param) "s" "indent=spaces=") > 20 := by
    simpa [isParamOption, String.length, getParam, getParam2, paramValue, hlen] using hv
  unfold optionAction
  dsimp only
  repeat (
    refine Eq.trans (if_neg ?_) ?_
    · simp [isOption, isOption2, isParamOption, isParamOption2, String.length])
  rw [if_pos ht, if_pos hv']

/-- The option `indent=tab=` followed by a parameter whose value is outside 2..20 is reported as
an error. -/
theorem optionAction_indent_tab_out_of_range (param : List Char) (hp : param ≠ [])
    (hv : atoi param < 2 ∨ atoi param > 20) :
    optionAction ("indent=tab=".toList ++ param) = none := by
  have hlen : 0 < param.length := List.length_pos.2 hp
  have ht : isParamOption2 ("indent=tab=".toList ++ param) "t" "indent=tab=" = true := by
    simp [isParamOption, isParamOption2, String.length]
  have hv' : paramValue 4 (getParam2 ("indent=tab=".toList ++ param) "t" "indent=tab=") < 2
      ∨ paramValue 4 (getParam2 ("indent=tab=".toList ++ param) "t" "indent=tab=") > 20 := by
    simpa [isParamOption, String.length, getParam, getParam2, paramValue, hlen] using hv
  unfold optionAction
  dsimp only
  repeat (
    refine Eq.trans (if_neg ?_) ?_
    · simp [isOption, isOption2, isParamOption, isParamOption2, String.length])
  rw [if_pos ht, if_pos hv']

/-- The option `indent=force-tab=` followed by a parameter whose value is outside 2..20 is reported as
an error. -/
theorem optionAction_indent_force_tab_out_of_range (param : List Char) (hp : param ≠ [])
    (hv : atoi param < 2 ∨ atoi param > 20) :
    optionAction ("indent=force-tab=".toList ++ param) = none := by
  have hlen : 0 < param.length := List.length_pos.2 hp
  have ht : isParamOption2 ("indent=force-tab=".toList ++ param) "T" "indent=force-tab=" = true := by
    simp [isParamOption, isParamOption2, String.length]
  have hv' : paramValue 4 (getParam2 ("indent=force-tab=".toList ++ param) "T" "indent=force-tab=") < 2
      ∨ paramValue 4 (getParam2 ("indent=force-tab=".toList ++ param) "T" "indent=force-tab=") > 20 := by
    simpa [isParamOption, String.length, getParam, getParam2, paramValue, hlen] using hv
  unfold optionAction
  dsimp only
  repeat (
    refine Eq.trans (if_neg ?_) ?_
    · simp [isOption, isOption2, isParamOption, isParamOption2, String.length])
  rw [if_pos ht, if_pos hv']

/-- The option `indent=force-tab-x=` followed by a parameter whose value is outside 2..20 is reported as
an error. -/
theorem optionAction_indent_force_tab_x_out_of_range (param : List Char) (hp : param ≠ [])
    (hv : atoi param < 2 ∨ atoi param > 20) :
    optionAction ("indent=force-tab-x=".toList ++ param) = none := by
  have hlen : 0 < param.length := List.length_pos.2 hp
  have ht : isParamOption2 ("indent=force-tab-x=".toList ++ param) "xT" "indent=force-tab-x=" = true := by
    simp [isParamOption, isParamOption2, String.length]
  have hv' : paramValue 8 (getParam2 ("indent=force-tab-x=".toList ++ param) "xT" "indent=force-tab-x=") < 2
      ∨ paramValue 8 (getParam2 ("indent=force-tab-x=".toList ++ param) "xT" "indent=force-tab-x=") > 20 := by
    simpa [isParamOption, String.length, getParam, getParam2, paramValue, hlen] using hv
  unfold optionAction
  dsimp only
  repeat (
    refine Eq.trans (if_neg ?_) ?_
    · simp [isOption, isOption2, isParamOption, isParamOption2, String.length])
  rw [if_pos ht, if_pos hv']

/-- The short option `xT` followed by a parameter whose value is outside 2..20 is reported as
an error. -/
theorem optionAction_xT_out_of_range (param : List Char) (hp : param ≠ [])
    (hv : atoi param < 2 ∨ atoi param > 20) :
    optionAction ("xT".toList ++ param) = none := by
  have hlen : 0 < param.length := List.length_pos.2 hp
  have ht : isParamOption2 ("xT".toList ++ param) "xT" "indent=force-tab-x=" = true := by
    simp [isParamOption, isParamOption2, String.length]
  have hv' : paramValue 8 (getParam2 ("xT".toList ++ param) "xT" "indent=force-tab-x=") < 2
      ∨ paramValue 8 (getParam2 ("xT".toList ++ param) "xT" "indent=force-tab-x=") > 20 := by
    simpa [isParamOption, String.length, getParam, getParam2, paramValue, hlen] using hv
  unfold optionAction
  dsimp only
  repeat (
    refine Eq.trans (if_neg ?_) ?_
    · simp [isOption, isOption2, isParamOption, isParamOption2, String.length])
  rw [if_pos ht, if_pos hv']

/-- The option `A` followed by a number that is none of 1..12 and 14 is reported as an
error. -/
theorem optionAction_A_other (d : Char) (r : List Char) (hd : isdigit d = true)
    (hv : atoi (d :: r) ∉ [(1 : Int), 2, 3, 4, 5, 6, 7, 8, 9, 10, 11, 12, 14]) :
    optionAction ("A".toList ++ d :: r) = none := by
  have ht : isParamOption ("A".toList ++ d :: r) "A" = true := by
    simp [isParamOption, String.length, hd]
  have hv' : paramValue 0 (getParam ("A".toList ++ d :: r) "A") = atoi (d :: r) := by
    simp [String.length, getParam, paramValue]
  simp only [List.mem_cons, List.mem_singleton, List.not_mem_nil, or_false, not_or] at hv
  unfold optionAction
  dsimp only
  repeat (
    refine Eq.trans (if_neg ?_) ?_
    · simp [isOption, isOption2, isParamOption, isParamOption2, String.length])
  rw [if_pos ht, hv']
  repeat (
    refine Eq.trans (if_neg ?_) ?_
    · omega)
  rfl

/-- Parsing a vector of one element that stands for one accepted option. -/
theorem parseOptions_single_some (o : ASOptions) (e arg opt : List Char) (cs : List Call)
    (h1 : optionsOfArg arg = [opt]) (h2 : optionAction opt = some cs) :
    o.parseOptions [arg] e
      = ({ o with calls := o.calls ++ cs }, decide (o.optionErrors.length = 0)) := by
  rw [parseOptions_spec]
  simp [h1, parseOption, h2]

/-- Parsing a vector of one element that stands for one rejected option. -/
theorem parseOptions_single_none (o : ASOptions) (e arg opt : List Char)
    (h1 : optionsOfArg arg = [opt]) (h2 : optionAction opt = none) :
    o.parseOptions [arg] e = (o.isOptionError opt e, false) := by
  rw [parseOptions_spec]
  have := isOptionError_errors_length o opt e
  simp [h1, parseOption, h2, this]

/-- The value that `parseOptions` returns: true exactly when the error text was empty before
the call and no option of the vector is invalid. -/
theorem parseOptions_result (o : ASOptions) (v : List (List Char)) (e : List Char) :
    (o.parseOptions v e).2
      = decide (o.optionErrors = [] ∧ (v.flatMap optionsOfArg).filter isInvalidOption = []) := by
  rw [parseOptions_spec]
  simp only
  rw [foldl_parseOption_errors]
  by_cases hb : (v.flatMap optionsOfArg).filter isInvalidOption = []
  · simp [hb]
  · simp only [hb, if_false, and_false, decide_False, decide_eq_false_iff_not]
    split
    · simp
    · rename_i h
      intro hc
      simp at hc
      exact h (by simp [hc.1])

/-! ## Lemmas on `importOptions` -/

theorem isEolChar_isOptionSeparator {c : Char} (h : isEolChar c = true) :
    isOptionSeparator c = true := by
  simp [isEolChar] at h
  rcases h with rfl | rfl <;> decide

theorem isOptionSeparator_ne_hash {c : Char} (h : isOptionSeparator c = true) : c ≠ '#' := by
  intro hc; subst hc; revert h; decide

theorem isOptionSeparator_false {c : Char} (h : isOptionSeparator c = false) :
    c ≠ ' ' ∧ c ≠ '\t' ∧ c ≠ ',' ∧ c ≠ '\n' ∧ c ≠ '\r' := by
  simpa [isOptionSeparator] using h

/-- The comment loop reaches the terminator that ends the comment. -/
theorem skipComment_eol (cm : List Char) : ∀ (data : List Char) (pos : Nat) (ch : Char)
    (fuel : Nat) (e : Char) (tail : List Char),
    data.drop pos = cm ++ e :: tail → (∀ c ∈ cm, isEolChar c = false) → isEolChar e = true →
    cm.length + 1 ≤ fuel →
    skipComment fuel ⟨data, pos, false, false⟩ ch
      = some (⟨data, pos + cm.length + 1, false, false⟩, e) := by
  induction cm with
  | nil =>
    intro data pos ch fuel e tail hd _ he hf
    obtain ⟨f, rfl⟩ : ∃ f, fuel = f + 1 := ⟨fuel - 1, by simp at hf; omega⟩
    obtain ⟨hg, -⟩ := drop_cons_getElem hd
    have he' : e = '\n' ∨ e = '\r' := by
      simp [isEolChar] at he; exact he.symm
    simp [skipComment, IStream.ok, IStream.get, IStream.good, hg, he']
  | cons c cm ih =>
    intro data pos ch fuel e tail hd hl he hf
    obtain ⟨f, rfl⟩ : ∃ f, fuel = f + 1 := ⟨fuel - 1, by simp at hf; omega⟩
    obtain ⟨hg, hd'⟩ := drop_cons_getElem hd
    have hc : ¬ (c = '\n' ∨ c = '\r') := by
      have := hl c (List.mem_cons_self _ _)
      simp [isEolChar] at this
      intro h; rcases h with h | h
      · exact this.2 h
      · exact this.1 h
    have h' := ih data (pos + 1) c f e tail hd'
      (fun x hx => hl x (List.mem_cons_of_mem _ hx)) he (by simp at hf ⊢; omega)
    simp only [List.length_cons]
    rw [skipComment]
    simp only [IStream.ok, IStream.get, IStream.good, hg, Bool.not_false, Bool.and_self,
      if_true, hc, if_false]
    rw [h']
    congr 3
    omega

/-- The comment loop when the comment runs to the end of the text. -/
theorem skipComment_noEol (cm : List Char) : ∀ (data : List Char) (pos : Nat) (ch : Char)
    (fuel : Nat),
    data.drop pos = cm → (∀ c ∈ cm, isEolChar c = false) → isEolChar ch = false →
    cm.length + 2 ≤ fuel →
    ∃ ch', skipComment fuel ⟨data, pos, false, false⟩ ch
      = some (⟨data, pos + cm.length, true, true⟩, ch') := by
  induction cm with
  | nil =>
    intro data pos ch fuel hd _ hch hf
    obtain ⟨f, rfl⟩ : ∃ f, fuel = f + 2 := ⟨fuel - 2, by simp at hf; omega⟩
    have hg := drop_nil_getElem hd
    have hc : ¬ (ch = '\n' ∨ ch = '\r') := by
      simp [isEolChar] at hch
      intro h; rcases h with h | h
      · exact hch.2 h
      · exact hch.1 h
    refine ⟨ch, ?_⟩
    simp [skipComment, IStream.ok, IStream.get, IStream.good, hg, hc]
  | cons c cm ih =>
    intro data pos ch fuel hd hl _ hf
    obtain ⟨f, rfl⟩ : ∃ f, fuel = f + 1 := ⟨fuel - 1, by simp at hf; omega⟩
    obtain ⟨hg, hd'⟩ := drop_cons_getElem hd
    have hc : ¬ (c = '\n' ∨ c = '\r') := by
      have := hl c (List.mem_cons_self _ _)
      simp [isEolChar] at this
      intro h; rcases h with h | h
      · exact this.2 h
      · exact this.1 h
    obtain ⟨ch', h'⟩ := ih data (pos + 1) c f hd'
      (fun x hx => hl x (List.mem_cons_of_mem _ hx)) (hl c (List.mem_cons_self _ _))
      (by simp at hf ⊢; omega)
    refine ⟨ch', ?_⟩
    simp only [List.length_cons]
    rw [skipComment]
    simp only [IStream.ok, IStream.get, IStream.good, hg, Bool.not_false, Bool.and_self,
      if_true, hc, if_false]
    rw [h']
    congr 3
    omega

/-- The token loop over a run of token characters: they are appended to the token. -/
theorem readToken_run (t : List Char) : ∀ (data : List Char) (pos : Nat) (ch : Char)
    (tok : List Char) (fuel : Nat),
    (∃ rest, data.drop pos = t ++ rest) →
    (∀ c ∈ t, isOptionSeparator c = false ∧ c ≠ '#') →
    ∃ ch', readToken (t.length + fuel) ⟨data, pos, false, false⟩ ch tok
      = readToken fuel ⟨data, pos + t.length, false, false⟩ ch' (tok ++ t) := by
  induction t with
  | nil => intro data pos ch tok fuel _ _; exact ⟨ch, by simp⟩
  | cons c t ih =>
    intro data pos ch tok fuel hd hl
    obtain ⟨rest, hd⟩ := hd
    obtain ⟨hg, hd'⟩ := drop_cons_getElem hd
    obtain ⟨hsep, hhash⟩ := hl c (List.mem_cons_self _ _)
    obtain ⟨h1, h2, h3, h4, h5⟩ := isOptionSeparator_false hsep
    obtain ⟨ch', h'⟩ := ih data (pos + 1) c (tok ++ [c]) fuel ⟨rest, hd'⟩
      (fun x hx => hl x (List.mem_cons_of_mem _ hx))
    refine ⟨ch', ?_⟩
    have hlen : (c :: t).length + fuel = (t.length + fuel) + 1 := by simp; omega
    have hpos : pos + (c :: t).length = pos + 1 + t.length := by simp; omega
    have htok : tok ++ c :: t = tok ++ [c] ++ t := by simp
    rw [hlen, hpos, htok, readToken]
    simp only [IStream.eof, IStream.ok, IStream.get, IStream.good, hg, Bool.not_false,
      Bool.and_self, if_true, hhash, if_false, h1, h2, h3, h4, h5, or_self, Bool.false_eq_true]
    exact h'

/-- The token loop at the end of the text. -/
theorem readToken_eof (data : List Char) (pos : Nat) (ch : Char) (tok : List Char) (fuel : Nat)
    (hd : data.drop pos = []) :
    readToken (fuel + 1) ⟨data, pos, false, false⟩ ch tok
      = some (⟨data, pos, true, true⟩, ch, tok) := by
  have hg := drop_nil_getElem hd
  simp [readToken, IStream.eof, IStream.get, IStream.good, hg]

/-- The token loop at a separator. -/
theorem readToken_sep (data : List Char) (pos : Nat) (ch : Char) (tok : List Char) (fuel : Nat)
    (c : Char) (r : List Char) (hd : data.drop pos = c :: r) (hc : isOptionSeparator c = true) :
    readToken (fuel + 1) ⟨data, pos, false, false⟩ ch tok
      = some (⟨data, pos + 1, false, false⟩, c, tok) := by
  obtain ⟨hg, -⟩ := drop_cons_getElem hd
  have hhash := isOptionSeparator_ne_hash hc
  have hs : c = ' ' ∨ c = '\t' ∨ c = ',' ∨ c = '\n' ∨ c = '\r' := by
    simpa [isOptionSeparator] using hc
  simp [readToken, IStream.eof, IStream.get, IStream.good, hg, hhash, hs]

/-- The token loop at a comment that is ended by a line terminator. -/
theorem readToken_comment_eol (data : List Char) (pos : Nat) (ch : Char) (tok : List Char)
    (fuel : Nat) (cm : List Char) (e : Char) (r : List Char)
    (hd : data.drop pos = '#' :: (cm ++ e :: r)) (hcm : ∀ c ∈ cm, isEolChar c = false)
    (he : isEolChar e = true) :
    readToken (fuel + 1) ⟨data, pos, false, false⟩ ch tok
      = some (⟨data, pos + 1 + cm.length + 1, false, false⟩, e, tok) := by
  obtain ⟨hg, hd'⟩ := drop_cons_getElem hd
  have hlen : cm.length + 1 ≤ data.length + 2 := by
    have := congrArg List.length hd'
    simp at this; omega
  have hsk := skipComment_eol cm data (pos + 1) '#' (data.length + 2) e r hd' hcm he hlen
  have hs : e = ' ' ∨ e = '\t' ∨ e = ',' ∨ e = '\n' ∨ e = '\r' := by
    simpa [isOptionSeparator] using isEolChar_isOptionSeparator he
  simp [readToken, IStream.eof, IStream.get, IStream.good, hg, hsk, hs]

/-- The token loop at a comment that runs to the end of the text. -/
theorem readToken_comment_eof (data : List Char) (pos : Nat) (ch : Char) (tok : List Char)
    (fuel : Nat) (cm : List Char)
    (hd : data.drop pos = '#' :: cm) (hcm : ∀ c ∈ cm, isEolChar c = false) :
    ∃ ch', readToken (fuel + 1) ⟨data, pos, false, false⟩ ch tok
      = some (⟨data, pos + 1 + cm.length, true, true⟩, ch', tok) := by
  obtain ⟨hg, hd'⟩ := drop_cons_getElem hd
  have hlen : cm.length + 2 ≤ data.length + 2 := by
    have := congrArg List.length hd'
    simp at this; omega
  obtain ⟨ch', hsk⟩ := skipComment_noEol cm data (pos + 1) '#' (data.length + 2) hd' hcm
    (by decide) hlen
  refine ⟨ch', ?_⟩
  simp [readToken, IStream.eof, IStream.get, IStream.good, hg, hsk]

theorem stripCommentsFrom_run (t : List Char) (x : List Char)
    (ht : ∀ c ∈ t, isOptionSeparator c = false ∧ c ≠ '#') :
    stripCommentsFrom false (t ++ x) = t ++ stripCommentsFrom false x := by
  induction t with
  | nil => rfl
  | cons c t ih =>
    have hc := (ht c (List.mem_cons_self _ _)).2
    rw [List.cons_append, stripCommentsFrom, if_neg hc,
      ih (fun y hy => ht y (List.mem_cons_of_mem _ hy)), List.cons_append]

theorem stripCommentsFrom_sep (c : Char) (r : List Char) (hc : isOptionSeparator c = true) :
    stripCommentsFrom false (c :: r) = c :: stripCommentsFrom false r := by
  simp [stripCommentsFrom, isOptionSeparator_ne_hash hc]

theorem stripCommentsFrom_comment_noEol (cm : List Char) (hcm : ∀ c ∈ cm, isEolChar c = false) :
    stripCommentsFrom true cm = [] := by
  induction cm with
  | nil => rfl
  | cons c cm ih =>
    simp only [stripCommentsFrom, hcm c (List.mem_cons_self _ _), Bool.false_eq_true, if_false]
    exact ih (fun y hy => hcm y (List.mem_cons_of_mem _ hy))

theorem stripCommentsFrom_comment_eol (cm : List Char) (e : Char) (r : List Char)
    (hcm : ∀ c ∈ cm, isEolChar c = false) (he : isEolChar e = true) :
    stripCommentsFrom true (cm ++ e :: r) = e :: stripCommentsFrom false r := by
  induction cm with
  | nil => simp [stripCommentsFrom, he]
  | cons c cm ih =>
    simp only [List.cons_append, stripCommentsFrom, hcm c (List.mem_cons_self _ _),
      Bool.false_eq_true, if_false]
    exact ih (fun y hy => hcm y (List.mem_cons_of_mem _ hy))

/-- The tokens of a text that is one run of token characters and then nothing but a comment. -/
theorem optionTokens_last (t x : List Char)
    (ht : ∀ c ∈ t, isOptionSeparator c = false ∧ c ≠ '#')
    (hx : stripCommentsFrom false x = []) :
    optionTokens (t ++ x) = if t.length ≠ 0 then [t] else [] := by
  have hs : (t.splitOnP isOptionSeparator) = [t] :=
    List.splitOnP_eq_single _ _ (fun c hc => by simp [(ht c hc).1])
  rw [optionTokens, stripCommentsFrom_run t x ht, hx, List.append_nil, hs]
  cases t <;> simp

/-- The tokens of a text that goes on after a run of token characters and a separator. -/
theorem optionTokens_next (t x : List Char) (c : Char) (r : List Char)
    (ht : ∀ c ∈ t, isOptionSeparator c = false ∧ c ≠ '#')
    (hx : stripCommentsFrom false x = c :: stripCommentsFrom false r)
    (hc : isOptionSeparator c = true) :
    optionTokens (t ++ x) = (if t.length ≠ 0 then [t] else []) ++ optionTokens r := by
  have hs := List.splitOnP_first isOptionSeparator t (fun c hc => by simp [(ht c hc).1]) c hc
    (stripCommentsFrom false r)
  rw [optionTokens, stripCommentsFrom_run t x ht, hx, hs, optionTokens]
  cases t <;> simp

/-- A text is a run of token characters to its end, or up to a separator or a comment mark. -/
theorem token_decomp (rest : List Char) :
    ∃ t x, rest = t ++ x ∧ (∀ c ∈ t, isOptionSeparator c = false ∧ c ≠ '#') ∧
      (x = [] ∨ ∃ c r, x = c :: r ∧ (isOptionSeparator c = true ∨ c = '#')) := by
  induction rest with
  | nil => exact ⟨[], [], rfl, by simp, Or.inl rfl⟩
  | cons c rest ih =>
    by_cases hc : isOptionSeparator c = true ∨ c = '#'
    · exact ⟨[], c :: rest, rfl, by simp, Or.inr ⟨c, rest, rfl, hc⟩⟩
    · obtain ⟨t, x, h1, h2, h3⟩ := ih
      refine ⟨c :: t, x, by simp [h1], ?_, h3⟩
      intro y hy
      rcases List.mem_cons.1 hy with rfl | hy
      · simpa [not_or] using hc
      · exact h2 y hy

/-- The outer loop of `importOptions` ends on a stream that has failed. -/
theorem importLoop_failed (f : Nat) (data : List Char) (pos : Nat) (e : Bool) (ch : Char)
    (v : List (List Char)) :
    importLoop (f + 1) ⟨data, pos, e, true⟩ ch v = some (⟨data, pos, e, true⟩, v) := by
  simp [importLoop, IStream.ok]

theorem append_token (v : List (List Char)) (t : List Char) (ts : List (List Char)) :
    (if t.length ≠ 0 then v ++ [t] else v) ++ ts
      = v ++ ((if t.length ≠ 0 then [t] else []) ++ ts) := by
  split <;> simp

/-- The outer loop of `importOptions` ends and appends the tokens of the unread text. -/
theorem importLoop_spec : ∀ (n : Nat) (rest : List Char), rest.length ≤ n →
    ∀ (data : List Char) (pos : Nat) (ch : Char) (v : List (List Char)) (fuel : Nat),
    data.drop pos = rest → rest.length + 2 ≤ fuel →
    ∃ s', importLoop fuel ⟨data, pos, false, false⟩ ch v = some (s', v ++ optionTokens rest) := by
  intro n
  induction n with
  | zero =>
    intro rest hn data pos ch v fuel hd hf
    have hr : rest = [] := List.length_eq_zero.1 (Nat.le_zero.1 hn)
    subst hr
    obtain ⟨f, rfl⟩ : ∃ f, fuel = f + 2 := ⟨fuel - 2, by simp at hf; omega⟩
    refine ⟨⟨data, pos, true, true⟩, ?_⟩
    have h1 := readToken_eof data pos ch [] (data.length + 1) hd
    rw [importLoop]
    simp only [IStream.ok, Bool.not_false, if_true, h1]
    rw [importLoop_failed]
    simp [optionTokens, stripCommentsFrom]
  | succ n ih =>
    intro rest hn data pos ch v fuel hd hf
    obtain ⟨f, rfl⟩ : ∃ f, fuel = f + 2 := ⟨fuel - 2, by omega⟩
    obtain ⟨t, x, hrest, ht, hx⟩ := token_decomp rest
    have hlen : rest.length ≤ data.length := by
      rw [← hd, List.length_drop]; omega
    have htl : t.length ≤ data.length := by
      have := congrArg List.length hrest
      simp at this; omega
    obtain ⟨k, hk⟩ : ∃ k, data.length + 2 = t.length + (k + 1) :=
      ⟨data.length + 1 - t.length, by omega⟩
    have hdt : data.drop pos = t ++ x := by rw [hd, hrest]
    have hdx : data.drop (pos + t.length) = x := drop_add_of_append hdt
    obtain ⟨ch1, hrun⟩ := readToken_run t data pos ch [] (k + 1) ⟨x, hdt⟩ ht
    rw [← hk, List.nil_append] at hrun
    rw [importLoop]
    simp only [IStream.ok, Bool.not_false, if_true, hrun]
    rcases hx with rfl | ⟨c, r, rfl, hc | rfl⟩
    · -- the text ends after the run
      rw [readToken_eof data (pos + t.length) ch1 t k hdx]
      refine ⟨⟨data, pos + t.length, true, true⟩, ?_⟩
      rw [hrest, optionTokens_last t [] ht rfl]
      simp only []
      rw [importLoop_failed]
      have h := append_token v t []
      simp only [List.append_nil] at h
      rw [h]
    · -- a separator ends the run
      rw [readToken_sep data (pos + t.length) ch1 t k c r hdx hc]
      have hrl : r.length ≤ n := by
        have := congrArg List.length hrest
        simp at this; omega
      have hdr : data.drop (pos + t.length + 1) = r := (drop_cons_getElem hdx).2
      obtain ⟨s', hs'⟩ := ih r hrl data (pos + t.length + 1) c
        (if t.length ≠ 0 then v ++ [t] else v) (f + 1) hdr (by
          have := congrArg List.length hrest
          simp at this; omega)
      refine ⟨s', ?_⟩
      simp only []
      rw [hs', hrest, optionTokens_next t (c :: r) c r ht (stripCommentsFrom_sep c r hc) hc,
        append_token]
    · -- a comment ends the run
      have hdc : data.drop (pos + t.length + 1) = r := (drop_cons_getElem hdx).2
      rcases eol_decomp r with hcm | ⟨cm, e, tail, rfl, hcm, he⟩
      · obtain ⟨ch2, h2⟩ := readToken_comment_eof data (pos + t.length) ch1 t k r hdx hcm
        rw [h2]
        refine ⟨⟨data, pos + t.length + 1 + r.length, true, true⟩, ?_⟩
        rw [hrest, optionTokens_last t ('#' :: r) ht (by
          simp [stripCommentsFrom, stripCommentsFrom_comment_noEol r hcm])]
        simp only []
        rw [importLoop_failed]
        have h := append_token v t []
        simp only [List.append_nil] at h
        rw [h]
      · rw [readToken_comment_eol data (pos + t.length) ch1 t k cm e tail hdx hcm he]
        have hrl : tail.length ≤ n := by
          have := congrArg List.length hrest
          simp at this; omega
        have hdr : data.drop (pos + t.length + 1 + cm.length + 1) = tail := by
          have h1 : data.drop (pos + t.length + 1 + cm.length) = e :: tail :=
            drop_add_of_append hdc
          exact (drop_cons_getElem h1).2
        obtain ⟨s', hs'⟩ := ih tail hrl data (pos + t.length + 1 + cm.length + 1) e
          (if t.length ≠ 0 then v ++ [t] else v) (f + 1) hdr (by
            have := congrArg List.length hrest
            simp at this; omega)
        refine ⟨s', ?_⟩
        simp only []
        rw [hs', hrest, optionTokens_next t ('#' :: (cm ++ e :: tail)) e tail ht (by
          simp [stripCommentsFrom, stripCommentsFrom_comment_eol cm e tail hcm he])
          (isEolChar_isOptionSeparator he), append_token]

/-- The function `importOptions` returns, with the tokens of the text appended. -/
theorem importOptions_spec (text : List Char) (v : List (List Char)) :
    importOptions (IStream.ofInput text) v = some (v ++ optionTokens text) := by
  obtain ⟨s', hs'⟩ := importLoop_spec text.length text (Nat.le_refl _) text 0 (Char.ofNat 0) v
    (text.length + 2) rfl (Nat.le_refl _)
  simp only [importOptions, IStream.ofInput, hs']

/-- The pieces of a split hold characters of the list, none of them a separator. -/
theorem mem_splitOnP {α : Type} (p : α → Bool) (xs : List α) :
    ∀ l ∈ xs.splitOnP p, ∀ x ∈ l, x ∈ xs ∧ p x = false := by
  induction xs with
  | nil => intro l hl x hx; simp at hl; subst hl; simp at hx
  | cons a xs ih =>
    intro l hl x hx
    rw [List.splitOnP_cons] at hl
    by_cases ha : p a = true
    · rw [if_pos ha] at hl
      rcases List.mem_cons.1 hl with rfl | hl
      · simp at hx
      · exact ⟨List.mem_cons_of_mem _ (ih l hl x hx).1, (ih l hl x hx).2⟩
    · rw [if_neg ha] at hl
      cases hsp : xs.splitOnP p with
      | nil => exact absurd hsp (List.splitOnP_ne_nil _ _)
      | cons l0 ls =>
        rw [hsp] at hl ih
        simp only [List.modifyHead] at hl
        rcases List.mem_cons.1 hl with rfl | hl
        · rcases List.mem_cons.1 hx with rfl | hx
          · exact ⟨List.mem_cons_self _ _, by simpa using ha⟩
          · have := ih l0 (List.mem_cons_self _ _) x hx
            exact ⟨List.mem_cons_of_mem _ this.1, this.2⟩
        · have := ih l (List.mem_cons_of_mem _ hl) x hx
          exact ⟨List.mem_cons_of_mem _ this.1, this.2⟩

/-- A text without its comments holds no comment mark. -/
theorem stripCommentsFrom_no_hash (text : List Char) :
    ∀ b, '#' ∉ stripCommentsFrom b text := by
  induction text with
  | nil => intro b; cases b <;> simp [stripCommentsFrom]
  | cons c text ih =>
    intro b
    cases b
    · by_cases hc : c = '#'
      · simp only [stripCommentsFrom, hc, if_true]; exact ih true
      · simp only [stripCommentsFrom, hc, if_false, List.mem_cons, not_or]
        exact ⟨fun h => hc h.symm, ih false⟩
    · by_cases hc : isEolChar c = true
      · simp only [stripCommentsFrom, hc, if_true, List.mem_cons, not_or]
        refine ⟨?_, ih false⟩
        intro h; subst h; revert hc; decide
      · simp only [stripCommentsFrom, hc, if_false]; exact ih true

/-- No token is empty, and none holds a separator or a comment mark. -/
theorem optionTokens_wellFormed (text : List Char) :
    ∀ t ∈ optionTokens text, t ≠ [] ∧ ∀ c ∈ t, isOptionSeparator c = false ∧ c ≠ '#' := by
  intro t ht
  simp only [optionTokens, List.mem_filter] at ht
  obtain ⟨hmem, hne⟩ := ht
  refine ⟨by intro h; subst h; simp at hne, ?_⟩
  intro c hc
  obtain ⟨h1, h2⟩ := mem_splitOnP isOptionSeparator _ t hmem c hc
  refine ⟨h2, ?_⟩
  intro h; subst h
  exact stripCommentsFrom_no_hash text false h1

/-! ## Lemmas on `findKeyword` and the character classes -/

theorem find_not_eq_head_dropWhile {α : Type} (p : α → Bool) (l : List α) :
    l.find? (fun c => !p c) = (l.dropWhile p).head? := by
  induction l with
  | nil => rfl
  | cons a l ih =>
    by_cases h : p a = true
    · simp [List.find?, List.dropWhile, h, ih]
    · simp [List.find?, List.dropWhile, h]

/-- The character that `peekNextChar` yields after the keyword is `,` or `)` exactly when the
first character after the keyword that is neither a space nor a tab is. -/
theorem peekNextChar_after (line : List Char) (k : Nat) :
    (TRBase.peekNextChar line ((k : Int) - 1) = ',' ∨ TRBase.peekNextChar line ((k : Int) - 1) = ')')
      ↔ ∃ c, firstNonBlankFrom line k = some c ∧ (c = ',' ∨ c = ')') := by
  have h0 : ¬ ((k : Int) - 1 + 1 < 0) := by omega
  have h1 : ((k : Int) - 1 + 1).toNat = k := by simp
  simp only [TRBase.peekNextChar, h0, if_false, h1, firstNonBlankFrom,
    find_not_eq_head_dropWhile]
  cases (List.drop k line).dropWhile TRBase.isWhiteSpace with
  | nil => simp
  | cons c r => simp

/-- A potential-header start is an index of the line. -/
theorem isCharPotentialHeader_lt (line : List Char) (i : Nat)
    (hi : TRBase.isCharPotentialHeader line i = some true) : i < line.length := by
  by_contra hge
  have hnone : (line)[i]? = none := List.getElem?_eq_none (by omega)
  simp only [TRBase.isCharPotentialHeader, TRBase.charAt, hnone] at hi
  by_cases hlen : i = line.length
  · simp only [hlen, if_true] at hi
    revert hi
    have h0 : TRBase.isLegalNameChar (Char.ofNat 0) = false := by decide
    have h1 : TRBase.isWhiteSpace (Char.ofNat 0) = false := by decide
    simp [h0, h1]
  · simp [hlen] at hi

/-- The function `findKeyword` returns at a potential-header start. -/
theorem findKeyword_returns (line keyword : List Char) (i : Nat)
    (hi : TRBase.isCharPotentialHeader line i = some true) :
    ∃ b, TRBase.findKeyword line i keyword = some b := by
  simp only [TRBase.findKeyword, hi]
  repeat' split
  all_goals exact ⟨_, rfl⟩

/-- When `findKeyword` returns true at a potential-header start. -/
theorem findKeyword_true_iff (line keyword : List Char) (i : Nat)
    (hi : TRBase.isCharPotentialHeader line i = some true) :
    TRBase.findKeyword line i keyword = some true
      ↔ OccursAt line i keyword
        ∧ (∀ c, line.get? (i + keyword.length) = some c → TRBase.isLegalNameChar c = false)
        ∧ (∀ c, firstNonBlankFrom line (i + keyword.length) = some c → c ≠ ',' ∧ c ≠ ')') := by
  simp only [TRBase.findKeyword, hi, OccursAt]
  by_cases h1 : i + keyword.length > line.length
  · rw [if_pos h1]
    constructor
    · intro h; simp at h
    · rintro ⟨hocc, -, -⟩
      have hil := isCharPotentialHeader_lt line i hi
      have := congrArg List.length hocc
      simp at this
      omega
  rw [if_neg h1]
  by_cases h2 : List.take keyword.length (List.drop i line) ≠ keyword
  · rw [if_pos h2]
    constructor
    · intro h; simp at h
    · rintro ⟨hocc, -, -⟩
      exact absurd hocc h2
  rw [if_neg h2]
  have hocc : List.take keyword.length (List.drop i line) = keyword := not_not.1 h2
  by_cases h3 : i + keyword.length = line.length
  · rw [if_pos h3]
    refine ⟨fun _ => ⟨hocc, ?_, ?_⟩, fun _ => rfl⟩
    · intro c hc
      rw [List.get?_eq_some] at hc
      obtain ⟨hlt, -⟩ := hc
      omega
    · intro c hc
      simp [firstNonBlankFrom, h3] at hc
  rw [if_neg h3]
  have hlt : i + keyword.length < line.length := by omega
  have hget : line.get? (i + keyword.length)
      = some (line.getD (i + keyword.length) (Char.ofNat 0)) := by
    rw [List.getD_eq_getElem?_getD, List.get?_eq_getElem?, List.getElem?_eq_getElem hlt]
    rfl
  by_cases h4 : TRBase.isLegalNameChar (line.getD (i + keyword.length) (Char.ofNat 0)) = true
  · rw [if_pos h4]
    constructor
    · intro h; simp at h
    · rintro ⟨-, hleg, -⟩
      have := hleg _ hget
      rw [h4] at this
      exact absurd this (by simp)
  rw [if_neg h4]
  have hp := peekNextChar_after line (i + keyword.length)
  simp only [Nat.cast_add] at hp ⊢
  by_cases h5 : TRBase.peekNextChar line ((i : Int) + (keyword.length : Int) - 1) = ','
      ∨ TRBase.peekNextChar line ((i : Int) + (keyword.length : Int) - 1) = ')'
  · rw [if_pos h5]
    constructor
    · intro h; simp at h
    · rintro ⟨-, -, hfirst⟩
      obtain ⟨c, hc, hcc⟩ := hp.1 h5
      have := hfirst c hc
      rcases hcc with rfl | rfl
      · exact absurd rfl this.1
      · exact absurd rfl this.2
  · rw [if_neg h5]
    refine ⟨fun _ => ⟨hocc, ?_, ?_⟩, fun _ => rfl⟩
    · intro c hc
      rw [hget] at hc
      simp only [Option.some.injEq] at hc
      subst hc
      simpa using h4
    · intro c hc
      constructor
      · intro hcc; exact h5 (hp.2 ⟨c, hc, Or.inl hcc⟩)
      · intro hcc; exact h5 (hp.2 ⟨c, hc, Or.inr hcc⟩)

theorem char_eq_iff_toNat (a b : Char) : a = b ↔ a.toNat = b.toNat := by
  constructor
  · intro h; rw [h]
  · intro h
    have := congrArg Char.ofNat h
    simpa [Char.ofNat_toNat] using this

/-- The value of `isLegalNameChar`. -/
theorem isLegalNameChar_iff (ch : Char) :
    TRBase.isLegalNameChar ch = true
      ↔ IsAsciiLetter ch ∨ IsAsciiDigit ch ∨ ch = '_' ∨ ch = '.' := by
  have e1 := char_eq_iff_toNat ch ' '
  have e2 := char_eq_iff_toNat ch '\t'
  have e3 := char_eq_iff_toNat ch '_'
  have e4 := char_eq_iff_toNat ch '.'
  have n1 : ' '.toNat = 32 := rfl
  have n2 : '\t'.toNat = 9 := rfl
  have n3 : '_'.toNat = 95 := rfl
  have n4 : '.'.toNat = 46 := rfl
  have n5 : 'a'.toNat = 97 := rfl
  have n6 : 'z'.toNat = 122 := rfl
  have n7 : 'A'.toNat = 65 := rfl
  have n8 : 'Z'.toNat = 90 := rfl
  have n9 : '0'.toNat = 48 := rfl
  have n10 : '9'.toNat = 57 := rfl
  simp only [TRBase.isLegalNameChar, TRBase.isWhiteSpace, TRBase.isalnum, isalpha, isdigit,
    IsAsciiLetter, IsAsciiDigit, e1, e2, e3, e4, n1, n2, n3, n4, n5, n6, n7, n8, n9, n10,
    decide_eq_true_eq, Bool.or_eq_true]
  split
  · rename_i h; constructor
    · intro h'; simp at h'
    · intro h'; omega
  · split
    · rename_i h; constructor
      · intro h'; simp at h'
      · intro h'; omega
    · simp only [Bool.or_eq_true, decide_eq_true_eq]
      constructor <;> intro h' <;> omega

/-- The value of `isCharPotentialOperator` on a character that is neither a space nor a tab. -/
theorem isCharPotentialOperator_iff (ch : Char) (hws : TRBase.isWhiteSpace ch = false) :
    (∃ b, TRBase.isCharPotentialOperator ch = some b)
    ∧ (TRBase.isCharPotentialOperator ch = some true
        ↔ IsAsciiPunctuation ch ∧ ch ∉ nonOperatorPunctuation) := by
  have e1 := char_eq_iff_toNat ch '{'
  have e2 := char_eq_iff_toNat ch '}'
  have e3 := char_eq_iff_toNat ch '('
  have e4 := char_eq_iff_toNat ch ')'
  have e5 := char_eq_iff_toNat ch '['
  have e6 := char_eq_iff_toNat ch ']'
  have e7 := char_eq_iff_toNat ch ';'
  have e8 := char_eq_iff_toNat ch ','
  have e9 := char_eq_iff_toNat ch '#'
  have e10 := char_eq_iff_toNat ch '\\'
  have e11 := char_eq_iff_toNat ch (Char.ofNat 39)
  have e12 := char_eq_iff_toNat ch (Char.ofNat 34)
  have e13 := char_eq_iff_toNat ch (Char.ofNat 92)
  have n1 : '{'.toNat = 123 := rfl
  have n2 : '}'.toNat = 125 := rfl
  have n3 : '('.toNat = 40 := rfl
  have n4 : ')'.toNat = 41 := rfl
  have n5 : '['.toNat = 91 := rfl
  have n6 : ']'.toNat = 93 := rfl
  have n7 : ';'.toNat = 59 := rfl
  have n8 : ','.toNat = 44 := rfl
  have n9 : '#'.toNat = 35 := rfl
  have n10 : '\\'.toNat = 92 := rfl
  have n11 : (Char.ofNat 39).toNat = 39 := rfl
  have n12 : (Char.ofNat 34).toNat = 34 := rfl
  have n13 : (Char.ofNat 92).toNat = 92 := rfl
  have n14 : 'a'.toNat = 97 := rfl
  have n15 : 'z'.toNat = 122 := rfl
  have n16 : 'A'.toNat = 65 := rfl
  have n17 : 'Z'.toNat = 90 := rfl
  have n18 : '0'.toNat = 48 := rfl
  have n19 : '9'.toNat = 57 := rfl
  simp only [TRBase.isCharPotentialOperator, hws, Bool.false_eq_true, if_false]
  constructor
  · split <;> exact ⟨_, rfl⟩
  · simp only [TRBase.ispunct, IsAsciiPunctuation, IsAsciiLetter, IsAsciiDigit,
      nonOperatorPunctuation, List.mem_cons, List.mem_singleton, List.not_mem_nil, or_false,
      e1, e2, e3, e4, e5, e6, e7, e8, e9, e10, e11, e12, e13, n1, n2, n3, n4, n5, n6, n7, n8,
      n9, n10, n11, n12, n13, n14, n15, n16, n17, n18, n19]
    split
    · rename_i h; constructor
      · intro h'; simp at h'
      · intro h'; omega
    · simp only [Option.some.injEq, Bool.and_eq_true, decide_eq_true_eq, bne_iff_ne, ne_eq,
        e1, e2, e3, e4, e5, e6, e7, e8, e9, e10, e11, e12, n1, n2, n3, n4, n5, n6, n7, n8,
        n9, n10, n11, n12]
      constructor <;> intro h' <;> omega

/-! ## Lemmas on the tables of `TRResource` -/

open TRResource

theorem stringLess_antisymm : ∀ (a b : List Char),
    stringLess b a = false → stringLess a b = false → a = b
  | [], [], _, _ => rfl
  | [], _ :: _, _, h => by simp [stringLess] at h
  | _ :: _, [], h, _ => by simp [stringLess] at h
  | a :: as, b :: bs, h1, h2 => by
    simp only [stringLess] at h1 h2
    by_cases hab : a.toNat < b.toNat
    · simp [hab] at h2
    · by_cases hba : b.toNat < a.toNat
      · simp [hba] at h1
      · simp only [hab, hba, if_false] at h1 h2
        have hc : a = b := (char_eq_iff_toNat a b).2 (by omega)
        rw [hc, stringLess_antisymm as bs h1 h2]

/-- Two vectors that `std::sort` with `sortOnName` may leave from the same vector are
equal. -/
theorem stdSort_sortOnName_unique (input out1 out2 : List (List Char))
    (h1 : StdSort sortOnName input out1)
    (h2 : StdSort sortOnName input out2) : out1 = out2 := by
  haveI : IsAntisymm (List Char) (fun a b => sortOnName b a = false) :=
    ⟨fun a b hab hba => stringLess_antisymm a b hab hba⟩
  exact List.eq_of_perm_of_sorted (h1.1.trans h2.1.symm) h1.2 h2.2

theorem stdSort_sortOnLength (input out : List (List Char))
    (h : StdSort sortOnLength input out) : SortedByLength out := by
  refine h.2.imp ?_
  intro a b hab
  simpa [sortOnLength] using hab

/-- In a table sorted by length a longer entry stands before a shorter one. -/
theorem sortedByLength_indexOf (table : List (List Char)) (hs : SortedByLength table)
    (a b : List Char) (ha : a ∈ table) (hb : b ∈ table) (hlt : a.length < b.length) :
    positionOf b table < positionOf a table := by
  induction table with
  | nil => simp at ha
  | cons x xs ih =>
    have hx := List.pairwise_cons.1 hs
    by_cases hxb : x = b
    · have hxa : x ≠ a := by
        intro h; rw [h] at hxb; rw [hxb] at hlt; omega
      subst hxb
      simp only [positionOf, List.findIdx_cons, hxa, decide_True, decide_False, cond_true,
        cond_false]
      omega
    · have hbxs : b ∈ xs := by
        rcases List.mem_cons.1 hb with h | h
        · exact absurd h.symm hxb
        · exact h
      by_cases hxa : x = a
      · have := hx.1 b hbxs
        rw [hxa] at this
        omega
      · have haxs : a ∈ xs := by
          rcases List.mem_cons.1 ha with h | h
          · exact absurd h.symm hxa
          · exact h
        have := ih hx.2 haxs hbxs
        simp only [positionOf, List.findIdx_cons, hxb, hxa, decide_False, cond_false] at this ⊢
        omega

theorem properPrefix_length_lt (a b : List Char) (h : ProperPrefix a b) :
    a.length < b.length := by
  obtain ⟨hm, hne⟩ := h
  unfold Matches at hm
  have hl := congrArg List.length hm
  simp only [List.length_take] at hl
  by_contra hge
  have : b.take a.length = b := List.take_of_length_le (by omega)
  rw [this] at hm
  exact hne hm.symm

/-- In a table sorted by length the first entry that matches a text is a longest entry that
matches it. -/
theorem firstMatch_longest (table : List (List Char)) (hs : SortedByLength table)
    (text f : List Char) (hf : firstMatch table text = some f) :
    f ∈ table ∧ Matches f text ∧ ∀ m ∈ table, Matches m text → m.length ≤ f.length := by
  induction table with
  | nil => simp [firstMatch] at hf
  | cons x xs ih =>
    have hx := List.pairwise_cons.1 hs
    by_cases hxm : Matches x text
    · have : f = x := by
        simp [firstMatch, List.find?, hxm] at hf
        exact hf.symm
      subst this
      refine ⟨List.mem_cons_self _ _, hxm, ?_⟩
      intro m hm _
      rcases List.mem_cons.1 hm with rfl | hm
      · exact Nat.le_refl _
      · exact hx.1 m hm
    · have hf' : firstMatch xs text = some f := by
        simpa [firstMatch, List.find?, hxm] using hf
      obtain ⟨h1, h2, h3⟩ := ih hx.2 hf'
      refine ⟨List.mem_cons_of_mem _ h1, h2, ?_⟩
      intro m hm hmm
      rcases List.mem_cons.1 hm with rfl | hm
      · exact absurd hmm hxm
      · exact h3 m hm hmm

/-- A table with an entry that matches the text has a first such entry. -/
theorem firstMatch_exists (table : List (List Char)) (text : List Char)
    (h : ∃ m ∈ table, Matches m text) : ∃ f, firstMatch table text = some f := by
  obtain ⟨m, hm, hmm⟩ := h
  cases hf : firstMatch table text with
  | some f => exact ⟨f, rfl⟩
  | none =>
    simp only [firstMatch, List.find?_eq_none] at hf
    have := hf m hm
    simp [hmm] at this

/-- The headers table is determined by the flag. -/
theorem buildHeaders_iff (beautifier : Bool) (table : List (List Char)) :
    buildHeaders [] beautifier table
      ↔ table = (if beautifier then
          [_AS_EXCEPT, _AS_FINALLY, _AS_TRY, AS_CASE, AS_CATCH, AS_DEFAULT, AS_DO, AS_ELSE,
            AS_FOR, AS_IF, AS_SWITCH, AS_TEMPLATE, AS_TRY, AS_WHILE]
        else
          [_AS_EXCEPT, _AS_FINALLY, _AS_TRY, AS_CASE, AS_CATCH, AS_DEFAULT, AS_DO, AS_ELSE,
            AS_FOR, AS_IF, AS_SWITCH, AS_TRY, AS_WHILE]) := by
  constructor
  · intro h
    cases beautifier
    · exact stdSort_sortOnName_unique _ _ _ h (by decide)
    · exact stdSort_sortOnName_unique _ _ _ h (by decide)
  · rintro rfl
    cases beautifier <;> decide

/-- The non-paren headers table is determined by the flag. -/
theorem buildNonParenHeaders_iff (beautifier : Bool) (table : List (List Char)) :
    buildNonParenHeaders [] beautifier table
      ↔ table = (if beautifier then
          [_AS_FINALLY, _AS_TRY, AS_CASE, AS_CATCH, AS_DEFAULT, AS_DO, AS_ELSE, AS_TEMPLATE,
            AS_TRY]
        else
          [_AS_FINALLY, _AS_TRY, AS_CASE, AS_CATCH, AS_DEFAULT, AS_DO, AS_ELSE, AS_TRY]) := by
  constructor
  · intro h
    cases beautifier
    · exact stdSort_sortOnName_unique _ _ _ h (by decide)
    · exact stdSort_sortOnName_unique _ _ _ h (by decide)
  · rintro rfl
    cases beautifier <;> decide

theorem buildIndentableHeaders_iff (table : List (List Char)) :
    buildIndentableHeaders [] table ↔ table = [AS_RETURN] :=
  ⟨fun h => stdSort_sortOnName_unique _ _ _ h (by decide), fun h => by subst h; decide⟩

theorem buildPreBlockStatements_iff (table : List (List Char)) :
    buildPreBlockStatements [] table ↔ table = [AS_CLASS, AS_NAMESPACE, AS_STRUCT, AS_UNION] :=
  ⟨fun h => stdSort_sortOnName_unique _ _ _ h (by decide), fun h => by subst h; decide⟩

theorem buildPreCommandHeaders_iff (table : List (List Char)) :
    buildPreCommandHeaders [] table
      ↔ table = [AS_CONST, AS_OVERRIDE, AS_SEALED, AS_VOLATILE] :=
  ⟨fun h => stdSort_sortOnName_unique _ _ _ h (by decide), fun h => by subst h; decide⟩

theorem buildPreDefinitionHeaders_iff (table : List (List Char)) :
    buildPreDefinitionHeaders [] table
      ↔ table = [AS_CLASS, AS_NAMESPACE, AS_STRUCT, AS_UNION] :=
  ⟨fun h => stdSort_sortOnName_unique _ _ _ h (by decide), fun h => by subst h; decide⟩

/-- A vector that `buildOperators` may leave. -/
theorem buildOperators_exists : ∃ table, buildOperators [] table :=
  ⟨[AS_GR_GR_GR_ASSIGN, AS_LS_LS_LS_ASSIGN, AS_GR_GR_ASSIGN, AS_GR_GR_GR, AS_LS_LS_ASSIGN,
    AS_LS_LS_LS, AS_PLUS_ASSIGN, AS_MINUS_ASSIGN, AS_MULT_ASSIGN, AS_DIV_ASSIGN,
    AS_MOD_ASSIGN, AS_OR_ASSIGN, AS_AND_ASSIGN, AS_XOR_ASSIGN, AS_EQUAL, AS_PLUS_PLUS,
    AS_MINUS_MINUS, AS_NOT_EQUAL, AS_GR_EQUAL, AS_GR_GR, AS_LS_EQUAL, AS_LS_LS,
    AS_QUESTION_QUESTION, AS_LAMBDA, AS_ARROW, AS_AND, AS_OR, AS_SCOPE_RESOLUTION,
    AS_GCC_MIN_ASSIGN, AS_GCC_MAX_ASSIGN, AS_PLUS, AS_MINUS, AS_MULT, AS_DIV, AS_MOD,
    AS_QUESTION, AS_COLON, AS_ASSIGN, AS_LS, AS_GR, AS_NOT, AS_BIT_OR, AS_BIT_AND,
    AS_BIT_NOT, AS_BIT_XOR], by decide⟩

/-- A vector that `buildAssignmentOperators` may leave. -/
theorem buildAssignmentOperators_exists : ∃ table, buildAssignmentOperators [] table :=
  ⟨[AS_LS_LS_LS_ASSIGN, AS_PLUS_ASSIGN, AS_MINUS_ASSIGN, AS_MULT_ASSIGN, AS_DIV_ASSIGN,
    AS_MOD_ASSIGN, AS_OR_ASSIGN, AS_AND_ASSIGN, AS_XOR_ASSIGN, AS_ASSIGN], by decide⟩

/-- A vector that `buildNonAssignmentOperators` may leave. -/
theorem buildNonAssignmentOperators_exists : ∃ table, buildNonAssignmentOperators [] table :=
  ⟨[AS_GR_GR_GR, AS_LS_LS_LS, AS_EQUAL, AS_PLUS_PLUS, AS_MINUS_MINUS, AS_NOT_EQUAL,
    AS_GR_EQUAL, AS_GR_GR, AS_LS_EQUAL, AS_LS_LS, AS_ARROW, AS_AND, AS_OR, AS_LAMBDA],
    by decide⟩

theorem buildOperators_nodup (table : List (List Char)) (h : buildOperators [] table) :
    table.Nodup :=
  h.1.nodup_iff.2 (by decide)

theorem buildAssignmentOperators_nodup (table : List (List Char))
    (h : buildAssignmentOperators [] table) : table.Nodup :=
  h.1.nodup_iff.2 (by decide)

theorem buildNonAssignmentOperators_nodup (table : List (List Char))
    (h : buildNonAssignmentOperators [] table) : table.Nodup :=
  h.1.nodup_iff.2 (by decide)

/-! ## Lemmas on `convertLineEnds` -/

theorem withLineEnds_crlf (t : LineEndFormat) (rest : List Char) :
    withLineEnds t ('\r' :: '\n' :: rest) = targetEOL t ++ withLineEnds t rest := by
  simp [withLineEnds]

theorem withLineEnds_lf (t : LineEndFormat) (rest : List Char) :
    withLineEnds t ('\n' :: rest) = targetEOL t ++ withLineEnds t rest := by
  cases rest with
  | nil => simp [withLineEnds, isEolChar]
  | cons d r => simp [withLineEnds, isEolChar]

theorem withLineEnds_cr (t : LineEndFormat) (rest : List Char)
    (h : rest.head? ≠ some '\n') :
    withLineEnds t ('\r' :: rest) = targetEOL t ++ withLineEnds t rest := by
  cases rest with
  | nil => simp [withLineEnds, isEolChar]
  | cons d r =>
    have hd : d ≠ '\n' := by simpa using h
    simp [withLineEnds, isEolChar, hd]

theorem withLineEnds_other (t : LineEndFormat) (c : Char) (rest : List Char)
    (hc : isEolChar c = false) :
    withLineEnds t (c :: rest) = c :: withLineEnds t rest := by
  have h1 : c ≠ '\r' := by intro h; subst h; simp [isEolChar] at hc
  cases rest with
  | nil => simp [withLineEnds, hc]
  | cons d r => simp [withLineEnds, hc, h1]

theorem getD_of_drop_cons {l : List Char} {n : Nat} {c : Char} {r : List Char}
    (h : l.drop n = c :: r) (d : Char) : l.getD n d = c := by
  rw [List.getD_eq_getElem?_getD, (drop_cons_getElem h).1]; rfl

theorem getD_of_drop_nil {l : List Char} {n : Nat} (h : l.drop n = []) (d : Char) :
    l.getD n d = d := by
  rw [List.getD_eq_getElem?_getD, drop_nil_getElem h]; rfl

/-- The loop of `convertLineEnds` ends and appends the unread text with its terminators
replaced. -/
theorem convertLoop_spec (inStr : List Char) (t : LineEndFormat)
    (ht : t ≠ .LINEEND_DEFAULT) :
    ∀ (fuel pos : Nat) (outStr : List Char), (inStr.drop pos).length ≤ fuel →
      ASConsole.convertLoop inStr t fuel pos outStr
        = some (outStr ++ withLineEnds t (inStr.drop pos)) := by
  intro fuel
  induction fuel using Nat.strong_induction_on with
  | _ fuel ih =>
    intro pos outStr hf
    cases hrest : inStr.drop pos with
    | nil =>
      have hlen : ¬ pos < inStr.length := by
        intro h
        have := congrArg List.length hrest
        simp at this; omega
      cases fuel <;> simp [ASConsole.convertLoop, hlen, withLineEnds]
    | cons c rest =>
      have hlen : pos < inStr.length := by
        have := congrArg List.length hrest
        simp at this; omega
      rw [hrest] at hf
      obtain ⟨f, rfl⟩ : ∃ f, fuel = f + 1 := ⟨fuel - 1, by simp at hf; omega⟩
      have hc := getD_of_drop_cons hrest (Char.ofNat 0)
      have hdrop1 : inStr.drop (pos + 1) = rest := (drop_cons_getElem hrest).2
      have ih1 := fun out => ih f (by omega) (pos + 1) out (by rw [hdrop1]; simp at hf; omega)
      rw [ASConsole.convertLoop]
      simp only [hlen, if_true, hc]
      by_cases hcr : c = '\r'
      · subst hcr
        simp only [if_true]
        cases rest with
        | nil =>
          have hn := getD_of_drop_nil hdrop1 (Char.ofNat 0)
          have hne : Char.ofNat 0 ≠ '\n' := by decide
          simp only [hn, hne, if_false]
          cases t <;> simp [ih1, hdrop1, withLineEnds, isEolChar, targetEOL, eolCRLF, eolLF,
            eolCR] at ht ⊢
        | cons d r =>
          have hd := getD_of_drop_cons hdrop1 (Char.ofNat 0)
          have hdrop2 : inStr.drop (pos + 1 + 1) = r := (drop_cons_getElem hdrop1).2
          simp only [hd]
          by_cases hdn : d = '\n'
          · subst hdn
            have ih2' := fun out => ih f (by omega) (pos + 1 + 1) out
              (by rw [hdrop2]; simp at hf; omega)
            simp only [if_true]
            cases t <;> simp [ih2', hdrop2, withLineEnds_crlf, targetEOL, eolCRLF, eolLF,
              eolCR] at ht ⊢
          · simp only [hdn, if_false]
            rw [withLineEnds_cr t (d :: r) (by simpa using hdn)]
            cases t <;> simp [ih1, hdrop1, targetEOL, eolCRLF, eolLF, eolCR] at ht ⊢
      · simp only [hcr, if_false]
        by_cases hcn : c = '\n'
        · subst hcn
          simp only [if_true]
          rw [withLineEnds_lf]
          cases t <;> simp [ih1, hdrop1, targetEOL, eolCRLF, eolLF, eolCR] at ht ⊢
        · simp only [hcn, if_false]
          rw [withLineEnds_other t c rest (by simp [isEolChar, hcr, hcn])]
          simp [ih1, hdrop1]

/-- The function `convertLineEnds` returns the text with its terminators replaced. -/
theorem convertLineEnds_eq (s : List Char) (t : LineEndFormat) (ht : t ≠ .LINEEND_DEFAULT) :
    ASConsole.convertLineEnds s t = some (withLineEnds t s) := by
  have h := convertLoop_spec s t ht s.length 0 [] (by simp)
  cases t <;> simp [ASConsole.convertLineEnds, h] at ht ⊢

/-- A text is empty, starts with CRLF, with a lone CR, with LF, or with another character. -/
theorem lineEnd_cases (s : List Char) :
    s = [] ∨ (∃ rest, s = '\r' :: '\n' :: rest)
    ∨ (∃ rest, s = '\r' :: rest ∧ rest.head? ≠ some '\n')
    ∨ (∃ rest, s = '\n' :: rest)
    ∨ (∃ c rest, s = c :: rest ∧ isEolChar c = false) := by
  cases s with
  | nil => exact Or.inl rfl
  | cons c rest =>
    by_cases hcr : c = '\r'
    · subst hcr
      by_cases h : rest.head? = some '\n'
      · cases rest with
        | nil => simp at h
        | cons d r =>
          simp at h; subst h
          exact Or.inr (Or.inl ⟨r, rfl⟩)
      · exact Or.inr (Or.inr (Or.inl ⟨rest, rfl, h⟩))
    · by_cases hcn : c = '\n'
      · subst hcn
        exact Or.inr (Or.inr (Or.inr (Or.inl ⟨rest, rfl⟩)))
      · exact Or.inr (Or.inr (Or.inr (Or.inr ⟨c, rest, rfl, by simp [isEolChar, hcr, hcn]⟩)))

/-- Induction over a text along its line terminators. -/
theorem lineEnd_induction (P : List Char → Prop) (hnil : P [])
    (hcrlf : ∀ rest, P rest → P ('\r' :: '\n' :: rest))
    (hcr : ∀ rest, rest.head? ≠ some '\n' → P rest → P ('\r' :: rest))
    (hlf : ∀ rest, P rest → P ('\n' :: rest))
    (hother : ∀ c rest, isEolChar c = false → P rest → P (c :: rest)) :
    ∀ s, P s := by
  have key : ∀ (n : Nat) (s : List Char), s.length = n → P s := by
    intro n
    induction n using Nat.strong_induction_on with
    | _ n ih =>
      intro s hn
      rcases lineEnd_cases s with rfl | ⟨rest, rfl⟩ | ⟨rest, rfl, h⟩ | ⟨rest, rfl⟩
        | ⟨c, rest, rfl, hc⟩
      · exact hnil
      · exact hcrlf rest (ih rest.length (by simp at hn; omega) rest rfl)
      · exact hcr rest h (ih rest.length (by simp at hn; omega) rest rfl)
      · exact hlf rest (ih rest.length (by simp at hn; omega) rest rfl)
      · exact hother c rest hc (ih rest.length (by simp at hn; omega) rest rfl)
  exact fun s => key s.length s rfl

theorem withLineEnds_linux_no_cr (s : List Char) :
    '\r' ∉ withLineEnds .LINEEND_LINUX s := by
  induction s using lineEnd_induction with
  | hnil => simp [withLineEnds]
  | hcrlf rest ih => rw [withLineEnds_crlf]; simpa [targetEOL, eolLF] using ih
  | hcr rest h ih => rw [withLineEnds_cr _ _ h]; simpa [targetEOL, eolLF] using ih
  | hlf rest ih => rw [withLineEnds_lf]; simpa [targetEOL, eolLF] using ih
  | hother c rest hc ih =>
    rw [withLineEnds_other _ _ _ hc]
    have : c ≠ '\r' := by intro h; subst h; simp [isEolChar] at hc
    simp [ih, this.symm]

theorem withLineEnds_macold_no_lf (s : List Char) :
    '\n' ∉ withLineEnds .LINEEND_MACOLD s := by
  induction s using lineEnd_induction with
  | hnil => simp [withLineEnds]
  | hcrlf rest ih => rw [withLineEnds_crlf]; simpa [targetEOL, eolCR] using ih
  | hcr rest h ih => rw [withLineEnds_cr _ _ h]; simpa [targetEOL, eolCR] using ih
  | hlf rest ih => rw [withLineEnds_lf]; simpa [targetEOL, eolCR] using ih
  | hother c rest hc ih =>
    rw [withLineEnds_other _ _ _ hc]
    have : c ≠ '\n' := by intro h; subst h; simp [isEolChar] at hc
    simp [ih, this.symm]

theorem onlyCRLF_crlf (s : List Char) (h : OnlyCRLF s) : OnlyCRLF ('\r' :: '\n' :: s) := by
  obtain ⟨h1, h2⟩ := h
  constructor
  · intro i hi
    match i with
    | 0 => rfl
    | 1 => simp at hi
    | i + 2 => exact h1 i hi
  · intro i hi
    match i with
    | 0 => simp at hi
    | 1 => exact ⟨0, rfl, rfl⟩
    | i + 2 =>
      obtain ⟨j, hj, hj'⟩ := h2 i hi
      exact ⟨j + 2, by omega, hj'⟩

theorem onlyCRLF_other (c : Char) (s : List Char) (hc : isEolChar c = false)
    (h : OnlyCRLF s) : OnlyCRLF (c :: s) := by
  obtain ⟨h1, h2⟩ := h
  have hcr : c ≠ '\r' := by intro h; subst h; simp [isEolChar] at hc
  have hcn : c ≠ '\n' := by intro h; subst h; simp [isEolChar] at hc
  constructor
  · intro i hi
    match i with
    | 0 => simp at hi; exact absurd hi hcr
    | i + 1 => exact h1 i hi
  · intro i hi
    match i with
    | 0 => simp at hi; exact absurd hi hcn
    | i + 1 =>
      obtain ⟨j, hj, hj'⟩ := h2 i hi
      exact ⟨j + 1, by omega, hj'⟩

theorem withLineEnds_windows_onlyCRLF (s : List Char) :
    OnlyCRLF (withLineEnds .LINEEND_WINDOWS s) := by
  induction s using lineEnd_induction with
  | hnil => constructor <;> intro i hi <;> simp [withLineEnds] at hi
  | hcrlf rest ih => rw [withLineEnds_crlf]; exact onlyCRLF_crlf _ ih
  | hcr rest h ih => rw [withLineEnds_cr _ _ h]; exact onlyCRLF_crlf _ ih
  | hlf rest ih => rw [withLineEnds_lf]; exact onlyCRLF_crlf _ ih
  | hother c rest hc ih => rw [withLineEnds_other _ _ _ hc]; exact onlyCRLF_other c _ hc ih

theorem withoutEolChars_targetEOL (t : LineEndFormat) (s : List Char) :
    withoutEolChars (targetEOL t ++ s) = withoutEolChars s := by
  cases t <;> simp [withoutEolChars, targetEOL, eolCRLF, eolLF, eolCR, isEolChar]

/-- Replacing the terminators leaves the other characters as they are. -/
theorem withoutEolChars_withLineEnds (t : LineEndFormat) (s : List Char) :
    withoutEolChars (withLineEnds t s) = withoutEolChars s := by
  induction s using lineEnd_induction with
  | hnil => simp [withLineEnds]
  | hcrlf rest ih =>
    rw [withLineEnds_crlf, withoutEolChars_targetEOL, ih]
    simp [withoutEolChars, isEolChar]
  | hcr rest h ih =>
    rw [withLineEnds_cr _ _ h, withoutEolChars_targetEOL, ih]
    simp [withoutEolChars, isEolChar]
  | hlf rest ih =>
    rw [withLineEnds_lf, withoutEolChars_targetEOL, ih]
    simp [withoutEolChars, isEolChar]
  | hother c rest hc ih =>
    rw [withLineEnds_other _ _ _ hc]
    simp only [withoutEolChars] at ih ⊢
    simp [hc, ih]

theorem lineEndCount_crlf (rest : List Char) :
    lineEndCount ('\r' :: '\n' :: rest) = lineEndCount rest + 1 := by
  simp [lineEndCount]

theorem lineEndCount_lf (rest : List Char) :
    lineEndCount ('\n' :: rest) = lineEndCount rest + 1 := by
  cases rest <;> simp [lineEndCount, isEolChar]

theorem lineEndCount_cr (rest : List Char) (h : rest.head? ≠ some '\n') :
    lineEndCount ('\r' :: rest) = lineEndCount rest + 1 := by
  cases rest with
  | nil => simp [lineEndCount, isEolChar]
  | cons d r =>
    have hd : d ≠ '\n' := by simpa using h
    simp [lineEndCount, isEolChar, hd]

theorem lineEndCount_other (c : Char) (rest : List Char) (hc : isEolChar c = false) :
    lineEndCount (c :: rest) = lineEndCount rest := by
  have h1 : c ≠ '\r' := by intro h; subst h; simp [isEolChar] at hc
  cases rest <;> simp [lineEndCount, hc, h1]

theorem head_ne_of_not_mem (c : Char) (s : List Char) (h : c ∉ s) : s.head? ≠ some c := by
  cases s with
  | nil => simp
  | cons d r =>
    simp only [List.head?_cons, ne_eq, Option.some.injEq]
    intro hd; subst hd; exact h (List.mem_cons_self _ _)

/-- What a terminator of an explicit target followed by a converted text counts and converts
to. -/
theorem targetEOL_step (a : LineEndFormat) (ha : a ≠ .LINEEND_DEFAULT) (rest : List Char) :
    lineEndCount (targetEOL a ++ withLineEnds a rest) = lineEndCount (withLineEnds a rest) + 1
    ∧ ∀ b, withLineEnds b (targetEOL a ++ withLineEnds a rest)
        = targetEOL b ++ withLineEnds b (withLineEnds a rest) := by
  cases a with
  | LINEEND_DEFAULT => exact absurd rfl ha
  | LINEEND_WINDOWS =>
    exact ⟨by simp [targetEOL, eolCRLF, lineEndCount_crlf],
      fun b => by simp [targetEOL, eolCRLF, withLineEnds_crlf]⟩
  | LINEEND_LINUX =>
    exact ⟨by simp [targetEOL, eolLF, lineEndCount_lf],
      fun b => by simp [targetEOL, eolLF, withLineEnds_lf]⟩
  | LINEEND_MACOLD =>
    have h := head_ne_of_not_mem '\n' _ (withLineEnds_macold_no_lf rest)
    exact ⟨by simp [targetEOL, eolCR, lineEndCount_cr _ h],
      fun b => by simp [targetEOL, eolCR, withLineEnds_cr _ _ h]⟩

/-- Replacing the terminators leaves their number as it is. -/
theorem lineEndCount_withLineEnds (t : LineEndFormat) (ht : t ≠ .LINEEND_DEFAULT)
    (s : List Char) : lineEndCount (withLineEnds t s) = lineEndCount s := by
  induction s using lineEnd_induction with
  | hnil => simp [withLineEnds]
  | hcrlf rest ih =>
    rw [withLineEnds_crlf, (targetEOL_step t ht rest).1, ih, lineEndCount_crlf]
  | hcr rest h ih =>
    rw [withLineEnds_cr _ _ h, (targetEOL_step t ht rest).1, ih, lineEndCount_cr _ h]
  | hlf rest ih =>
    rw [withLineEnds_lf, (targetEOL_step t ht rest).1, ih, lineEndCount_lf]
  | hother c rest hc ih =>
    rw [withLineEnds_other _ _ _ hc, lineEndCount_other _ _ hc, lineEndCount_other _ _ hc, ih]

/-- Replacing the terminators twice is replacing them by the second target. -/
theorem withLineEnds_withLineEnds (a b : LineEndFormat) (ha : a ≠ .LINEEND_DEFAULT)
    (s : List Char) : withLineEnds b (withLineEnds a s) = withLineEnds b s := by
  induction s using lineEnd_induction with
  | hnil => simp [withLineEnds]
  | hcrlf rest ih =>
    rw [withLineEnds_crlf, (targetEOL_step a ha rest).2, ih, withLineEnds_crlf]
  | hcr rest h ih =>
    rw [withLineEnds_cr _ _ h, (targetEOL_step a ha rest).2, ih, withLineEnds_cr _ _ h]
  | hlf rest ih =>
    rw [withLineEnds_lf, (targetEOL_step a ha rest).2, ih, withLineEnds_lf]
  | hother c rest hc ih =>
    rw [withLineEnds_other _ _ _ hc, withLineEnds_other _ _ _ hc, withLineEnds_other _ _ _ hc,
      ih]

/-! ## Lemmas on `peekNextLine` as a preview of `nextLine` -/

/-- The call `peekNextLine` on a good stream whose unread part has no terminator: the stream
has ended afterwards. -/
theorem peekNextLine_noEol (it : TRStreamIterator) (data : List Char) (pos : Nat)
    (l : List Char) (hs : it.inStream = ⟨data, pos, false, false⟩)
    (hd : data.drop pos = l) (hl : ∀ c ∈ l, isEolChar c = false) :
    ∃ it1, peekNextLine it = some (l, it1) ∧ it1.hasMoreLines = false := by
  obtain ⟨ch', h⟩ := readLine_noEol data pos l hd hl
  by_cases hp : it.peekStart = 0 <;>
    simp [peekNextLine, hasMoreLines, hp, hs, readFuel, h, IStream.eof, IStream.tellg,
      IStream.good]

/-- The call `peekNextLine` when the unread part is `l`, a terminator and nothing more: the
stream has ended afterwards. -/
theorem peekNextLine_last (it : TRStreamIterator) (data : List Char) (pos : Nat)
    (l : List Char) (t : Char) (hs : it.inStream = ⟨data, pos, false, false⟩)
    (hd : data.drop pos = l ++ [t]) (hl : ∀ c ∈ l, isEolChar c = false)
    (ht : isEolChar t = true) :
    ∃ it1, peekNextLine it = some (l, it1) ∧ it1.hasMoreLines = false := by
  have h := readLine_eol data pos l t [] hd hl ht
  have hd' : data.drop (pos + l.length + 1) = [] := by
    have := drop_add_of_append (l := l ++ [t]) (r := []) (by simpa using hd)
    simpa [Nat.add_assoc] using this
  have hg := drop_nil_getElem hd'
  by_cases hp : it.peekStart = 0 <;>
    simp [peekNextLine, hasMoreLines, hp, hs, readFuel, h, IStream.eof, IStream.tellg,
      IStream.good, IStream.peek, hg]

/-- The call `peekNextLine` when the unread part is `l`, a terminator and more: the stream is
good afterwards and stands behind the terminator. -/
theorem peekNextLine_eol (it : TRStreamIterator) (data : List Char) (pos : Nat)
    (l : List Char) (t d : Char) (r : List Char)
    (hs : it.inStream = ⟨data, pos, false, false⟩)
    (hd : data.drop pos = l ++ t :: d :: r) (hl : ∀ c ∈ l, isEolChar c = false)
    (ht : isEolChar t = true) :
    ∃ it1 pos1, peekNextLine it = some (l, it1) ∧ it1.inStream = ⟨data, pos1, false, false⟩
      ∧ data.drop pos1 = restAfterEol t (d :: r) := by
  have h := readLine_eol data pos l t (d :: r) hd hl ht
  have hd' : data.drop (pos + l.length + 1) = d :: r := by
    have := drop_add_of_append (l := l ++ [t]) (r := d :: r) (by simpa using hd)
    simpa [Nat.add_assoc] using this
  obtain ⟨hg, hd2⟩ := drop_cons_getElem hd'
  have ht' : t = '\r' ∨ t = '\n' := by simpa [isEolChar] using ht
  by_cases hpair : isEolPair t d = true
  · have htd' : (t = '\r' ∧ d = '\n') ∨ (t = '\n' ∧ d = '\r') := by
      simpa [isEolPair] using hpair
    refine ⟨{ (if it.peekStart = 0 then
        ({ it with inStream := it.inStream.tellg.1, peekStart := it.inStream.tellg.2 } :
          TRStreamIterator) else it) with
        inStream := ⟨data, pos + l.length + 1 + 1, false, false⟩ },
      pos + l.length + 1 + 1, ?_, rfl, ?_⟩
    · have hskip : (IStream.mk data (pos + l.length + 1) false false).skip
          = ⟨data, pos + l.length + 1 + 1, false, false⟩ := by
        simp [IStream.skip, IStream.get, IStream.good, hg]
      rcases htd' with ⟨h1, h2⟩ | ⟨h1, h2⟩ <;> subst h1 <;> subst h2 <;>
        by_cases hp : it.peekStart = 0 <;>
        simp [peekNextLine, hasMoreLines, hp, hs, readFuel, h, IStream.eof, IStream.tellg,
          IStream.good, IStream.peek, hg, hskip]
    · simp [restAfterEol, hpair, hd2]
  · have hpair' : isEolPair t d = false := by simpa using hpair
    have hcond : ¬ ((d = '\n' ∨ d = '\r') ∧ d ≠ t) := by
      rintro ⟨h1, h2⟩
      rcases ht' with rfl | rfl <;> rcases h1 with rfl | rfl <;>
        simp [isEolPair] at hpair' h2
    refine ⟨{ (if it.peekStart = 0 then
        ({ it with inStream := it.inStream.tellg.1, peekStart := it.inStream.tellg.2 } :
          TRStreamIterator) else it) with
        inStream := ⟨data, pos + l.length + 1, false, false⟩ },
      pos + l.length + 1, ?_, rfl, ?_⟩
    · by_cases hp : it.peekStart = 0 <;>
        simp [peekNextLine, hasMoreLines, hp, hs, readFuel, h, IStream.eof, IStream.tellg,
          IStream.good, IStream.peek, hg, hcond]
    · simp [restAfterEol, hpair', hd']

theorem peekedLines_of_ended (k : Nat) (it : TRStreamIterator)
    (h : it.hasMoreLines = false) : peekedLines (k + 1) it = none := by
  simp [peekedLines, peekNextLine, h]

/-- A run of peeks and a run of `nextLine` calls from good streams with the same unread text
return the same strings, as far as the peeks go. -/
theorem peekedLines_preview (k : Nat) :
    ∀ (itP itN : TRStreamIterator) (data : List Char) (posP posN : Nat),
      itN.peekStart = 0 → itP.inStream = ⟨data, posP, false, false⟩ →
      itN.inStream = ⟨data, posN, false, false⟩ → data.drop posP = data.drop posN →
      ∀ lines, peekedLines k itP = some lines →
      ∀ flags : List Bool, flags.length = k → nextLinesReturned flags itN = some lines := by
  induction k with
  | zero =>
    intro itP itN data posP posN _ _ _ _ lines hpk flags hfl
    have : flags = [] := List.length_eq_zero.1 hfl
    subst this
    simpa [peekedLines, nextLinesReturned] using hpk
  | succ k ih =>
    intro itP itN data posP posN hp hsP hsN hdrop lines hpk flags hfl
    obtain ⟨b, bs, rfl⟩ : ∃ b bs, flags = b :: bs := by
      cases flags with
      | nil => simp at hfl
      | cons b bs => exact ⟨b, bs, rfl⟩
    have hbs : bs.length = k := by simpa using hfl
    rcases eol_decomp (data.drop posP) with hno | ⟨l, t, tail, hd, hl, ht⟩
    · obtain ⟨it1, h1, hend⟩ := peekNextLine_noEol itP data posP _ hsP rfl hno
      have hn := nextLine_noEol itN b data posN _ hp hsN hdrop.symm hno
      cases k with
      | zero =>
        have : bs = [] := List.length_eq_zero.1 hbs
        subst this
        simp only [peekedLines, h1] at hpk
        simp only [nextLinesReturned, hn]
        exact hpk
      | succ k =>
        simp only [peekedLines, h1] at hpk
        have := peekedLines_of_ended k it1 hend
        simp only [peekedLines] at this
        rw [this] at hpk
        exact absurd hpk (by simp)
    · cases tail with
      | nil =>
        obtain ⟨it1, h1, hend⟩ := peekNextLine_last itP data posP l t hsP hd hl ht
        obtain ⟨itN1, posN1, hn, -⟩ :=
          nextLine_eol itN b data posN l t [] hp hsN (by rw [← hdrop, hd]) hl ht
        cases k with
        | zero =>
          have : bs = [] := List.length_eq_zero.1 hbs
          subst this
          simp only [peekedLines, h1] at hpk
          simp only [nextLinesReturned, hn]
          exact hpk
        | succ k =>
          simp only [peekedLines, h1] at hpk
          have := peekedLines_of_ended k it1 hend
          simp only [peekedLines] at this
          rw [this] at hpk
          exact absurd hpk (by simp)
      | cons d r =>
        obtain ⟨it1, pos1, h1, hs1, hd1⟩ := peekNextLine_eol itP data posP l t d r hsP hd hl ht
        obtain ⟨itN1, posN1, hn, hpN1, hsN1, hdN1, -⟩ :=
          nextLine_eol itN b data posN l t (d :: r) hp hsN (by rw [← hdrop, hd]) hl ht
        simp only [peekedLines, h1] at hpk
        cases hrest : peekedLines k it1 with
        | none => rw [hrest] at hpk; exact absurd hpk (by simp)
        | some ls =>
          rw [hrest] at hpk
          have hnext := ih it1 itN1 data pos1 posN1 hpN1 hs1 hsN1 (by rw [hd1, hdN1]) ls hrest
            bs hbs
          simp only [nextLinesReturned, hn, hnext]
          exact hpk

/-- From a good stream the first `peekNextLine` call returns. -/
theorem peekNextLine_returns (it : TRStreamIterator) (data : List Char) (pos : Nat)
    (hs : it.inStream = ⟨data, pos, false, false⟩) :
    ∃ line it1, peekNextLine it = some (line, it1) := by
  rcases eol_decomp (data.drop pos) with hno | ⟨l, t, tail, hd, hl, ht⟩
  · obtain ⟨it1, h1, -⟩ := peekNextLine_noEol it data pos _ hs rfl hno
    exact ⟨_, it1, h1⟩
  · cases tail with
    | nil =>
      obtain ⟨it1, h1, -⟩ := peekNextLine_last it data pos l t hs hd hl ht
      exact ⟨_, it1, h1⟩
    | cons d r =>
      obtain ⟨it1, pos1, h1, -⟩ := peekNextLine_eol it data pos l t d r hs hd hl ht
      exact ⟨_, it1, h1⟩

/-! ## Lemmas on `getCurrentWord` and on the characters of the tables -/

theorem takeWhile_eq_iff {α : Type} (p : α → Bool) (kw : List α)
    (hkw : ∀ c ∈ kw, p c = true) :
    ∀ l : List α, l.takeWhile p = kw
      ↔ l.take kw.length = kw ∧ ∀ c, l.get? kw.length = some c → p c = false := by
  induction kw with
  | nil =>
    intro l
    cases l with
    | nil => simp
    | cons a l =>
      by_cases ha : p a = true
      · simp [List.takeWhile, ha]
      · simp [List.takeWhile, ha]
  | cons k kw ih =>
    intro l
    have hk := hkw k (List.mem_cons_self _ _)
    have ih' := ih (fun c hc => hkw c (List.mem_cons_of_mem _ hc))
    cases l with
    | nil => simp
    | cons a l =>
      by_cases ha : p a = true
      · simp only [List.takeWhile, ha, List.cons.injEq, List.length_cons, List.take_succ_cons,
          List.get?_cons_succ]
        rw [ih' l]
        tauto
      · have hne : a ≠ k := by intro h; subst h; exact ha hk
        simp [List.takeWhile, ha, hne]

theorem take_length_takeWhile {α : Type} (p : α → Bool) (l : List α) :
    l.take (l.takeWhile p).length = l.takeWhile p := by
  induction l with
  | nil => rfl
  | cons a l ih =>
    by_cases ha : p a = true
    · simp [List.takeWhile, ha, ih]
    · simp [List.takeWhile, ha]

/-- The value of `getCurrentWord` at a potential-header start. -/
theorem getCurrentWord_eq (line : List Char) (i : Nat)
    (hi : TRBase.isCharPotentialHeader line i = some true) :
    TRBase.getCurrentWord line i
      = some ((line.drop i).takeWhile TRBase.isLegalNameChar) := by
  simp only [TRBase.getCurrentWord, hi, Nat.add_sub_cancel_left, take_length_takeWhile]

/-- The current word is a keyword of legal-name characters exactly when the keyword occurs
there and no legal-name character follows it. -/
theorem getCurrentWord_eq_iff (line keyword : List Char) (i : Nat)
    (hi : TRBase.isCharPotentialHeader line i = some true)
    (hleg : ∀ c ∈ keyword, TRBase.isLegalNameChar c = true) :
    TRBase.getCurrentWord line i = some keyword
      ↔ OccursAt line i keyword
        ∧ ∀ c, line.get? (i + keyword.length) = some c → TRBase.isLegalNameChar c = false := by
  rw [getCurrentWord_eq line i hi, Option.some.injEq,
    takeWhile_eq_iff TRBase.isLegalNameChar keyword hleg (line.drop i)]
  simp only [OccursAt, List.get?_eq_getElem?, List.getElem?_drop]

/-! ## The claims -/

/-- C1. Reading a text with `nextLine` while `hasMoreLines` holds ends (any bound above the
length of the text is enough) and returns, in order, exactly the lines of the text: the pieces
between successive terminators CRLF, LFCR, CR, LF, a two-character terminator being taken
whenever possible. Joining these lines with the terminators gives the text back, no line holds
a CR or LF, and a text with n terminators gives n + 1 lines (the empty text gives one empty
line). -/
theorem C1_nextLine_returns_lines (input : List Char) (flags : Nat → Bool) (k : Nat) :
    (readLines flags (input.length + 1 + k) 0 (TRStreamIterator.new (IStream.ofInput input))).map
        Prod.fst = some (splitLines input)
    ∧ joinLines (splitLines input) (terminators input) = input
    ∧ (∀ l ∈ splitLines input, ∀ c ∈ l, c ≠ '\r' ∧ c ≠ '\n')
    ∧ (splitLines input).length = (terminators input).length + 1
    ∧ splitLines [] = [[]] := by
  refine ⟨?_, joinLines_splitLines input, splitLines_no_eol input, splitLines_length input, rfl⟩
  obtain ⟨it', h, -⟩ := readLines_run flags input.length (TRStreamIterator.new (IStream.ofInput input))
    input 0 0 (input.length + 1 + k) rfl rfl (by simp) (by omega)
  simp only [List.drop_zero] at h
  rw [h]; rfl

/-- C2 at its failing input: reading the text "a\n" to its end returns the two lines "a" and
"", so its one terminator, a lone LF, has been stripped, and the three counters add up to 0:
no counter was incremented for it. -/
theorem C2_final_terminator_not_counted :
    (readLines (fun _ => false) 3 0 (TRStreamIterator.new (IStream.ofInput ['a', '\n']))).map
        (fun r => (r.1, r.2.eolWindows + r.2.eolLinux + r.2.eolMacOld))
      = some ([['a'], []], 0)
    ∧ terminators ['a', '\n'] = [Terminator.lf] := by
  decide

/-- C3. After every `nextLine` call that did not end at end-of-input, the output EOL is the one
the majority rule gives for the counters as they stand after the call; and the nested
comparison of the code agrees with the rule for all counter values. -/
theorem C3_outputEOL_majority (it it1 : TRStreamIterator) (b : Bool) (line : List Char)
    (h : nextLine it b = some (line, it1)) (hm : it1.hasMoreLines = true) :
    it1.getOutputEOL = majorityEOL it1.eolWindows it1.eolLinux it1.eolMacOld
    ∧ ∀ jt : TRStreamIterator,
        (setOutputEOL jt).getOutputEOL = majorityEOL jt.eolWindows jt.eolLinux jt.eolMacOld := by
  refine ⟨?_, fun jt => setOutputEOL_outputEOL jt⟩
  unfold nextLine at h
  split at h
  · exact absurd h (by simp)
  · simp only at h
    split at h
    · exact absurd h (by simp)
    · rename_i st ch buf _
      split at h
      · rename_i he
        simp only [Option.some.injEq, Prod.mk.injEq] at h
        rw [← h.2] at hm
        simp [hasMoreLines, he] at hm
      · simp only [Option.some.injEq, Prod.mk.injEq] at h
        rw [← h.2]
        simp [getOutputEOL, setOutputEOL_outputEOL]

/-- C3 at a concrete call: the first `nextLine` on "a\nb" strips an LF, more lines follow, and
the output EOL is the one of the majority rule. -/
theorem C3_outputEOL_majority_witness :
    (TRStreamIterator.new (IStream.ofInput ['a', '\n', 'b'])).nextLine false
      = some (['a'], { TRStreamIterator.new ⟨['a', '\n', 'b'], 2, false, false⟩ with
          buffer := ['a'], eolLinux := 1, outputEOL := eolLF })
    ∧ ({ TRStreamIterator.new ⟨['a', '\n', 'b'], 2, false, false⟩ with
          buffer := ['a'], eolLinux := 1, outputEOL := eolLF } : TRStreamIterator).hasMoreLines
        = true
    ∧ ({ TRStreamIterator.new ⟨['a', '\n', 'b'], 2, false, false⟩ with
          buffer := ['a'], eolLinux := 1, outputEOL := eolLF } : TRStreamIterator).getOutputEOL
        = majorityEOL 0 1 0 :=
  ⟨by decide, by decide,
   (C3_outputEOL_majority (TRStreamIterator.new (IStream.ofInput ['a', '\n', 'b']))
      { TRStreamIterator.new ⟨['a', '\n', 'b'], 2, false, false⟩ with
        buffer := ['a'], eolLinux := 1, outputEOL := eolLF }
      false ['a'] (by decide) (by decide)).1⟩

/-- C4 at its failing input: on the text "a\n", whose only terminator is a lone LF, the first
`nextLine` call strips the LF (the line "a" is returned, the get position is 2 and more lines
are announced), no counter has been incremented, `getOutputEOL` is CRLF, and with the default
line-end setting the console takes CRLF as its output EOL. -/
theorem C4_lone_final_LF_gives_CRLF :
    ((TRStreamIterator.new (IStream.ofInput ['a', '\n'])).nextLine false).map
        (fun r => (r.1, r.2.hasMoreLines, r.2.inStream.pos,
          r.2.eolWindows, r.2.eolLinux, r.2.eolMacOld, r.2.getOutputEOL))
      = some (['a'], true, 2, 0, 0, 0, eolCRLF)
    ∧ terminators ['a', '\n'] = [Terminator.lf]
    ∧ ((ASConsole.mk true false [] []).initializeOutputEOL .LINEEND_DEFAULT).setOutputEOL
        .LINEEND_DEFAULT eolCRLF
        = ASConsole.mk true false eolCRLF eolCRLF
    ∧ eolCRLF ≠ eolLF :=
  ⟨rfl, by decide, by decide, by decide⟩

/-- C5. `getLineEndChange(f)` is true iff a counted line end differs from the requested
style: for Windows iff `eolLinux + eolMacOld > 0`, for Linux iff `eolWindows + eolMacOld > 0`,
for old Mac iff `eolWindows + eolLinux > 0`, and for the default iff line ends of at least two
different kinds have been counted. -/
theorem C5_getLineEndChange (it : TRStreamIterator) :
    (it.getLineEndChange .LINEEND_WINDOWS = true ↔ it.eolLinux + it.eolMacOld > 0)
    ∧ (it.getLineEndChange .LINEEND_LINUX = true ↔ it.eolWindows + it.eolMacOld > 0)
    ∧ (it.getLineEndChange .LINEEND_MACOLD = true ↔ it.eolWindows + it.eolLinux > 0)
    ∧ (it.getLineEndChange .LINEEND_DEFAULT = true ↔
        (it.eolWindows > 0 ∧ it.eolLinux > 0) ∨ (it.eolWindows > 0 ∧ it.eolMacOld > 0)
          ∨ (it.eolLinux > 0 ∧ it.eolMacOld > 0)) := by
  refine ⟨?_, ?_, ?_, ?_⟩
  · simp [getLineEndChange]; omega
  · simp [getLineEndChange]; omega
  · simp [getLineEndChange]; omega
  · simp only [getLineEndChange]
    split
    · simp; omega
    · split
      · simp; omega
      · split
        · simp; omega
        · simp; omega

/-- C6 at its failing input: on "a\nb\nc", from the initial state, two `peekNextLine` calls
followed by `peekReset` leave the get position at 2 instead of 0, so that the next `nextLine`
returns "b" where it would have returned "a"; with a single peek the assertion of `peekReset`
fails. -/
theorem C6_peek_from_initial_state :
    (TRStreamIterator.new (IStream.ofInput ['a', '\n', 'b', '\n', 'c'])).hasMoreLines = true
    ∧ (TRStreamIterator.new (IStream.ofInput ['a', '\n', 'b', '\n', 'c'])).inStream.pos = 0
    ∧ (peeksThenReset 2 (TRStreamIterator.new (IStream.ofInput ['a', '\n', 'b', '\n', 'c']))).map
        (fun it => it.inStream.pos) = some 2
    ∧ ((peeksThenReset 2
          (TRStreamIterator.new (IStream.ofInput ['a', '\n', 'b', '\n', 'c']))).bind
        (fun it => it.nextLine false)).map Prod.fst = some ['b']
    ∧ ((TRStreamIterator.new (IStream.ofInput ['a', '\n', 'b', '\n', 'c'])).nextLine false).map
        Prod.fst = some ['a']
    ∧ peeksThenReset 1 (TRStreamIterator.new (IStream.ofInput ['a', '\n', 'b', '\n', 'c']))
        = none := by
  decide

/-- C7. When `nextLine` has returned `line`, then after any run of peeks and peek resets, once
the stream is at end-of-stream, `saveLastInputLine` succeeds, changes nothing but the previous
line buffer, and makes `compareToInputBuffer(s)` true iff `s = line`; and a `nextLine(false)`
call in that place makes `compareToInputBuffer(s)` true iff `s = line` as well. -/
theorem C7_saveLastInputLine (it it1 it2 : TRStreamIterator) (b : Bool) (line : List Char)
    (h1 : nextLine it b = some (line, it1)) (hp : PeekRun it1 it2) :
    (it2.inStream.eof = true →
      ∃ it3, saveLastInputLine it2 = some it3
        ∧ it3 = { it2 with prevBuffer := it3.prevBuffer }
        ∧ ∀ s, it3.compareToInputBuffer s = true ↔ s = line)
    ∧ (∀ line' it3, nextLine it2 false = some (line', it3) →
        ∀ s, it3.compareToInputBuffer s = true ↔ s = line) := by
  have hb : it2.buffer = line := by
    rw [hp.buffer_eq, nextLine_buffer it it1 b line h1]
  constructor
  · intro he
    refine ⟨{ it2 with prevBuffer := it2.buffer }, by simp [saveLastInputLine, he], rfl, ?_⟩
    intro s
    simp [compareToInputBuffer, hb]
  · intro line' it3 h3 s
    have := nextLine_prevBuffer_false it2 it3 line' h3
    simp [compareToInputBuffer, this, hb]

/-- C7 at a concrete run: "a" is read to the end of the stream and saved. -/
theorem C7_saveLastInputLine_witness :
    (TRStreamIterator.new (IStream.ofInput ['a'])).nextLine false
      = some (['a'], { TRStreamIterator.new ⟨['a'], 1, true, true⟩ with buffer := ['a'] })
    ∧ ∃ it3, saveLastInputLine
          { TRStreamIterator.new ⟨['a'], 1, true, true⟩ with buffer := ['a'] } = some it3
        ∧ it3 = { ({ TRStreamIterator.new ⟨['a'], 1, true, true⟩ with buffer := ['a'] } :
            TRStreamIterator) with prevBuffer := it3.prevBuffer }
        ∧ ∀ s, it3.compareToInputBuffer s = true ↔ s = ['a'] :=
  ⟨by decide,
   (C7_saveLastInputLine (TRStreamIterator.new (IStream.ofInput ['a']))
      { TRStreamIterator.new ⟨['a'], 1, true, true⟩ with buffer := ['a'] }
      { TRStreamIterator.new ⟨['a'], 1, true, true⟩ with buffer := ['a'] }
      false ['a'] (by decide) (PeekRun.done _)).1 (by decide)⟩

/-- C8. An explicit line-end option is always used: after `initializeOutputEOL(f)` the output
EOL is CRLF for Windows, LF for Linux and CR for old Mac, with `lineEndsMixed` false; every
later `setOutputEOL(f, e)`, whatever the detected input EOL `e`, leaves `outputEOL` and
`lineEndsMixed` as they are; so every line end the driver writes is that of the option, and
with `lineend=linux` no CR is written. -/
theorem C8_explicit_lineend_is_used :
    (∀ c : ASConsole,
      (c.initializeOutputEOL .LINEEND_WINDOWS).outputEOL = eolCRLF
      ∧ (c.initializeOutputEOL .LINEEND_LINUX).outputEOL = eolLF
      ∧ (c.initializeOutputEOL .LINEEND_MACOLD).outputEOL = eolCR
      ∧ (c.initializeOutputEOL .LINEEND_WINDOWS).lineEndsMixed = false
      ∧ (c.initializeOutputEOL .LINEEND_LINUX).lineEndsMixed = false
      ∧ (c.initializeOutputEOL .LINEEND_MACOLD).lineEndsMixed = false)
    ∧ (∀ (c : ASConsole) (e : List Char),
      (c.setOutputEOL .LINEEND_WINDOWS e).outputEOL = c.outputEOL
      ∧ (c.setOutputEOL .LINEEND_WINDOWS e).lineEndsMixed = c.lineEndsMixed
      ∧ (c.setOutputEOL .LINEEND_LINUX e).outputEOL = c.outputEOL
      ∧ (c.setOutputEOL .LINEEND_LINUX e).lineEndsMixed = c.lineEndsMixed
      ∧ (c.setOutputEOL .LINEEND_MACOLD e).outputEOL = c.outputEOL
      ∧ (c.setOutputEOL .LINEEND_MACOLD e).lineEndsMixed = c.lineEndsMixed)
    ∧ (∀ (c : ASConsole) (es : List (List Char)),
      (ASConsole.writeEOLs .LINEEND_WINDOWS (c.initializeOutputEOL .LINEEND_WINDOWS) es).1
        = List.replicate es.length eolCRLF
      ∧ (ASConsole.writeEOLs .LINEEND_LINUX (c.initializeOutputEOL .LINEEND_LINUX) es).1
        = List.replicate es.length eolLF
      ∧ (ASConsole.writeEOLs .LINEEND_MACOLD (c.initializeOutputEOL .LINEEND_MACOLD) es).1
        = List.replicate es.length eolCR
      ∧ ∀ w ∈ (ASConsole.writeEOLs .LINEEND_LINUX (c.initializeOutputEOL .LINEEND_LINUX) es).1,
          '\r' ∉ w) := by
  refine ⟨fun c => ⟨rfl, rfl, rfl, rfl, rfl, rfl⟩, ?_, ?_⟩
  · intro c e
    obtain ⟨h1, h2⟩ := ASConsole.setOutputEOL_explicit c .LINEEND_WINDOWS (by decide) e
    obtain ⟨h3, h4⟩ := ASConsole.setOutputEOL_explicit c .LINEEND_LINUX (by decide) e
    obtain ⟨h5, h6⟩ := ASConsole.setOutputEOL_explicit c .LINEEND_MACOLD (by decide) e
    exact ⟨h1, h2, h3, h4, h5, h6⟩
  · intro c es
    have h1 := (ASConsole.writeEOLs_explicit .LINEEND_WINDOWS (by decide) es
      (c.initializeOutputEOL .LINEEND_WINDOWS)).1
    have h2 := (ASConsole.writeEOLs_explicit .LINEEND_LINUX (by decide) es
      (c.initializeOutputEOL .LINEEND_LINUX)).1
    have h3 := (ASConsole.writeEOLs_explicit .LINEEND_MACOLD (by decide) es
      (c.initializeOutputEOL .LINEEND_MACOLD)).1
    refine ⟨h1, h2, h3, ?_⟩
    intro w hw
    rw [h2] at hw
    have := List.eq_of_mem_replicate hw
    rw [this]
    simp [ASConsole.initializeOutputEOL, eolLF]

/-- C9. A single-dash argument is parsed as the short options that `splitShort` lists: a new
option starts before every alphabetic character at index 2 or more that does not directly
follow an `x`, and nowhere else. Parsing the argument has the same effect, on every state and
with every error heading, as parsing its pieces as separate single-dash arguments: "-bps4"
behaves as "-b", "-p", "-s4", and "-xj" is the one option "xj". -/
theorem C9_short_options_split (o : ASOptions) (arg e : List Char)
    (h : isSingleDash arg = true) :
    o.parseOptions [arg] e
        = ((splitShort arg).foldl (fun o p => o.parseOption p e) o,
           decide (((splitShort arg).foldl
              (fun o p => o.parseOption p e) o).optionErrors.length = 0))
    ∧ o.parseOptions [arg] e = o.parseOptions ((splitShort arg).map (fun p => '-' :: p)) e
    ∧ splitShort "-bps4".toList = ["b".toList, "p".toList, "s4".toList]
    ∧ splitShort "-xj".toList = ["xj".toList]
    ∧ o.parseOptions ["-bps4".toList] e
        = o.parseOptions ["-b".toList, "-p".toList, "-s4".toList] e
    ∧ o.parseOptions ["-xj".toList] e
        = (o.parseOption "xj".toList e,
           decide ((o.parseOption "xj".toList e).optionErrors.length = 0)) := by
  refine ⟨parseOptions_singleDash o arg e h, parseOptions_split o arg e h, by decide,
    by decide, ?_, ?_⟩
  · exact parseOptions_split o "-bps4".toList e (by decide)
  · exact parseOptions_singleDash o "-xj".toList e (by decide)

/-- C9 at a concrete argument: "-bps4" is a single-dash argument. -/
theorem C9_short_options_split_witness :
    isSingleDash "-bps4".toList = true
    ∧ ASOptions.new.parseOptions ["-bps4".toList] []
        = ASOptions.new.parseOptions ["-b".toList, "-p".toList, "-s4".toList] [] :=
  ⟨by decide, (C9_short_options_split ASOptions.new "-bps4".toList [] (by decide)).2.1⟩

/-- C10. On a freshly constructed `ASOptions`, for every options vector: every option string
is handed to `parseOption` (the calls of all accepted options are made, in order), the error
text is empty when no option is invalid and otherwise is the `errorInfo` line followed by one
line for each invalid option, in input order, and `parseOptions` returns true exactly when no
option is invalid. An unknown option such as "foo" is invalid, and so is "s1", whose
parameter is out of range, while "s4" is accepted. -/
theorem C10_all_errors_reported (v : List (List Char)) (errorInfo : List Char) :
    (ASOptions.new.parseOptions v errorInfo).1.getOptionErrors
        = (if (v.flatMap optionsOfArg).filter isInvalidOption = [] then []
           else errorInfo ++ ['\n']
            ++ errorLines ((v.flatMap optionsOfArg).filter isInvalidOption))
    ∧ (ASOptions.new.parseOptions v errorInfo).2
        = decide ((v.flatMap optionsOfArg).filter isInvalidOption = [])
    ∧ (ASOptions.new.parseOptions v errorInfo).1.calls
        = (v.flatMap optionsOfArg).flatMap (fun p => (optionAction p).getD [])
    ∧ isInvalidOption "foo".toList = true
    ∧ isInvalidOption "s1".toList = true
    ∧ isInvalidOption "s4".toList = false := by
  have herr := foldl_parseOption_errors errorInfo (v.flatMap optionsOfArg) ASOptions.new
  have hcalls := foldl_parseOption_calls errorInfo (v.flatMap optionsOfArg) ASOptions.new
  rw [parseOptions_spec]
  simp only [getOptionErrors]
  refine ⟨?_, ?_, ?_, by decide, by decide, by decide⟩
  · rw [herr]; simp [ASOptions.new]
  · rw [herr]
    by_cases hb : (v.flatMap optionsOfArg).filter isInvalidOption = []
    · simp [hb, ASOptions.new]
    · simp [hb, ASOptions.new]
  · rw [hcalls]; simp [ASOptions.new]

/-- C11 at its failing input: on an `ASOptions` object whose earlier `parseOptions` call
reported the unknown option "foo", a call with the vector ["-p"], whose one option "p" is
valid, returns false, and the error text is still that of the earlier call; on a fresh
object the same call returns true. -/
theorem C11_earlier_errors_make_the_call_fail :
    ((ASOptions.new.parseOptions ["foo".toList] "E".toList).1.parseOptions
        ["-p".toList] "E".toList).2 = false
    ∧ ((ASOptions.new.parseOptions ["foo".toList] "E".toList).1.parseOptions
        ["-p".toList] "E".toList).1.getOptionErrors = "E\nfoo\n".toList
    ∧ optionsOfArg "-p".toList = ["p".toList]
    ∧ isInvalidOption "p".toList = false
    ∧ (ASOptions.new.parseOptions ["-p".toList] "E".toList).2 = true :=
  ⟨rfl, rfl, rfl, rfl, rfl⟩

/-- C12, amended. Every indent or tab length that `parseOption` hands to `setSpaceIndentation`,
`setTabIndentation` or `setForceTabXIndentation` lies in 2..20; and a spaces, tab, force-tab
or force-tab-x option, in its short form (`s`, `t`, `T` followed by a number, `xT` followed by
a parameter) or its long form, whose parameter, as `atoi` reads it into an `int`, has a value
outside 2..20 is reported as an error and makes no call. -/
theorem C12_indent_length_in_range :
    (∀ (arg : List Char) (cs : List Call), optionAction arg = some cs → ∀ (n : Int) (b : Bool),
        (Call.setSpaceIndentation n ∈ cs ∨ Call.setTabIndentation n b ∈ cs
          ∨ Call.setForceTabXIndentation n ∈ cs) → 2 ≤ n ∧ n ≤ 20)
    ∧ (∀ (d : Char) (r : List Char), isdigit d = true →
        (atoi (d :: r) < 2 ∨ atoi (d :: r) > 20) →
        ∀ p ∈ ["s", "t", "T"], IsReported (p.toList ++ d :: r))
    ∧ (∀ param : List Char, param ≠ [] → (atoi param < 2 ∨ atoi param > 20) →
        ∀ p ∈ ["xT", "indent=spaces=", "indent=tab=", "indent=force-tab=",
          "indent=force-tab-x="], IsReported (p.toList ++ param))
    ∧ IsReported "s1".toList ∧ IsReported "indent=spaces=21".toList
    ∧ optionAction "s20".toList = some [Call.setSpaceIndentation 20]
    ∧ optionAction "indent=force-tab-x=2".toList = some [Call.setForceTabXIndentation 2] := by
  refine ⟨?_, ?_, ?_, isReported_of_none _ rfl, isReported_of_none _ rfl, rfl, rfl⟩
  · intro arg cs h n b hn
    have hall := optionAction_lengthInRange arg cs h
    rcases hn with hn | hn | hn
    · exact hall _ hn
    · exact hall _ hn
    · exact hall _ hn
  · intro d r hd hv p hp
    simp only [List.mem_cons, List.mem_singleton, List.not_mem_nil, or_false] at hp
    rcases hp with rfl | rfl | rfl
    · exact isReported_of_none _ (optionAction_s_out_of_range d r hd hv)
    · exact isReported_of_none _ (optionAction_t_out_of_range d r hd hv)
    · exact isReported_of_none _ (optionAction_T_out_of_range d r hd hv)
  · intro param hp hv p hpm
    simp only [List.mem_cons, List.mem_singleton, List.not_mem_nil, or_false] at hpm
    rcases hpm with rfl | rfl | rfl | rfl | rfl
    · exact isReported_of_none _ (optionAction_xT_out_of_range param hp hv)
    · exact isReported_of_none _ (optionAction_indent_spaces_out_of_range param hp hv)
    · exact isReported_of_none _ (optionAction_indent_tab_out_of_range param hp hv)
    · exact isReported_of_none _ (optionAction_indent_force_tab_out_of_range param hp hv)
    · exact isReported_of_none _ (optionAction_indent_force_tab_x_out_of_range param hp hv)

/-- C12, as stated, fails: the number written in the option "s4294967300" is outside 2..20,
but `atoi` reads it into an `int` as 4, so the option makes the call `setSpaceIndentation(4)`
and no error is reported; the same holds for the long form. -/
theorem C12_length_beyond_int_is_accepted :
    digitsValue 0 "4294967300".toList = 4294967300
    ∧ atoi "4294967300".toList = 4
    ∧ optionAction "s4294967300".toList = some [Call.setSpaceIndentation 4]
    ∧ optionAction "indent=spaces=4294967300".toList = some [Call.setSpaceIndentation 4]
    ∧ ASOptions.new.parseOptions ["-s4294967300".toList] "E".toList
        = ({ calls := [Call.setSpaceIndentation 4], optionErrors := [] }, true) :=
  ⟨rfl, rfl, rfl, rfl, rfl⟩

/-- C13 at its failing input: the short option "xC10" makes the call `setMaxCodeLength(10)`
and no error is reported, while the long form with the same value is reported as an
error. -/
theorem C13_xC_accepts_a_value_below_50 :
    optionAction "xC10".toList = some [Call.setMaxCodeLength 10]
    ∧ ASOptions.new.parseOptions ["-xC10".toList] "E".toList
        = ({ calls := [Call.setMaxCodeLength 10], optionErrors := [] }, true)
    ∧ optionAction "max-code-length=10".toList = none :=
  ⟨rfl, rfl, rfl⟩

/-- C14 at its failing input: the option "min-conditional-indent=-1" makes the call
`setMinConditionalIndentOption(-1)` and no error is reported. -/
theorem C14_negative_min_conditional_indent_is_accepted :
    optionAction "min-conditional-indent=-1".toList
      = some [Call.setMinConditionalIndentOption (-1)]
    ∧ ASOptions.new.parseOptions ["--min-conditional-indent=-1".toList] "E".toList
        = ({ calls := [Call.setMinConditionalIndentOption (-1)], optionErrors := [] }, true)
    ∧ optionAction "min-conditional-indent=4".toList = none :=
  ⟨rfl, rfl, rfl⟩

/-- C15, amended. Each bracket style is selected by its number and by each of its names with
the same `setFormattingStyle` call: A1 allman, ansi, bsd, break; A2 java, attach; A3 kr, k&r,
k/r; A4 stroustrup; A5 whitesmith; A6 banner; A7 gnu; A8 linux, knf; A9 horstmann; A10 1tbs,
otbs; A11 pico; A12 lisp; A14 google. Every `A` followed by a number that `atoi` reads into
an `int` as none of 1..12 and 14 is reported as an error, for instance A0, A13 and A15. -/
theorem C15_style_by_name_and_number :
    optionAction "A1".toList = some [Call.setFormattingStyle FormatStyle.STYLE_ALLMAN]
    ∧ optionAction "style=allman".toList = optionAction "A1".toList
    ∧ optionAction "style=ansi".toList = optionAction "A1".toList
    ∧ optionAction "style=bsd".toList = optionAction "A1".toList
    ∧ optionAction "style=break".toList = optionAction "A1".toList
    ∧ optionAction "A2".toList = some [Call.setFormattingStyle FormatStyle.STYLE_JAVA]
    ∧ optionAction "style=java".toList = optionAction "A2".toList
    ∧ optionAction "style=attach".toList = optionAction "A2".toList
    ∧ optionAction "A3".toList = some [Call.setFormattingStyle FormatStyle.STYLE_KR]
    ∧ optionAction "style=kr".toList = optionAction "A3".toList
    ∧ optionAction "style=k&r".toList = optionAction "A3".toList
    ∧ optionAction "style=k/r".toList = optionAction "A3".toList
    ∧ optionAction "A4".toList = some [Call.setFormattingStyle FormatStyle.STYLE_STROUSTRUP]
    ∧ optionAction "style=stroustrup".toList = optionAction "A4".toList
    ∧ optionAction "A5".toList = some [Call.setFormattingStyle FormatStyle.STYLE_WHITESMITH]
    ∧ optionAction "style=whitesmith".toList = optionAction "A5".toList
    ∧ optionAction "A6".toList = some [Call.setFormattingStyle FormatStyle.STYLE_BANNER]
    ∧ optionAction "style=banner".toList = optionAction "A6".toList
    ∧ optionAction "A7".toList = some [Call.setFormattingStyle FormatStyle.STYLE_GNU]
    ∧ optionAction "style=gnu".toList = optionAction "A7".toList
    ∧ optionAction "A8".toList = some [Call.setFormattingStyle FormatStyle.STYLE_LINUX]
    ∧ optionAction "style=linux".toList = optionAction "A8".toList
    ∧ optionAction "style=knf".toList = optionAction "A8".toList
    ∧ optionAction "A9".toList = some [Call.setFormattingStyle FormatStyle.STYLE_HORSTMANN]
    ∧ optionAction "style=horstmann".toList = optionAction "A9".toList
    ∧ optionAction "A10".toList = some [Call.setFormattingStyle FormatStyle.STYLE_1TBS]
    ∧ optionAction "style=1tbs".toList = optionAction "A10".toList
    ∧ optionAction "style=otbs".toList = optionAction "A10".toList
    ∧ optionAction "A11".toList = some [Call.setFormattingStyle FormatStyle.STYLE_PICO]
    ∧ optionAction "style=pico".toList = optionAction "A11".toList
    ∧ optionAction "A12".toList = some [Call.setFormattingStyle FormatStyle.STYLE_LISP]
    ∧ optionAction "style=lisp".toList = optionAction "A12".toList
    ∧ optionAction "A14".toList = some [Call.setFormattingStyle FormatStyle.STYLE_GOOGLE]
    ∧ optionAction "style=google".toList = optionAction "A14".toList
    ∧ (∀ (d : Char) (r : List Char), isdigit d = true →
        atoi (d :: r) ∉ [(1 : Int), 2, 3, 4, 5, 6, 7, 8, 9, 10, 11, 12, 14] →
        IsReported ("A".toList ++ d :: r))
    ∧ IsReported "A0".toList ∧ IsReported "A13".toList ∧ IsReported "A15".toList :=
  ⟨rfl, rfl, rfl, rfl, rfl, rfl, rfl, rfl, rfl, rfl, rfl, rfl, rfl, rfl, rfl, rfl, rfl, rfl, rfl, rfl, rfl, rfl, rfl, rfl, rfl, rfl, rfl, rfl, rfl, rfl, rfl, rfl, rfl, rfl,
   fun d r hd hv => isReported_of_none _ (optionAction_A_other d r hd hv),
   isReported_of_none _ rfl, isReported_of_none _ rfl, isReported_of_none _ rfl⟩

/-- C15, as stated, fails: the number written in the option "A4294967297" is none of 1..12
and 14, but `atoi` reads it into an `int` as 1, so the option makes the call
`setFormattingStyle(STYLE_ALLMAN)`, as "A1" does, and no error is reported. -/
theorem C15_style_number_beyond_int_is_accepted :
    digitsValue 0 "4294967297".toList = 4294967297
    ∧ atoi "4294967297".toList = 1
    ∧ optionAction "A4294967297".toList
        = some [Call.setFormattingStyle FormatStyle.STYLE_ALLMAN]
    ∧ ASOptions.new.parseOptions ["-A4294967297".toList] "E".toList
        = ({ calls := [Call.setFormattingStyle FormatStyle.STYLE_ALLMAN],
             optionErrors := [] }, true) :=
  ⟨rfl, rfl, rfl, rfl⟩

/-- C16. The short option "xd" keeps its first binding: `parseOption("xd")` does exactly what
`parseOption("pad-first-paren-out")` does, the one call `setParensFirstPaddingMode(true)`,
and makes no call of `setDeleteEmptyLinesMode`. -/
theorem C16_xd_is_pad_first_paren_out :
    optionAction "xd".toList = some [Call.setParensFirstPaddingMode true]
    ∧ optionAction "pad-first-paren-out".toList = some [Call.setParensFirstPaddingMode true]
    ∧ (∀ (o : ASOptions) (e : List Char),
        o.parseOption "xd".toList e = o.parseOption "pad-first-paren-out".toList e
        ∧ o.parseOption "xd".toList e
            = { o with calls := o.calls ++ [Call.setParensFirstPaddingMode true] })
    ∧ ∀ b : Bool, Call.setDeleteEmptyLinesMode b ∉ [Call.setParensFirstPaddingMode true] := by
  have h1 : optionAction "xd".toList = some [Call.setParensFirstPaddingMode true] := rfl
  have h2 : optionAction "pad-first-paren-out".toList
      = some [Call.setParensFirstPaddingMode true] := rfl
  refine ⟨h1, h2, fun o e => ?_, fun b => by simp⟩
  constructor <;> simp only [parseOption, h1, h2]

/-- C17, amended. The short option of `--delete-empty-lines` is `-xe`: `parseOptions(["-xe"])`
and `parseOptions(["--delete-empty-lines"])` have the same effect, the one call
`setDeleteEmptyLinesMode(true)`; `-xd` has the effect of `--pad-first-paren-out`. -/
theorem C17_xe_is_delete_empty_lines (o : ASOptions) (e : List Char) :
    o.parseOptions ["-xe".toList] e = o.parseOptions ["--delete-empty-lines".toList] e
    ∧ (o.parseOptions ["-xe".toList] e).1
        = { o with calls := o.calls ++ [Call.setDeleteEmptyLinesMode true] }
    ∧ o.parseOptions ["-xd".toList] e = o.parseOptions ["--pad-first-paren-out".toList] e := by
  rw [parseOptions_single_some o e "-xe".toList "xe".toList _ (by decide) rfl,
    parseOptions_single_some o e "--delete-empty-lines".toList "delete-empty-lines".toList _
      (by decide) rfl,
    parseOptions_single_some o e "-xd".toList "xd".toList _ (by decide) rfl,
    parseOptions_single_some o e "--pad-first-paren-out".toList "pad-first-paren-out".toList _
      (by decide) rfl]
  exact ⟨rfl, rfl, rfl⟩

/-- C17, as stated, fails: from a fresh object, `parseOptions(["-xd"])` makes the call
`setParensFirstPaddingMode(true)` and `parseOptions(["--delete-empty-lines"])` the call
`setDeleteEmptyLinesMode(true)`. -/
theorem C17_xd_differs_from_delete_empty_lines :
    (ASOptions.new.parseOptions ["-xd".toList] []).1.calls
      = [Call.setParensFirstPaddingMode true]
    ∧ (ASOptions.new.parseOptions ["--delete-empty-lines".toList] []).1.calls
      = [Call.setDeleteEmptyLinesMode true]
    ∧ (ASOptions.new.parseOptions ["-xd".toList] []).1.calls
      ≠ (ASOptions.new.parseOptions ["--delete-empty-lines".toList] []).1.calls := by
  have h1 : (ASOptions.new.parseOptions ["-xd".toList] []).1.calls
      = [Call.setParensFirstPaddingMode true] := rfl
  have h2 : (ASOptions.new.parseOptions ["--delete-empty-lines".toList] []).1.calls
      = [Call.setDeleteEmptyLinesMode true] := rfl
  refine ⟨h1, h2, ?_⟩
  rw [h1, h2]
  simp

/-- C18 at its failing input: `parseOptions(["-xP"])` reports the option "xP" as an error,
makes no call and returns false, while `parseOptions(["--pad-method-colon=none"])` makes the
call `setObjCColonPaddingMode(COLON_PAD_NONE)` and returns true; the short option that does
the same is "-xP0". The options "-xP1", "-xP2" and "-xP3" do equal the all, after and before
forms. -/
theorem C18_xP_is_rejected :
    ASOptions.new.parseOptions ["-xP".toList] "E".toList
      = ({ calls := [], optionErrors := "E\nxP\n".toList }, false)
    ∧ ASOptions.new.parseOptions ["--pad-method-colon=none".toList] "E".toList
      = ({ calls := [Call.setObjCColonPaddingMode ObjCColonPad.COLON_PAD_NONE],
           optionErrors := [] }, true)
    ∧ ASOptions.new.parseOptions ["-xP0".toList] "E".toList
      = ASOptions.new.parseOptions ["--pad-method-colon=none".toList] "E".toList
    ∧ ASOptions.new.parseOptions ["-xP1".toList] "E".toList
      = ASOptions.new.parseOptions ["--pad-method-colon=all".toList] "E".toList
    ∧ ASOptions.new.parseOptions ["-xP2".toList] "E".toList
      = ASOptions.new.parseOptions ["--pad-method-colon=after".toList] "E".toList
    ∧ ASOptions.new.parseOptions ["-xP3".toList] "E".toList
      = ASOptions.new.parseOptions ["--pad-method-colon=before".toList] "E".toList :=
  ⟨rfl, rfl, rfl, rfl, rfl, rfl⟩

/-- Claim C19. For every options text and every options vector, `importOptions` returns and
the vector it leaves is the given one followed by the tokens of the text, in order: the
maximal runs of characters between separators, where a separator is a space, tab, comma, CR
or LF and a `#` with what follows it up to the end of its line separates as well. No token is
empty, and none holds a separator character or `#`. -/
theorem C19_importOptions_appends_the_tokens (text : List Char) (v : List (List Char)) :
    importOptions (IStream.ofInput text) v = some (v ++ optionTokens text)
    ∧ (∀ t ∈ optionTokens text, t ≠ [] ∧ ∀ c ∈ t, isOptionSeparator c = false ∧ c ≠ '#')
    ∧ optionTokens " --style=kr,-p\t# indent, here\r\n-s4#x".toList
        = ["--style=kr".toList, "-p".toList, "-s4".toList] :=
  ⟨importOptions_spec text v, optionTokens_wellFormed text, by decide⟩

/-- Claim C20. For every line, every index `i` that is a potential-header start and every
keyword, `findKeyword` returns false whenever the line does not hold the keyword at position
`i`, and false whenever the character right after the place of the keyword exists and is a
legal-name character; `findKeyword("returnValue", 0, "return")` is false. -/
theorem C20_findKeyword_rejects_longer_words (line keyword : List Char) (i : Nat)
    (hi : TRBase.isCharPotentialHeader line i = some true) :
    ((line.drop i).take keyword.length ≠ keyword →
        TRBase.findKeyword line i keyword = some false)
    ∧ (∀ c, line.get? (i + keyword.length) = some c → TRBase.isLegalNameChar c = true →
        TRBase.findKeyword line i keyword = some false)
    ∧ TRBase.findKeyword "returnValue".toList 0 "return".toList = some false := by
  refine ⟨?_, ?_, by decide⟩
  · intro h
    simp [TRBase.findKeyword, hi, h]
  · intro c hc hl
    have hlt : i + keyword.length < line.length := by
      rw [List.get?_eq_some] at hc
      exact hc.1
    have hg : line.getD (i + keyword.length) (Char.ofNat 0) = c := by
      rw [List.getD_eq_getElem?_getD, ← List.get?_eq_getElem?, hc]; rfl
    simp only [TRBase.findKeyword, hi]
    split
    · rfl
    · split
      · rfl
      · rw [if_neg (by omega), hg, hl]; rfl

/-- Claim C20 at the line `returnValue`, index 0 and the keyword `return`. -/
theorem C20_findKeyword_rejects_longer_words_witness :
    TRBase.isCharPotentialHeader "returnValue".toList 0 = some true
    ∧ TRBase.findKeyword "returnValue".toList 0 "return".toList = some false :=
  ⟨by decide, (C20_findKeyword_rejects_longer_words "returnValue".toList "return".toList 0
    (by decide)).2.1 'V' (by decide) (by decide)⟩

/-- Claim C21, amended. For every line, potential-header index `i` and keyword, `findKeyword`
returns, and it returns true exactly when the keyword occurs in the line at position `i`, the
character immediately after the occurrence, if there is one, is not a legal-name character,
and the first character after the occurrence that is neither a space nor a tab, if there is
one, is neither `,` nor `)`. -/
theorem C21_findKeyword_true_iff (line keyword : List Char) (i : Nat)
    (hi : TRBase.isCharPotentialHeader line i = some true) :
    (∃ b, TRBase.findKeyword line i keyword = some b)
    ∧ (TRBase.findKeyword line i keyword = some true
        ↔ OccursAt line i keyword
          ∧ (∀ c, line.get? (i + keyword.length) = some c → TRBase.isLegalNameChar c = false)
          ∧ (∀ c, firstNonBlankFrom line (i + keyword.length) = some c
              → c ≠ ',' ∧ c ≠ ')')) :=
  ⟨findKeyword_returns line keyword i hi, findKeyword_true_iff line keyword i hi⟩

/-- Claim C21 at the line `return x`, index 0 and the keyword `return`. -/
theorem C21_findKeyword_true_iff_witness :
    TRBase.isCharPotentialHeader "return x".toList 0 = some true
    ∧ TRBase.findKeyword "return x".toList 0 "return".toList = some true :=
  ⟨by decide, (C21_findKeyword_true_iff "return x".toList "return".toList 0 (by decide)).2.2
    ⟨by decide, fun c hc => by
        have h : c = ' ' := by
          have h' : some ' ' = some c := hc
          exact (Option.some.inj h').symm
        subst h; decide,
      fun c hc => by
        have h : c = 'x' := by
          have h' : some 'x' = some c := hc
          exact (Option.some.inj h').symm
        subst h; decide⟩⟩

/-- Claim C21, as stated, fails: in the line `return ,` the keyword `return` occurs at the
potential-header index 0 and the character immediately after it, a space, is neither a
legal-name character nor `,` nor `)`, and yet `findKeyword` returns false. -/
theorem C21_blank_before_comma_is_rejected :
    TRBase.isCharPotentialHeader "return ,".toList 0 = some true
    ∧ OccursAt "return ,".toList 0 "return".toList
    ∧ "return ,".toList.get? (0 + "return".toList.length) = some ' '
    ∧ TRBase.isLegalNameChar ' ' = false ∧ ' ' ≠ ',' ∧ ' ' ≠ ')'
    ∧ TRBase.findKeyword "return ,".toList 0 "return".toList = some false := by
  decide

/-- Claim C22. For every character, `isLegalNameChar` is true exactly when the character is an
ASCII letter, an ASCII digit, `_` or `.`; it is false for the space, the tab and every
character whose code is above 127. -/
theorem C22_isLegalNameChar (ch : Char) :
    (TRBase.isLegalNameChar ch = true
      ↔ IsAsciiLetter ch ∨ IsAsciiDigit ch ∨ ch = '_' ∨ ch = '.')
    ∧ TRBase.isLegalNameChar ' ' = false
    ∧ TRBase.isLegalNameChar '\t' = false
    ∧ (ch.toNat > 127 → TRBase.isLegalNameChar ch = false) := by
  refine ⟨isLegalNameChar_iff ch, by decide, by decide, ?_⟩
  intro h
  simp [TRBase.isLegalNameChar, h]

/-- Claim C23. For every character that is neither a space nor a tab, `isCharPotentialOperator`
returns, and it returns true exactly when the character is an ASCII punctuation character
other than the twelve characters `{ } ( ) [ ] ; , #`, backslash, single quote and double
quote; it returns false for every character above 127. -/
theorem C23_isCharPotentialOperator (ch : Char) (hws : TRBase.isWhiteSpace ch = false) :
    (∃ b, TRBase.isCharPotentialOperator ch = some b)
    ∧ (TRBase.isCharPotentialOperator ch = some true
        ↔ IsAsciiPunctuation ch ∧ ch ∉ nonOperatorPunctuation)
    ∧ (ch.toNat > 127 → TRBase.isCharPotentialOperator ch = some false) := by
  refine ⟨(isCharPotentialOperator_iff ch hws).1, (isCharPotentialOperator_iff ch hws).2, ?_⟩
  intro h
  simp [TRBase.isCharPotentialOperator, hws, h]

/-- Claim C23 at the character `+`. -/
theorem C23_isCharPotentialOperator_witness :
    TRBase.isWhiteSpace '+' = false ∧ TRBase.isCharPotentialOperator '+' = some true :=
  ⟨by decide, (C23_isCharPotentialOperator '+' (by decide)).2.1.2
    ⟨by decide, by decide⟩⟩

/-- Claim C24. In every table that `buildOperators`, `buildAssignmentOperators` or
`buildNonAssignmentOperators` may leave from an empty vector, an entry stands before each of
its proper prefixes in the table; and for every text, the first entry of the table that
matches the text is an entry of the greatest length among those that match it, and there is
such a first entry whenever some entry matches. -/
theorem C24_longest_entry_is_found_first (table : List (List Char))
    (h : buildOperators [] table ∨ buildAssignmentOperators [] table
      ∨ buildNonAssignmentOperators [] table) :
    (∀ a ∈ table, ∀ b ∈ table, ProperPrefix a b → positionOf b table < positionOf a table)
    ∧ ∀ text : List Char,
        (∀ f, firstMatch table text = some f →
          f ∈ table ∧ Matches f text ∧ ∀ m ∈ table, Matches m text → m.length ≤ f.length)
        ∧ ((∃ m ∈ table, Matches m text) → ∃ f, firstMatch table text = some f) := by
  have hs : SortedByLength table := by
    rcases h with h | h | h <;> exact stdSort_sortOnLength _ _ h
  refine ⟨?_, fun text => ⟨fun f hf => firstMatch_longest table hs text f hf,
    firstMatch_exists table text⟩⟩
  intro a ha b hb hab
  exact sortedByLength_indexOf table hs a b ha hb (properPrefix_length_lt a b hab)

/-- Claim C24 at a non-assignment-operators table: `>>>` stands before its prefix `>>`. -/
theorem C24_longest_entry_is_found_first_witness :
    buildNonAssignmentOperators []
      [">>>".toList, "<<<".toList, "==".toList, "++".toList, "--".toList, "!=".toList,
        ">=".toList, ">>".toList, "<=".toList, "<<".toList, "->".toList, "&&".toList,
        "||".toList, "=>".toList]
    ∧ positionOf ">>>".toList
        [">>>".toList, "<<<".toList, "==".toList, "++".toList, "--".toList, "!=".toList,
          ">=".toList, ">>".toList, "<=".toList, "<<".toList, "->".toList, "&&".toList,
          "||".toList, "=>".toList]
      < positionOf ">>".toList
        [">>>".toList, "<<<".toList, "==".toList, "++".toList, "--".toList, "!=".toList,
          ">=".toList, ">>".toList, "<=".toList, "<<".toList, "->".toList, "&&".toList,
          "||".toList, "=>".toList] :=
  ⟨by decide, (C24_longest_entry_is_found_first _ (Or.inr (Or.inr (by decide)))).1
    ">>".toList (by decide) ">>>".toList (by decide) (by decide)⟩

/-- Claim C25. Every table that a build function of `TRResource` may leave from an empty
vector is sorted, and there is such a table: the operators, assignment-operators and
non-assignment-operators tables by length, no entry longer than an earlier one; the headers,
non-paren headers (for both values of the flag), pre-block statements, pre-command headers,
pre-definition headers, indentable headers and cast operators tables by ascending string
value. -/
theorem C25_tables_are_sorted :
    ((∃ t, buildOperators [] t) ∧ ∀ t, buildOperators [] t → SortedByLength t)
    ∧ ((∃ t, buildAssignmentOperators [] t)
        ∧ ∀ t, buildAssignmentOperators [] t → SortedByLength t)
    ∧ ((∃ t, buildNonAssignmentOperators [] t)
        ∧ ∀ t, buildNonAssignmentOperators [] t → SortedByLength t)
    ∧ (∀ b, (∃ t, buildHeaders [] b t) ∧ ∀ t, buildHeaders [] b t → SortedByName t)
    ∧ (∀ b, (∃ t, buildNonParenHeaders [] b t)
        ∧ ∀ t, buildNonParenHeaders [] b t → SortedByName t)
    ∧ ((∃ t, buildPreBlockStatements [] t)
        ∧ ∀ t, buildPreBlockStatements [] t → SortedByName t)
    ∧ ((∃ t, buildPreCommandHeaders [] t)
        ∧ ∀ t, buildPreCommandHeaders [] t → SortedByName t)
    ∧ ((∃ t, buildPreDefinitionHeaders [] t)
        ∧ ∀ t, buildPreDefinitionHeaders [] t → SortedByName t)
    ∧ ((∃ t, buildIndentableHeaders [] t)
        ∧ ∀ t, buildIndentableHeaders [] t → SortedByName t)
    ∧ SortedByName (buildCastOperators []) := by
  refine ⟨⟨buildOperators_exists, fun t h => stdSort_sortOnLength _ _ h⟩,
    ⟨buildAssignmentOperators_exists, fun t h => stdSort_sortOnLength _ _ h⟩,
    ⟨buildNonAssignmentOperators_exists, fun t h => stdSort_sortOnLength _ _ h⟩,
    fun b => ⟨⟨_, (buildHeaders_iff b _).2 rfl⟩, fun t h => ?_⟩,
    fun b => ⟨⟨_, (buildNonParenHeaders_iff b _).2 rfl⟩, fun t h => ?_⟩,
    ⟨⟨_, (buildPreBlockStatements_iff _).2 rfl⟩, fun t h => ?_⟩,
    ⟨⟨_, (buildPreCommandHeaders_iff _).2 rfl⟩, fun t h => ?_⟩,
    ⟨⟨_, (buildPreDefinitionHeaders_iff _).2 rfl⟩, fun t h => ?_⟩,
    ⟨⟨_, (buildIndentableHeaders_iff _).2 rfl⟩, fun t h => ?_⟩, by decide⟩
  · rw [(buildHeaders_iff b t).1 h]; cases b <;> decide
  · rw [(buildNonParenHeaders_iff b t).1 h]; cases b <;> decide
  · rw [(buildPreBlockStatements_iff t).1 h]; decide
  · rw [(buildPreCommandHeaders_iff t).1 h]; decide
  · rw [(buildPreDefinitionHeaders_iff t).1 h]; decide
  · rw [(buildIndentableHeaders_iff t).1 h]; decide

/-- Claim C26. No table that a build function of `TRResource` may leave from an empty vector
holds the same string twice, for all ten build functions and both values of the flag. -/
theorem C26_tables_have_no_duplicates :
    (∀ t, buildOperators [] t → t.Nodup)
    ∧ (∀ t, buildAssignmentOperators [] t → t.Nodup)
    ∧ (∀ t, buildNonAssignmentOperators [] t → t.Nodup)
    ∧ (∀ b t, buildHeaders [] b t → t.Nodup)
    ∧ (∀ b t, buildNonParenHeaders [] b t → t.Nodup)
    ∧ (∀ t, buildPreBlockStatements [] t → t.Nodup)
    ∧ (∀ t, buildPreCommandHeaders [] t → t.Nodup)
    ∧ (∀ t, buildPreDefinitionHeaders [] t → t.Nodup)
    ∧ (∀ t, buildIndentableHeaders [] t → t.Nodup)
    ∧ (buildCastOperators []).Nodup
    ∧ (∃ t, buildOperators [] t) ∧ (∃ t, buildAssignmentOperators [] t)
    ∧ (∃ t, buildNonAssignmentOperators [] t)
    ∧ (∀ b, (∃ t, buildHeaders [] b t) ∧ ∃ t, buildNonParenHeaders [] b t)
    ∧ (∃ t, buildPreBlockStatements [] t) ∧ (∃ t, buildPreCommandHeaders [] t)
    ∧ (∃ t, buildPreDefinitionHeaders [] t) ∧ (∃ t, buildIndentableHeaders [] t) := by
  refine ⟨buildOperators_nodup, buildAssignmentOperators_nodup,
    buildNonAssignmentOperators_nodup, fun b t h => ?_, fun b t h => ?_, fun t h => ?_,
    fun t h => ?_, fun t h => ?_, fun t h => ?_, by decide,
    buildOperators_exists, buildAssignmentOperators_exists,
    buildNonAssignmentOperators_exists,
    fun b => ⟨⟨_, (buildHeaders_iff b _).2 rfl⟩, ⟨_, (buildNonParenHeaders_iff b _).2 rfl⟩⟩,
    ⟨_, (buildPreBlockStatements_iff _).2 rfl⟩, ⟨_, (buildPreCommandHeaders_iff _).2 rfl⟩,
    ⟨_, (buildPreDefinitionHeaders_iff _).2 rfl⟩, ⟨_, (buildIndentableHeaders_iff _).2 rfl⟩⟩
  · rw [(buildHeaders_iff b t).1 h]; cases b <;> decide
  · rw [(buildNonParenHeaders_iff b t).1 h]; cases b <;> decide
  · rw [(buildPreBlockStatements_iff t).1 h]; decide
  · rw [(buildPreCommandHeaders_iff t).1 h]; decide
  · rw [(buildPreDefinitionHeaders_iff t).1 h]; decide
  · rw [(buildIndentableHeaders_iff t).1 h]; decide

/-- Claim C27. The headers table that `buildHeaders` leaves from an empty vector holds every
control-flow header keyword: `if`, `else`, `for`, `while`, `do`, `switch`, `case`, `default`,
`try`, `catch`, `__try`, `__finally` and `__except`. With the flag false it holds exactly
these thirteen strings, with the flag true exactly these and `template`, each of them
once. -/
theorem C27_headers_table (beautifier : Bool) (table : List (List Char))
    (h : buildHeaders [] beautifier table) :
    (∀ s, s ∈ table ↔
      s ∈ ["if".toList, "else".toList, "for".toList, "while".toList, "do".toList,
            "switch".toList, "case".toList, "default".toList, "try".toList, "catch".toList,
            "__try".toList, "__finally".toList, "__except".toList]
          ++ (if beautifier then ["template".toList] else []))
    ∧ table.Nodup
    ∧ table.length = (if beautifier then 14 else 13) := by
  refine ⟨fun s => h.1.mem_iff, ?_, ?_⟩
  · rw [(buildHeaders_iff beautifier table).1 h]; cases beautifier <;> decide
  · rw [(buildHeaders_iff beautifier table).1 h]; cases beautifier <;> rfl

/-- Claim C27 at the headers table of the flag false. -/
theorem C27_headers_table_witness :
    buildHeaders [] false
      ["__except".toList, "__finally".toList, "__try".toList, "case".toList, "catch".toList,
        "default".toList, "do".toList, "else".toList, "for".toList, "if".toList,
        "switch".toList, "try".toList, "while".toList]
    ∧ ["__except".toList, "__finally".toList, "__try".toList, "case".toList, "catch".toList,
        "default".toList, "do".toList, "else".toList, "for".toList, "if".toList,
        "switch".toList, "try".toList, "while".toList].length = 13 :=
  ⟨by decide, (C27_headers_table false _ (by decide)).2.2⟩

/-- Claim C28, amended. The pre-block-statements table that `buildPreBlockStatements` leaves
from an empty vector consists of the four keywords `namespace`, `class`, `struct` and
`union`: it is the vector of `class`, `namespace`, `struct`, `union`. -/
theorem C28_pre_block_statements_are_four (table : List (List Char)) :
    buildPreBlockStatements [] table
      ↔ table = ["class".toList, "namespace".toList, "struct".toList, "union".toList] :=
  buildPreBlockStatements_iff table

/-- Claim C28, as stated, fails: the table that `buildPreBlockStatements` leaves from an empty
vector has four entries and the keyword `interface` is none of them. -/
theorem C28_interface_is_not_in_the_table :
    buildPreBlockStatements []
      ["class".toList, "namespace".toList, "struct".toList, "union".toList]
    ∧ (∀ t, buildPreBlockStatements [] t → t.length = 4 ∧ "interface".toList ∉ t) := by
  refine ⟨by decide, fun t h => ?_⟩
  rw [(buildPreBlockStatements_iff t).1 h]
  decide

/-- Claim C29. For both values of the flag, the tables that the build functions leave from
empty vectors respect their build notes, and there are such tables: every non-paren header is
in the headers table, no header is a pre-block statement, and no header is a pre-command
header. -/
theorem C29_keyword_tables_respect_their_notes :
    ∀ b : Bool,
      (∃ headers nonParenHeaders preBlockStatements preCommandHeaders,
        buildHeaders [] b headers ∧ buildNonParenHeaders [] b nonParenHeaders
        ∧ buildPreBlockStatements [] preBlockStatements
        ∧ buildPreCommandHeaders [] preCommandHeaders)
      ∧ ∀ headers nonParenHeaders preBlockStatements preCommandHeaders,
          buildHeaders [] b headers → buildNonParenHeaders [] b nonParenHeaders →
          buildPreBlockStatements [] preBlockStatements →
          buildPreCommandHeaders [] preCommandHeaders →
          (∀ s ∈ nonParenHeaders, s ∈ headers)
          ∧ (∀ s ∈ headers, s ∉ preBlockStatements)
          ∧ (∀ s ∈ headers, s ∉ preCommandHeaders) := by
  intro b
  refine ⟨⟨_, _, _, _, (buildHeaders_iff b _).2 rfl, (buildNonParenHeaders_iff b _).2 rfl,
    (buildPreBlockStatements_iff _).2 rfl, (buildPreCommandHeaders_iff _).2 rfl⟩, ?_⟩
  intro hd np pb pc h1 h2 h3 h4
  rw [(buildHeaders_iff b hd).1 h1, (buildNonParenHeaders_iff b np).1 h2,
    (buildPreBlockStatements_iff pb).1 h3, (buildPreCommandHeaders_iff pc).1 h4]
  cases b <;> decide

/-- Claim C30. The operator tables that the build functions leave from empty vectors agree
with their names, and there are such tables: every entry of the assignment-operators table
and every entry of the non-assignment-operators table is an entry of the operators table, and
no entry of the assignment-operators table is in the non-assignment-operators table. -/
theorem C30_operator_tables_are_consistent :
    (∃ operators assignmentOperators nonAssignmentOperators,
      buildOperators [] operators ∧ buildAssignmentOperators [] assignmentOperators
      ∧ buildNonAssignmentOperators [] nonAssignmentOperators)
    ∧ ∀ operators assignmentOperators nonAssignmentOperators,
        buildOperators [] operators → buildAssignmentOperators [] assignmentOperators →
        buildNonAssignmentOperators [] nonAssignmentOperators →
        (∀ s ∈ assignmentOperators, s ∈ operators)
        ∧ (∀ s ∈ nonAssignmentOperators, s ∈ operators)
        ∧ (∀ s ∈ assignmentOperators, s ∉ nonAssignmentOperators) := by
  obtain ⟨o, ho⟩ := buildOperators_exists
  obtain ⟨a, ha⟩ := buildAssignmentOperators_exists
  obtain ⟨n, hn⟩ := buildNonAssignmentOperators_exists
  refine ⟨⟨o, a, n, ho, ha, hn⟩, ?_⟩
  intro ops asg nasg h1 h2 h3
  refine ⟨?_, ?_, ?_⟩
  · intro s hs
    exact h1.1.mem_iff.2 ((by decide : ∀ s ∈ _, s ∈ _) s (h2.1.mem_iff.1 hs))
  · intro s hs
    exact h1.1.mem_iff.2 ((by decide : ∀ s ∈ _, s ∈ _) s (h3.1.mem_iff.1 hs))
  · intro s hs hs'
    exact (by decide : ∀ s ∈ _, s ∉ _) s (h2.1.mem_iff.1 hs) (h3.1.mem_iff.1 hs')

/-- Claim C32 at its failing input: for the UTF-16LE block `FF FE E9 00`, a byte order mark
and the character U+00E9, `Utf8LengthFromUtf16` computes the length 5 and `Utf16ToUtf8`, run
as a first block, writes the 4 bytes `EF BB BF C3`: the loop ends before the last byte of the
last character is written, and the static state is left at `eFinal`. The same happens in the
other byte order. -/
theorem C32_written_length_differs_from_computed_length :
    ASConsole.Utf8LengthFromUtf16 [0xFF, 0xFE, 0xE9, 0x00] .UTF_16LE = some 5
    ∧ ASConsole.Utf16ToUtf8 [0xFF, 0xFE, 0xE9, 0x00] .UTF_16LE true .eStart
        = some ([0xEF, 0xBB, 0xBF, 0xC3], .eFinal)
    ∧ [0xEF, 0xBB, 0xBF, 0xC3].length = 4
    ∧ ASConsole.Utf8LengthFromUtf16 [0xFE, 0xFF, 0x00, 0xE9] .UTF_16BE = some 5
    ∧ ASConsole.Utf16ToUtf8 [0xFE, 0xFF, 0x00, 0xE9] .UTF_16BE true .eStart
        = some ([0xEF, 0xBB, 0xBF, 0xC3], .eFinal) := by
  decide

/-- Claim C33 at its failing input: the UTF-16LE text `FF FE E9 00`, a byte order mark and the
character U+00E9, is converted by `Utf16ToUtf8` to `EF BB BF C3`, and `Utf8ToUtf16` converts
that back to `FF FE`, which is not the text; a text that ends in an ASCII character, such as
`FF FE E9 00 0A 00`, does come back. -/
theorem C33_last_character_is_lost :
    ASConsole.Utf16ToUtf8 [0xFF, 0xFE, 0xE9, 0x00] .UTF_16LE true .eStart
        = some ([0xEF, 0xBB, 0xBF, 0xC3], .eFinal)
    ∧ ASConsole.Utf8ToUtf16 [0xEF, 0xBB, 0xBF, 0xC3] .UTF_16LE = [0xFF, 0xFE]
    ∧ [0xFF, 0xFE] ≠ [0xFF, 0xFE, 0xE9, 0x00]
    ∧ ASConsole.Utf16ToUtf8 [0xFF, 0xFE, 0xE9, 0x00, 0x0A, 0x00] .UTF_16LE true .eStart
        = some ([0xEF, 0xBB, 0xBF, 0xC3, 0xA9, 0x0A], .eStart)
    ∧ ASConsole.Utf8ToUtf16 [0xEF, 0xBB, 0xBF, 0xC3, 0xA9, 0x0A] .UTF_16LE
        = [0xFF, 0xFE, 0xE9, 0x00, 0x0A, 0x00] := by
  decide

/-- Claim C34. From every iterator state in which `nextLine` may be called and whose stream is
good, the first `peekNextLine` call returns, and whenever `k` successive `peekNextLine` calls
return, that is, whenever the peeks before the last one did not reach the end of the input,
`k` successive `nextLine` calls from the same state return the same strings in the same
order, whatever their arguments. -/
theorem C34_peekNextLine_previews_nextLine (it : TRStreamIterator) (data : List Char)
    (pos : Nat) (hp : it.peekStart = 0) (hs : it.inStream = ⟨data, pos, false, false⟩) :
    (∃ line it1, it.peekNextLine = some (line, it1))
    ∧ ∀ (k : Nat) (lines : List (List Char)), peekedLines k it = some lines →
        ∀ flags : List Bool, flags.length = k → nextLinesReturned flags it = some lines :=
  ⟨peekNextLine_returns it data pos hs, fun k lines hpk flags hfl =>
    peekedLines_preview k it it data pos pos hp hs hs rfl lines hpk flags hfl⟩

/-- Claim C34 at the input `a`, LF, `b`, CR, LF, `c` read from its start: three peeks and
three `nextLine` calls return `a`, `b`, `c`. -/
theorem C34_peekNextLine_previews_nextLine_witness :
    peekedLines 3 (TRStreamIterator.new (IStream.ofInput "a\nb\r\nc".toList))
      = some ["a".toList, "b".toList, "c".toList]
    ∧ nextLinesReturned [false, false, false]
        (TRStreamIterator.new (IStream.ofInput "a\nb\r\nc".toList))
      = some ["a".toList, "b".toList, "c".toList] :=
  ⟨by decide, (C34_peekNextLine_previews_nextLine
    (TRStreamIterator.new (IStream.ofInput "a\nb\r\nc".toList)) "a\nb\r\nc".toList 0 rfl rfl).2
    3 _ (by decide) [false, false, false] rfl⟩

/-- Claim C35. For every line, every potential-header index `i` and every non-empty keyword
made only of legal-name characters, `findKeyword(line, i, kw)` is true exactly when
`getCurrentWord(line, i)` is the keyword and `peekNextChar(line, i + |kw| - 1)` is neither
`,` nor `)`; both functions return. -/
theorem C35_findKeyword_and_getCurrentWord (line keyword : List Char) (i : Nat)
    (hi : TRBase.isCharPotentialHeader line i = some true) (_hne : keyword ≠ [])
    (hleg : ∀ c ∈ keyword, TRBase.isLegalNameChar c = true) :
    (∃ b, TRBase.findKeyword line i keyword = some b)
    ∧ (∃ w, TRBase.getCurrentWord line i = some w)
    ∧ (TRBase.findKeyword line i keyword = some true
        ↔ TRBase.getCurrentWord line i = some keyword
          ∧ TRBase.peekNextChar line ((i : Int) + (keyword.length : Int) - 1) ≠ ','
          ∧ TRBase.peekNextChar line ((i : Int) + (keyword.length : Int) - 1) ≠ ')') := by
  refine ⟨findKeyword_returns line keyword i hi, ⟨_, getCurrentWord_eq line i hi⟩, ?_⟩
  have hp := peekNextChar_after line (i + keyword.length)
  simp only [Nat.cast_add] at hp
  rw [findKeyword_true_iff line keyword i hi, getCurrentWord_eq_iff line keyword i hi hleg]
  constructor
  · rintro ⟨h1, h2, h3⟩
    refine ⟨⟨h1, h2⟩, ?_, ?_⟩
    · intro hc
      obtain ⟨c, hc1, hc2⟩ := hp.1 (Or.inl hc)
      rcases hc2 with rfl | rfl
      · exact (h3 _ hc1).1 rfl
      · exact (h3 _ hc1).2 rfl
    · intro hc
      obtain ⟨c, hc1, hc2⟩ := hp.1 (Or.inr hc)
      rcases hc2 with rfl | rfl
      · exact (h3 _ hc1).1 rfl
      · exact (h3 _ hc1).2 rfl
  · rintro ⟨⟨h1, h2⟩, h3, h4⟩
    refine ⟨h1, h2, fun c hc => ⟨?_, ?_⟩⟩
    · intro hcc
      rcases hp.2 ⟨c, hc, Or.inl hcc⟩ with h | h
      · exact h3 h
      · exact h4 h
    · intro hcc
      rcases hp.2 ⟨c, hc, Or.inr hcc⟩ with h | h
      · exact h3 h
      · exact h4 h

/-- Claim C35 at the line `if (x)`, index 0 and the keyword `if`. -/
theorem C35_findKeyword_and_getCurrentWord_witness :
    TRBase.getCurrentWord "if (x)".toList 0 = some "if".toList
    ∧ TRBase.findKeyword "if (x)".toList 0 "if".toList = some true :=
  ⟨by decide, (C35_findKeyword_and_getCurrentWord "if (x)".toList "if".toList 0 (by decide)
    (by decide) (by decide)).2.2.2 ⟨by decide, by decide, by decide⟩⟩

/-- Claim C36. In every table that the build functions leave from empty vectors, and there
are such tables: every character of every entry of the operators, assignment-operators and
non-assignment-operators tables satisfies `isCharPotentialOperator`; every character of every
entry of the headers, non-paren headers, pre-block, pre-command, pre-definition, indentable
and cast tables satisfies `isLegalNameChar`, and for each such keyword `k`,
`findKeyword(k, 0, k)` is true. -/
theorem C36_tables_agree_with_the_lexical_classes :
    ((∃ t, buildOperators [] t) ∧ ∀ t, buildOperators [] t →
        ∀ e ∈ t, ∀ c ∈ e, TRBase.isCharPotentialOperator c = some true)
    ∧ ((∃ t, buildAssignmentOperators [] t) ∧ ∀ t, buildAssignmentOperators [] t →
        ∀ e ∈ t, ∀ c ∈ e, TRBase.isCharPotentialOperator c = some true)
    ∧ ((∃ t, buildNonAssignmentOperators [] t) ∧ ∀ t, buildNonAssignmentOperators [] t →
        ∀ e ∈ t, ∀ c ∈ e, TRBase.isCharPotentialOperator c = some true)
    ∧ (∀ b, (∃ t, buildHeaders [] b t) ∧ ∀ t, buildHeaders [] b t → ∀ k ∈ t,
        (∀ c ∈ k, TRBase.isLegalNameChar c = true) ∧ TRBase.findKeyword k 0 k = some true)
    ∧ (∀ b, (∃ t, buildNonParenHeaders [] b t) ∧ ∀ t, buildNonParenHeaders [] b t → ∀ k ∈ t,
        (∀ c ∈ k, TRBase.isLegalNameChar c = true) ∧ TRBase.findKeyword k 0 k = some true)
    ∧ ((∃ t, buildPreBlockStatements [] t) ∧ ∀ t, buildPreBlockStatements [] t → ∀ k ∈ t,
        (∀ c ∈ k, TRBase.isLegalNameChar c = true) ∧ TRBase.findKeyword k 0 k = some true)
    ∧ ((∃ t, buildPreCommandHeaders [] t) ∧ ∀ t, buildPreCommandHeaders [] t → ∀ k ∈ t,
        (∀ c ∈ k, TRBase.isLegalNameChar c = true) ∧ TRBase.findKeyword k 0 k = some true)
    ∧ ((∃ t, buildPreDefinitionHeaders [] t) ∧ ∀ t, buildPreDefinitionHeaders [] t → ∀ k ∈ t,
        (∀ c ∈ k, TRBase.isLegalNameChar c = true) ∧ TRBase.findKeyword k 0 k = some true)
    ∧ ((∃ t, buildIndentableHeaders [] t) ∧ ∀ t, buildIndentableHeaders [] t → ∀ k ∈ t,
        (∀ c ∈ k, TRBase.isLegalNameChar c = true) ∧ TRBase.findKeyword k 0 k = some true)
    ∧ (∀ k ∈ buildCastOperators [],
        (∀ c ∈ k, TRBase.isLegalNameChar c = true)
        ∧ TRBase.findKeyword k 0 k = some true) := by
  refine ⟨⟨buildOperators_exists, fun t h e he => ?_⟩,
    ⟨buildAssignmentOperators_exists, fun t h e he => ?_⟩,
    ⟨buildNonAssignmentOperators_exists, fun t h e he => ?_⟩,
    fun b => ⟨⟨_, (buildHeaders_iff b _).2 rfl⟩, fun t h => ?_⟩,
    fun b => ⟨⟨_, (buildNonParenHeaders_iff b _).2 rfl⟩, fun t h => ?_⟩,
    ⟨⟨_, (buildPreBlockStatements_iff _).2 rfl⟩, fun t h => ?_⟩,
    ⟨⟨_, (buildPreCommandHeaders_iff _).2 rfl⟩, fun t h => ?_⟩,
    ⟨⟨_, (buildPreDefinitionHeaders_iff _).2 rfl⟩, fun t h => ?_⟩,
    ⟨⟨_, (buildIndentableHeaders_iff _).2 rfl⟩, fun t h => ?_⟩, by decide⟩
  · exact (by decide : ∀ e ∈ _, ∀ c ∈ e, TRBase.isCharPotentialOperator c = some true) e
      (h.1.mem_iff.1 he)
  · exact (by decide : ∀ e ∈ _, ∀ c ∈ e, TRBase.isCharPotentialOperator c = some true) e
      (h.1.mem_iff.1 he)
  · exact (by decide : ∀ e ∈ _, ∀ c ∈ e, TRBase.isCharPotentialOperator c = some true) e
      (h.1.mem_iff.1 he)
  · rw [(buildHeaders_iff b t).1 h]; cases b <;> decide
  · rw [(buildNonParenHeaders_iff b t).1 h]; cases b <;> decide
  · rw [(buildPreBlockStatements_iff t).1 h]; decide
  · rw [(buildPreCommandHeaders_iff t).1 h]; decide
  · rw [(buildPreDefinitionHeaders_iff t).1 h]; decide
  · rw [(buildIndentableHeaders_iff t).1 h]; decide

/-- Claim C37. For every string and every explicit target, `convertLineEnds` returns and its
result uses only the terminator of the target: for LF it holds no CR, for CR it holds no LF,
and for CRLF every CR is immediately followed by LF and every LF immediately preceded by
CR. -/
theorem C37_convertLineEnds_uses_the_target (s : List Char) :
    (∃ r, ASConsole.convertLineEnds s .LINEEND_LINUX = some r ∧ '\r' ∉ r)
    ∧ (∃ r, ASConsole.convertLineEnds s .LINEEND_MACOLD = some r ∧ '\n' ∉ r)
    ∧ (∃ r, ASConsole.convertLineEnds s .LINEEND_WINDOWS = some r ∧ OnlyCRLF r) :=
  ⟨⟨_, convertLineEnds_eq s _ (by decide), withLineEnds_linux_no_cr s⟩,
    ⟨_, convertLineEnds_eq s _ (by decide), withLineEnds_macold_no_lf s⟩,
    ⟨_, convertLineEnds_eq s _ (by decide), withLineEnds_windows_onlyCRLF s⟩⟩

/-- Claim C38. For every string and every explicit target, `convertLineEnds` returns a string
that, without its CR and LF characters, is the given string without its CR and LF characters,
and that has as many line terminators as the given string, a CR directly followed by LF
counting as one and every other CR or LF as one. -/
theorem C38_convertLineEnds_changes_terminators_only (s : List Char) (t : LineEndFormat)
    (ht : t ≠ .LINEEND_DEFAULT) :
    ∃ r, ASConsole.convertLineEnds s t = some r
      ∧ withoutEolChars r = withoutEolChars s
      ∧ lineEndCount r = lineEndCount s :=
  ⟨_, convertLineEnds_eq s t ht, withoutEolChars_withLineEnds t s,
    lineEndCount_withLineEnds t ht s⟩

/-- Claim C38 at the string `a`, CR, LF, `b`, LF, CR and the target CR. -/
theorem C38_convertLineEnds_changes_terminators_only_witness :
    ∃ r, ASConsole.convertLineEnds "a\r\nb\n\r".toList .LINEEND_MACOLD = some r
      ∧ withoutEolChars r = withoutEolChars "a\r\nb\n\r".toList
      ∧ lineEndCount r = lineEndCount "a\r\nb\n\r".toList :=
  C38_convertLineEnds_changes_terminators_only "a\r\nb\n\r".toList .LINEEND_MACOLD (by decide)

/-- Claim C39. For every string and explicit targets `a` and `b`, converting to `a` and then
to `b` returns what converting to `b` returns; with `a = b`, converting twice returns what
converting once returns. -/
theorem C39_last_conversion_wins (s : List Char) (a b : LineEndFormat)
    (ha : a ≠ .LINEEND_DEFAULT) (hb : b ≠ .LINEEND_DEFAULT) :
    ∃ r1 r2, ASConsole.convertLineEnds s a = some r1
      ∧ ASConsole.convertLineEnds r1 b = some r2
      ∧ ASConsole.convertLineEnds s b = some r2 :=
  ⟨_, _, convertLineEnds_eq s a ha, convertLineEnds_eq _ b hb, by
    rw [withLineEnds_withLineEnds a b ha]; exact convertLineEnds_eq s b hb⟩

/-- Claim C39 at the string `a`, CR, LF, `b`, LF, CR and the targets CR and CRLF. -/
theorem C39_last_conversion_wins_witness :
    ∃ r1 r2, ASConsole.convertLineEnds "a\r\nb\n\r".toList .LINEEND_MACOLD = some r1
      ∧ ASConsole.convertLineEnds r1 .LINEEND_WINDOWS = some r2
      ∧ ASConsole.convertLineEnds "a\r\nb\n\r".toList .LINEEND_WINDOWS = some r2 :=
  C39_last_conversion_wins "a\r\nb\n\r".toList .LINEEND_MACOLD .LINEEND_WINDOWS
    (by decide) (by decide)

end TaaRRule
